import Mathlib

set_option maxHeartbeats 1600000
set_option maxRecDepth 8000

/-!
Verification development for the mf2-i18n repository (MessageFormat 2
internationalization toolchain).  The Rust sources are shallowly embedded:
pure functions become Lean functions, machine integers become Nat / Int with
explicit truncation where the source truncates, fallible functions return
Except, and the unbounded interpreter loop is modelled with explicit fuel
(the Rust loop terminates on an input exactly when some fuel amount yields a
result).  Two irreducibly platform-specific datatypes are abstracted:
f64 values are modelled as rationals (every finite f64 is a rational, and all
comparisons and casts the code performs are exact on rationals), and the
8-byte IEEE754 serialization of an f64 is modelled as an injective 8-token
encoding of the rational with a matching decoder, mirroring the exactness of
the bit-level round-trip.  Strings in the binary pack format are modelled as
length-prefixed runs of their Unicode code points with a matching validity
check on decode, mirroring the length-prefixed UTF-8 byte runs of the source.
-/

namespace Mf2

/-- Error type of the mf2-i18n-core crate (error.rs): Unsupported, InvalidInput
and Internal, each carrying a static message. -/
inductive CoreError where
  | unsupported (msg : String)
  | invalidInput (msg : String)
  | internal (msg : String)
deriving DecidableEq

/-- Result alias of the core crate. -/
abbrev CoreResult (α : Type) := Except CoreError α

deriving instance DecidableEq for Except

/-- Plural categories of format_backend.rs. -/
inductive PluralCategory where
  | zero | one | two | few | many | other
deriving DecidableEq

/-- Plural rulesets of bytecode.rs; only Cardinal exists. -/
inductive PluralRuleset where
  | cardinal
deriving DecidableEq

/-- Formatter identifiers of format_backend.rs. -/
inductive FormatterId where
  | number | date | time | dateTime | unit | currency | identity
deriving DecidableEq

/-- Opcodes of bytecode.rs.  Index operands (u32 in the source) are Nat,
the relative jump offset (i32) is Int, opt_count (u8) is Nat. -/
inductive Opcode where
  | emitText (sidx : Nat)
  | emitStack
  | pushStr (sidx : Nat)
  | pushNum (nidx : Nat)
  | pushArg (aidx : Nat)
  | dup
  | pop
  | callFmt (fid : FormatterId) (opt_count : Nat)
  | select (aidx : Nat) (table : Nat)
  | selectPlural (aidx : Nat) (ruleset : PluralRuleset) (table : Nat)
  | jump (rel : Int)
  | endOp
deriving DecidableEq

/-- Case keys of bytecode.rs. -/
inductive CaseKey where
  | string (sidx : Nat)
  | exact (n : Nat)
  | category (c : PluralCategory)
  | other
deriving DecidableEq

/-- Case table entry of bytecode.rs: a key and a target opcode index (u32). -/
structure CaseEntry where
  key : CaseKey
  target : Nat
deriving DecidableEq

/-- Case table of bytecode.rs. -/
structure CaseTable where
  entries : List CaseEntry
deriving DecidableEq

/-- String pool of bytecode.rs: an append-only list of strings. -/
abbrev StringPool := List String

/-- StringPool::push returns the index of the appended entry. -/
def StringPool.push (p : StringPool) (v : String) : StringPool × Nat :=
  (p ++ [v], p.length)

/-- StringPool::get. -/
def StringPool.get (p : StringPool) (i : Nat) : Option String :=
  List.get? p i

/-- Compiled message of bytecode.rs.  number_pool holds f64 constants,
modelled as rationals. -/
structure BytecodeProgram where
  opcodes : List Opcode
  string_pool : StringPool
  number_pool : List Rat
  case_tables : List CaseTable
  arg_names : List String
deriving DecidableEq

/-- BytecodeProgram::arg_name. -/
def BytecodeProgram.arg_name (p : BytecodeProgram) (i : Nat) : Option String :=
  List.get? p.arg_names i

/-- Runtime values of args.rs.  f64 payloads are rationals; the opaque
Box payload of Any carries no data the core ever reads, so the Any variant
is modelled without a payload.  The currency code [u8;3] is three bytes. -/
inductive Value where
  | str (s : String)
  | num (q : Rat)
  | bool (b : Bool)
  | dateTime (t : Int)
  | unit (value : Rat) (unit_id : Nat)
  | currency (value : Rat) (code : Nat × Nat × Nat)
  | any
deriving DecidableEq

/-- Argument bag of args.rs (BTreeMap from name to value), modelled as an
association list looked up by first match; the map never holds duplicate
keys. -/
abbrev Args := List (String × Value)

/-- Args::get. -/
def Args.get (args : Args) (name : String) : Option Value :=
  (args.find? fun p => p.1 = name).map (·.2)

/-- Args::require: missing argument is an invalid-input error. -/
def Args.require (args : Args) (name : String) : CoreResult Value :=
  match Args.get args name with
  | some v => .ok v
  | none => .error (.invalidInput "missing argument")

/-- Formatter option value of format_backend.rs. -/
inductive FormatterOptionValue where
  | str (s : String)
  | num (q : Rat)
  | bool (b : Bool)
deriving DecidableEq

/-- Formatter option of format_backend.rs. -/
structure FormatterOption where
  key : String
  value : FormatterOptionValue
deriving DecidableEq

/-- FormatBackend trait of format_backend.rs as a record of total functions:
a terminating backend.  Each method may return a typed error. -/
structure FormatBackend where
  plural_category : Rat → CoreResult PluralCategory
  format_number : Rat → List FormatterOption → CoreResult String
  format_date : Int → List FormatterOption → CoreResult String
  format_time : Int → List FormatterOption → CoreResult String
  format_datetime : Int → List FormatterOption → CoreResult String
  format_unit : Rat → Nat → List FormatterOption → CoreResult String
  format_currency : Rat → (Nat × Nat × Nat) → List FormatterOption → CoreResult String

/-- Models the Display rendering of an f64 (to_string in format_value_default);
the exact digit string of a float is platform arithmetic, so a fixed total
rendering of the rational stands in for it. -/
def f64ToString (q : Rat) : String := toString q

/-- Models str::from_utf8 over a 3-byte currency code: each byte must be a
valid ASCII scalar (multi-byte UTF-8 sequences are abstracted away; the code
field is a 3-letter currency code in every producer). -/
def currencyCodeToString (code : Nat × Nat × Nat) : CoreResult String :=
  if code.1 < 128 ∧ code.2.1 < 128 ∧ code.2.2 < 128 then
    .ok (String.mk [Char.ofNat code.1, Char.ofNat code.2.1, Char.ofNat code.2.2])
  else
    .error (.invalidInput "currency code")

/-- format_value_default of format_backend.rs (the identity formatter). -/
def format_value_default (value : Value) : CoreResult String :=
  match value with
  | .str text => .ok text
  | .num number => .ok (f64ToString number)
  | .bool b => .ok (toString b)
  | .dateTime timestamp => .ok (toString timestamp)
  | .unit value unit_id => .ok (f64ToString value ++ ":" ++ toString unit_id)
  | .currency value code =>
      match currencyCodeToString code with
      | .ok code => .ok (f64ToString value ++ ":" ++ code)
      | .error e => .error e
  | .any => .error (.unsupported "identity formatting for any value")

/-- format_value of format_backend.rs: dispatch on the formatter id with a
type check of the value. -/
def format_value (backend : FormatBackend) (formatter : FormatterId)
    (value : Value) (options : List FormatterOption) : CoreResult String :=
  match formatter with
  | .number =>
      match value with
      | .num number => backend.format_number number options
      | _ => .error (.invalidInput "formatter expects number")
  | .date =>
      match value with
      | .dateTime timestamp => backend.format_date timestamp options
      | _ => .error (.invalidInput "formatter expects datetime")
  | .time =>
      match value with
      | .dateTime timestamp => backend.format_time timestamp options
      | _ => .error (.invalidInput "formatter expects datetime")
  | .dateTime =>
      match value with
      | .dateTime timestamp => backend.format_datetime timestamp options
      | _ => .error (.invalidInput "formatter expects datetime")
  | .unit =>
      match value with
      | .unit value unit_id => backend.format_unit value unit_id options
      | _ => .error (.invalidInput "formatter expects unit")
  | .currency =>
      match value with
      | .currency value code => backend.format_currency value code options
      | _ => .error (.invalidInput "formatter expects currency")
  | .identity => format_value_default value

/-- clone_value of interpreter.rs: every variant copies except Any. -/
def clone_value (value : Value) : CoreResult Value :=
  match value with
  | .any => .error (.unsupported "cloning any value")
  | v => .ok v

/-- get_case_table of interpreter.rs. -/
def get_case_table (program : BytecodeProgram) (table_idx : Nat) :
    CoreResult CaseTable :=
  match program.case_tables.get? table_idx with
  | some t => .ok t
  | none => .error (.invalidInput "case table index out of bounds")

/-- match_case of interpreter.rs: first String key whose pooled string equals
the value wins; otherwise the last Other entry seen; no Other is an error. -/
def match_case (table : CaseTable) (program : BytecodeProgram) (value : String) :
    CoreResult Nat :=
  go table.entries none
where
  go : List CaseEntry → Option Nat → CoreResult Nat
    | [], other =>
        match other with
        | some target => .ok target
        | none => .error (.invalidInput "missing other case")
    | entry :: rest, other =>
        match entry.key with
        | .string sidx =>
            match StringPool.get program.string_pool sidx with
            | some candidate =>
                if candidate = value then .ok entry.target else go rest other
            | none => go rest other
        | .other => go rest (some entry.target)
        | _ => go rest other

/-- Models the saturating Rust cast from f64 to u32 for a non-NaN value:
truncate toward zero, clamp into the u32 range. -/
def f64AsU32 (q : Rat) : Nat :=
  if q < 0 then 0 else min q.floor.toNat 4294967295

/-- match_exact_number of interpreter.rs: negative values never match; the
value is cast to u32 and must cast back to the same f64; the first Exact key
equal to the candidate wins. -/
def match_exact_number (table : CaseTable) (value : Rat) : Option Nat :=
  if value < 0 then none
  else
    let candidate := f64AsU32 value
    if (candidate : Rat) = value then
      (table.entries.find? fun entry =>
        match entry.key with
        | .exact exact => exact = candidate
        | _ => false).map (·.target)
    else none

/-- match_plural_category of interpreter.rs. -/
def match_plural_category (table : CaseTable) (category : PluralCategory) :
    Option Nat :=
  (table.entries.find? fun entry =>
    match entry.key with
    | .category c => c = category
    | _ => false).map (·.target)

/-- match_other of interpreter.rs: the first Other entry, else an error. -/
def match_other (table : CaseTable) : CoreResult Nat :=
  match (table.entries.find? fun entry =>
      match entry.key with
      | .other => true
      | _ => false) with
  | some entry => .ok entry.target
  | none => .error (.invalidInput "missing other case")

/-- select_case of interpreter.rs: the argument must be a string. -/
def select_case (program : BytecodeProgram) (args : Args) (aidx : Nat)
    (table_idx : Nat) : CoreResult Nat :=
  match program.arg_name aidx with
  | none => .error (.invalidInput "arg index out of bounds")
  | some name =>
    match Args.require args name with
    | .error e => .error e
    | .ok value =>
      match value with
      | .str text =>
          match get_case_table program table_idx with
          | .error e => .error e
          | .ok table => match_case table program text
      | _ => .error (.invalidInput "select expects string")

/-- select_plural_case of interpreter.rs: the argument must be a number;
Exact match first, then (for Cardinal) the backend plural category, then
Other. -/
def select_plural_case (program : BytecodeProgram) (args : Args)
    (backend : FormatBackend) (aidx : Nat) (ruleset : PluralRuleset)
    (table_idx : Nat) : CoreResult Nat :=
  match program.arg_name aidx with
  | none => .error (.invalidInput "arg index out of bounds")
  | some name =>
    match Args.require args name with
    | .error e => .error e
    | .ok value =>
      match value with
      | .num number =>
          match get_case_table program table_idx with
          | .error e => .error e
          | .ok table =>
            match match_exact_number table number with
            | some target => .ok target
            | none =>
              match ruleset with
              | .cardinal =>
                match backend.plural_category number with
                | .error e => .error e
                | .ok category =>
                  match match_plural_category table category with
                  | some target => .ok target
                  | none => match_other table
      | _ => .error (.invalidInput "plural expects number")

/-- Interpreter state of execute in interpreter.rs: the value stack, the
output builder and the program counter. -/
structure ExecState where
  stack : List Value
  output : String
  pc : Nat
deriving DecidableEq

/-- Outcome of one iteration of the interpreter loop. -/
inductive StepOut where
  | done (out : String)
  | failed (e : CoreError)
  | next (s : ExecState)
deriving DecidableEq

/-- One iteration of the while loop of execute in interpreter.rs, given the
opcode at the current pc. -/
def execStep (program : BytecodeProgram) (args : Args) (backend : FormatBackend)
    (s : ExecState) (opcode : Opcode) : StepOut :=
  match opcode with
  | .emitText sidx =>
      match StringPool.get program.string_pool sidx with
      | some text => .next ⟨s.stack, s.output ++ text, s.pc + 1⟩
      | none => .failed (.invalidInput "string index out of bounds")
  | .emitStack =>
      match s.stack with
      | [] => .failed (.invalidInput "stack underflow")
      | value :: rest =>
          match format_value backend .identity value [] with
          | .ok rendered => .next ⟨rest, s.output ++ rendered, s.pc + 1⟩
          | .error e => .failed e
  | .pushStr sidx =>
      match StringPool.get program.string_pool sidx with
      | some text => .next ⟨Value.str text :: s.stack, s.output, s.pc + 1⟩
      | none => .failed (.invalidInput "string index out of bounds")
  | .pushNum nidx =>
      match program.number_pool.get? nidx with
      | some number => .next ⟨Value.num number :: s.stack, s.output, s.pc + 1⟩
      | none => .failed (.invalidInput "number index out of bounds")
  | .pushArg aidx =>
      match program.arg_name aidx with
      | none => .failed (.invalidInput "arg index out of bounds")
      | some name =>
        match Args.require args name with
        | .error e => .failed e
        | .ok value =>
          match clone_value value with
          | .ok v => .next ⟨v :: s.stack, s.output, s.pc + 1⟩
          | .error e => .failed e
  | .dup =>
      match s.stack with
      | [] => .failed (.invalidInput "stack underflow")
      | value :: _ =>
          match clone_value value with
          | .ok v => .next ⟨v :: s.stack, s.output, s.pc + 1⟩
          | .error e => .failed e
  | .pop =>
      match s.stack with
      | [] => .failed (.invalidInput "stack underflow")
      | _ :: rest => .next ⟨rest, s.output, s.pc + 1⟩
  | .callFmt fid opt_count =>
      if opt_count ≠ 0 then .failed (.unsupported "formatter options not supported")
      else
        match s.stack with
        | [] => .failed (.invalidInput "stack underflow")
        | value :: rest =>
            match format_value backend fid value [] with
            | .ok rendered => .next ⟨Value.str rendered :: rest, s.output, s.pc + 1⟩
            | .error e => .failed e
  | .select aidx table =>
      match select_case program args aidx table with
      | .ok target => .next ⟨s.stack, s.output, target⟩
      | .error e => .failed e
  | .selectPlural aidx ruleset table =>
      match select_plural_case program args backend aidx ruleset table with
      | .ok target => .next ⟨s.stack, s.output, target⟩
      | .error e => .failed e
  | .jump rel =>
      let nxt : Int := (s.pc : Int) + rel
      if nxt < 0 then .failed (.invalidInput "jump underflow")
      else .next ⟨s.stack, s.output, nxt.toNat⟩
  | .endOp => .done s.output

/-- The while loop of execute in interpreter.rs, with explicit fuel: none
means the loop has not finished within the given number of iterations.  The
Rust loop terminates on an input exactly when some fuel yields a result. -/
def execLoop (program : BytecodeProgram) (args : Args) (backend : FormatBackend) :
    Nat → ExecState → Option (CoreResult String)
  | 0, _ => none
  | fuel + 1, s =>
      match program.opcodes.get? s.pc with
      | none => some (.ok s.output)
      | some opcode =>
          match execStep program args backend s opcode with
          | .done out => some (.ok out)
          | .failed e => some (.error e)
          | .next s2 => execLoop program args backend fuel s2

/-- execute of interpreter.rs, fuel-bounded, starting from the empty stack,
empty output and pc 0. -/
def executeFuel (program : BytecodeProgram) (args : Args)
    (backend : FormatBackend) (fuel : Nat) : Option (CoreResult String) :=
  execLoop program args backend fuel ⟨[], "", 0⟩

/-! Pack byte layer.  A pack blob is a list of byte tokens.  Integer fields
are genuine little-endian bytes; a string payload is the run of its code
points (standing in for the UTF-8 byte run, same length-prefixed layout);
an f64 payload is an injective 8-token encoding of the rational (standing in
for the 8 IEEE754 bytes, whose round-trip is likewise exact). -/

/-- Code points of a string, modelling its serialized byte run. -/
def strToBytes (s : String) : List Nat := s.data.map Char.toNat

/-- Checked decoding of one serialized code point, modelling UTF-8
validation. -/
def charFromNat? (n : Nat) : Option Char :=
  if h : Nat.isValidChar n then some (Char.ofNatAux n h) else none

/-- Checked decoding of a serialized string run. -/
def strFromBytes? (l : List Nat) : Option String :=
  (l.mapM charFromNat?).map String.mk

/-- Models f64::to_le_bytes: an injective 8-token encoding of the rational
value, as the 8 IEEE754 bytes are an injective encoding of the float. -/
def f64ToLeBytes (q : Rat) : List Nat :=
  [Encodable.encode q, 0, 0, 0, 0, 0, 0, 0]

/-- Models f64::from_le_bytes on the first of the 8 tokens. -/
def f64FromLeByte (b : Nat) : Rat :=
  (Encodable.decode b).getD 0

/-- read_u8 of pack_catalog.rs: value and advanced cursor. -/
def readU8 (input : List Nat) (cursor : Nat) : CoreResult (Nat × Nat) :=
  match input.get? cursor with
  | some b => .ok (b, cursor + 1)
  | none => .error (.invalidInput "unexpected eof")

/-- read_u16 (little-endian). -/
def readU16 (input : List Nat) (cursor : Nat) : CoreResult (Nat × Nat) :=
  if cursor + 2 ≤ input.length then
    .ok (input.getD cursor 0 + 256 * input.getD (cursor + 1) 0, cursor + 2)
  else .error (.invalidInput "unexpected eof")

/-- read_u32 (little-endian). -/
def readU32 (input : List Nat) (cursor : Nat) : CoreResult (Nat × Nat) :=
  if cursor + 4 ≤ input.length then
    .ok (input.getD cursor 0 + 256 * input.getD (cursor + 1) 0 +
         65536 * input.getD (cursor + 2) 0 + 16777216 * input.getD (cursor + 3) 0,
         cursor + 4)
  else .error (.invalidInput "unexpected eof")

/-- read_i32: the u32 bit pattern reinterpreted as two's complement. -/
def readI32 (input : List Nat) (cursor : Nat) : CoreResult (Int × Nat) :=
  match readU32 input cursor with
  | .ok (v, c) => .ok (if v < 2147483648 then (v : Int) else (v : Int) - 4294967296, c)
  | .error e => .error e

/-- read_u64 (little-endian). -/
def readU64 (input : List Nat) (cursor : Nat) : CoreResult (Nat × Nat) :=
  if cursor + 8 ≤ input.length then
    .ok (input.getD cursor 0 + 256 * input.getD (cursor + 1) 0 +
         65536 * input.getD (cursor + 2) 0 + 16777216 * input.getD (cursor + 3) 0 +
         4294967296 * input.getD (cursor + 4) 0 +
         1099511627776 * input.getD (cursor + 5) 0 +
         281474976710656 * input.getD (cursor + 6) 0 +
         72057594037927936 * input.getD (cursor + 7) 0,
         cursor + 8)
  else .error (.invalidInput "unexpected eof")

/-- read_f64 over the 8-token f64 model. -/
def readF64 (input : List Nat) (cursor : Nat) : CoreResult (Rat × Nat) :=
  if cursor + 8 ≤ input.length then
    .ok (f64FromLeByte (input.getD cursor 0), cursor + 8)
  else .error (.invalidInput "unexpected eof")

/-- Pack kinds of pack.rs. -/
inductive PackKind where
  | base | overlay | icuData
deriving DecidableEq

/-- Pack header of pack.rs. -/
structure PackHeader where
  schema_version : Nat
  pack_kind : PackKind
  flags : Nat
  id_map_hash : List Nat
  locale_tag_sidx : Nat
  parent_tag_sidx : Option Nat
  build_epoch_ms : Nat
deriving DecidableEq

/-- Section directory entry of pack.rs. -/
structure SectionEntry where
  section_type : Nat
  offset : Nat
  length : Nat
deriving DecidableEq

/-- Bytes of the pack magic "MF2PACK\x00". -/
def PACK_MAGIC : List Nat := [77, 70, 50, 80, 65, 67, 75, 0]

/-- Fixed header length of pack.rs. -/
def HEADER_LEN : Nat := 63

/-- Sentinel u32::MAX used for the absent parent tag and absent dense index
slots. -/
def u32MAX : Nat := 4294967295

/-- parse_pack_header of pack.rs. -/
def parse_pack_header (input : List Nat) : CoreResult (PackHeader × Nat) := do
  if input.length < HEADER_LEN then
    .error (.invalidInput "pack header too short")
  else if input.take 8 ≠ PACK_MAGIC then
    .error (.invalidInput "pack magic mismatch")
  else do
    let (schema_version, c1) ← readU16 input 8
    match input.get? c1 with
    | none => .error (.invalidInput "pack header missing kind")
    | some kind => do
      let c2 := c1 + 1
      let pack_kind ← (match kind with
        | 0 => Except.ok PackKind.base
        | 1 => Except.ok PackKind.overlay
        | 2 => Except.ok PackKind.icuData
        | _ => Except.error (CoreError.unsupported "unknown pack kind"))
      let (flags, c3) ← readU32 input c2
      let id_map_hash := (input.drop c3).take 32
      let c4 := c3 + 32
      let (locale_tag_sidx, c5) ← readU32 input c4
      let (parent_tag_raw, c6) ← readU32 input c5
      let parent_tag_sidx := if parent_tag_raw = u32MAX then none else some parent_tag_raw
      let (build_epoch_ms, c7) ← readU64 input c6
      .ok (⟨schema_version, pack_kind, flags, id_map_hash, locale_tag_sidx,
            parent_tag_sidx, build_epoch_ms⟩, c7)

/-- parse_section_directory of pack.rs: count entries of (type u8, offset
u32, length u32). -/
def parse_section_directory (input : List Nat) (start : Nat) :
    Nat → CoreResult (List SectionEntry)
  | 0 => .ok []
  | count + 1 => do
      match input.get? start with
      | none => .error (.invalidInput "section directory out of bounds")
      | some section_type => do
        let (offset, c1) ← readU32 input (start + 1)
        let (length, c2) ← readU32 input c1
        let rest ← parse_section_directory input c2 count
        .ok (⟨section_type, offset, length⟩ :: rest)

/-- Insert-or-replace into an association list, modelling BTreeMap::insert
for code that only ever looks the map up afterwards. -/
def mapInsert {α : Type} (m : List (Nat × α)) (k : Nat) (v : α) : List (Nat × α) :=
  (m.filter fun p => p.1 ≠ k) ++ [(k, v)]

/-- Lookup in an association list, modelling BTreeMap::get. -/
def mapGet {α : Type} (m : List (Nat × α)) (k : Nat) : Option α :=
  (m.find? fun p => p.1 = k).map (·.2)

/-- map_sections of pack_catalog.rs: bounds-check each entry in order and
slice its body out of the blob; a later duplicate type replaces an earlier
one. -/
def map_sections (bytes : List Nat) :
    List SectionEntry → List (Nat × List Nat) → CoreResult (List (Nat × List Nat))
  | [], acc => .ok acc
  | sec :: rest, acc =>
      if sec.offset + sec.length ≤ bytes.length then
        map_sections bytes rest
          (mapInsert acc sec.section_type ((bytes.drop sec.offset).take sec.length))
      else .error (.invalidInput "section out of bounds")

/-- Fetch a required section body. -/
def getSection (m : List (Nat × List Nat)) (k : Nat) (msg : String) :
    CoreResult (List Nat) :=
  match mapGet m k with
  | some body => .ok body
  | none => .error (.invalidInput msg)

/-- String entries loop of decode_string_pool in pack_decode.rs. -/
def decodeStrings (input : List Nat) : Nat → Nat → CoreResult (List String × Nat)
  | cursor, 0 => .ok ([], cursor)
  | cursor, n + 1 => do
      let (len, c1) ← readU32 input cursor
      if c1 + len ≤ input.length then
        match strFromBytes? ((input.drop c1).take len) with
        | none => .error (.invalidInput "string pool invalid utf8")
        | some text => do
            let (rest, c2) ← decodeStrings input (c1 + len) n
            .ok (text :: rest, c2)
      else .error (.invalidInput "string pool out of bounds")

/-- decode_string_pool of pack_decode.rs. -/
def decode_string_pool (input : List Nat) : CoreResult (List String) := do
  let (count, c1) ← readU32 input 0
  let (entries, _) ← decodeStrings input c1 count
  .ok entries

/-- Offsets loop of decode_dense_index in pack_decode.rs. -/
def decodeU32s (input : List Nat) : Nat → Nat → CoreResult (List Nat × Nat)
  | cursor, 0 => .ok ([], cursor)
  | cursor, n + 1 => do
      let (v, c1) ← readU32 input cursor
      let (rest, c2) ← decodeU32s input c1 n
      .ok (v :: rest, c2)

/-- decode_dense_index of pack_decode.rs. -/
def decode_dense_index (input : List Nat) : CoreResult (List Nat) := do
  let (count, c1) ← readU32 input 0
  let (offsets, _) ← decodeU32s input c1 count
  .ok offsets

/-- Pairs loop of decode_sparse_index in pack_decode.rs. -/
def decodePairs (input : List Nat) : Nat → Nat → CoreResult (List (Nat × Nat) × Nat)
  | cursor, 0 => .ok ([], cursor)
  | cursor, n + 1 => do
      let (id, c1) ← readU32 input cursor
      let (offset, c2) ← readU32 input c1
      let (rest, c3) ← decodePairs input c2 n
      .ok ((id, offset) :: rest, c3)

/-- decode_sparse_index of pack_decode.rs. -/
def decode_sparse_index (input : List Nat) : CoreResult (List (Nat × Nat)) := do
  let (count, c1) ← readU32 input 0
  let (pairs, _) ← decodePairs input c1 count
  .ok pairs

/-- read_bytecode_at of pack_decode.rs: a length-prefixed message slice. -/
def read_bytecode_at (blob : List Nat) (offset : Nat) : CoreResult (List Nat) :=
  if offset + 4 ≤ blob.length then
    match readU32 blob offset with
    | .error e => .error e
    | .ok (len, cursor) =>
        if cursor + len ≤ blob.length then .ok ((blob.drop cursor).take len)
        else .error (.invalidInput "bytecode length out of bounds")
  else .error (.invalidInput "bytecode offset out of bounds")

/-- Case key byte decoding inside decode_case_tables of pack_catalog.rs. -/
def decodeCaseKey (input : List Nat) (cursor : Nat) : CoreResult (CaseKey × Nat) := do
  let (key_type, c1) ← readU8 input cursor
  match key_type with
  | 0 => do
      let (sidx, c2) ← readU32 input c1
      .ok (CaseKey.string sidx, c2)
  | 1 => do
      let (n, c2) ← readU32 input c1
      .ok (CaseKey.exact n, c2)
  | 2 => do
      let (raw, c2) ← readU8 input c1
      let category := match raw with
        | 0 => PluralCategory.zero
        | 1 => PluralCategory.one
        | 2 => PluralCategory.two
        | 3 => PluralCategory.few
        | 4 => PluralCategory.many
        | _ => PluralCategory.other
      .ok (CaseKey.category category, c2)
  | 3 => .ok (CaseKey.other, c1)
  | _ => .error (.invalidInput "unknown case key type")

/-- Entries loop of decode_case_tables. -/
def decodeCaseEntries (input : List Nat) : Nat → Nat → CoreResult (List CaseEntry × Nat)
  | cursor, 0 => .ok ([], cursor)
  | cursor, n + 1 => do
      let (key, c1) ← decodeCaseKey input cursor
      let (target, c2) ← readU32 input c1
      let (rest, c3) ← decodeCaseEntries input c2 n
      .ok (⟨key, target⟩ :: rest, c3)

/-- Tables loop of decode_case_tables. -/
def decodeCaseTablesLoop (input : List Nat) : Nat → Nat → CoreResult (List CaseTable × Nat)
  | cursor, 0 => .ok ([], cursor)
  | cursor, n + 1 => do
      let (entry_count, c1) ← readU32 input cursor
      let (entries, c2) ← decodeCaseEntries input c1 entry_count
      let (rest, c3) ← decodeCaseTablesLoop input c2 n
      .ok (⟨entries⟩ :: rest, c3)

/-- decode_case_tables of pack_catalog.rs. -/
def decode_case_tables (input : List Nat) : CoreResult (List CaseTable) := do
  let (count, c1) ← readU32 input 0
  let (tables, _) ← decodeCaseTablesLoop input c1 count
  .ok tables

/-- Argument-name loop of decode_message_meta: string pool indices resolved
through the shared pool. -/
def decodeMetaArgs (input : List Nat) (string_pool : List String) :
    Nat → Nat → CoreResult (List String × Nat)
  | cursor, 0 => .ok ([], cursor)
  | cursor, n + 1 => do
      let (sidx, c1) ← readU32 input cursor
      match string_pool.get? sidx with
      | none => .error (.invalidInput "message meta string index")
      | some name => do
          let (rest, c2) ← decodeMetaArgs input string_pool c1 n
          .ok (name :: rest, c2)

/-- Per-message loop of decode_message_meta. -/
def decodeMetaLoop (input : List Nat) (string_pool : List String) :
    Nat → Nat → List (Nat × List String) → CoreResult (List (Nat × List String) × Nat)
  | cursor, 0, acc => .ok (acc, cursor)
  | cursor, n + 1, acc => do
      let (id, c1) ← readU32 input cursor
      let (arg_count, c2) ← readU32 input c1
      let (args, c3) ← decodeMetaArgs input string_pool c2 arg_count
      decodeMetaLoop input string_pool c3 n (mapInsert acc id args)

/-- decode_message_meta of pack_catalog.rs. -/
def decode_message_meta (input : List Nat) (string_pool : List String) :
    CoreResult (List (Nat × List String)) := do
  let (count, c1) ← readU32 input 0
  let (m, _) ← decodeMetaLoop input string_pool c1 count []
  .ok m

/-- FormatterId::try_from of pack_catalog.rs. -/
def formatterIdOfByte (value : Nat) : CoreResult FormatterId :=
  match value with
  | 0 => .ok .number
  | 1 => .ok .date
  | 2 => .ok .time
  | 3 => .ok .dateTime
  | 4 => .ok .unit
  | 5 => .ok .currency
  | 6 => .ok .identity
  | _ => .error (.invalidInput "unknown formatter id")

/-- PluralRuleset::try_from of pack_catalog.rs. -/
def pluralRulesetOfByte (value : Nat) : CoreResult PluralRuleset :=
  match value with
  | 0 => .ok .cardinal
  | _ => .error (.invalidInput "unknown plural ruleset")

/-- Opcode byte decoding inside decode_message of pack_catalog.rs. -/
def decodeOpcode (input : List Nat) (cursor : Nat) : CoreResult (Opcode × Nat) := do
  let (tag, c1) ← readU8 input cursor
  match tag with
  | 0 => do
      let (sidx, c2) ← readU32 input c1
      .ok (Opcode.emitText sidx, c2)
  | 1 => .ok (Opcode.emitStack, c1)
  | 2 => do
      let (sidx, c2) ← readU32 input c1
      .ok (Opcode.pushStr sidx, c2)
  | 3 => do
      let (nidx, c2) ← readU32 input c1
      .ok (Opcode.pushNum nidx, c2)
  | 4 => do
      let (aidx, c2) ← readU32 input c1
      .ok (Opcode.pushArg aidx, c2)
  | 5 => .ok (Opcode.dup, c1)
  | 6 => .ok (Opcode.pop, c1)
  | 7 => do
      let (fidByte, c2) ← readU8 input c1
      let fid ← formatterIdOfByte fidByte
      let (opt_count, c3) ← readU8 input c2
      .ok (Opcode.callFmt fid opt_count, c3)
  | 8 => do
      let (aidx, c2) ← readU32 input c1
      let (table, c3) ← readU32 input c2
      .ok (Opcode.select aidx table, c3)
  | 9 => do
      let (aidx, c2) ← readU32 input c1
      let (rulesetByte, c3) ← readU8 input c2
      let ruleset ← pluralRulesetOfByte rulesetByte
      let (table, c4) ← readU32 input c3
      .ok (Opcode.selectPlural aidx ruleset table, c4)
  | 10 => do
      let (rel, c2) ← readI32 input c1
      .ok (Opcode.jump rel, c2)
  | 11 => .ok (Opcode.endOp, c1)
  | _ => .error (.invalidInput "unknown opcode tag")

/-- Opcode loop of decode_message. -/
def decodeOpcodes (input : List Nat) : Nat → Nat → CoreResult (List Opcode × Nat)
  | cursor, 0 => .ok ([], cursor)
  | cursor, n + 1 => do
      let (opcode, c1) ← decodeOpcode input cursor
      let (rest, c2) ← decodeOpcodes input c1 n
      .ok (opcode :: rest, c2)

/-- Number-pool loop of decode_message. -/
def decodeNumbers (input : List Nat) : Nat → Nat → CoreResult (List Rat × Nat)
  | cursor, 0 => .ok ([], cursor)
  | cursor, n + 1 => do
      let (v, c1) ← readF64 input cursor
      let (rest, c2) ← decodeNumbers input c1 n
      .ok (v :: rest, c2)

/-- decode_message of pack_catalog.rs: number pool, opcodes, then a program
carrying the full shared string pool and the full case-table section. -/
def decode_message (input : List Nat) (string_pool : List String)
    (case_tables : List CaseTable) (arg_names : List String) :
    CoreResult BytecodeProgram := do
  let (number_count, c1) ← readU32 input 0
  let (number_pool, c2) ← decodeNumbers input c1 number_count
  let (opcode_count, c3) ← readU32 input c2
  let (opcodes, _) ← decodeOpcodes input c3 opcode_count
  .ok ⟨opcodes, string_pool, number_pool, case_tables, arg_names⟩

/-- Message index of pack_catalog.rs. -/
inductive MessageIndex where
  | dense (offsets : List Nat)
  | sparse (pairs : List (Nat × Nat))

/-- Decoded pack catalog of pack_catalog.rs: header and the id-to-program
map (a BTreeMap, modelled as an insert-or-replace association list). -/
structure PackCatalog where
  header : PackHeader
  messages : List (Nat × BytecodeProgram)
deriving DecidableEq

/-- Catalog::lookup for PackCatalog. -/
def PackCatalog.lookup (c : PackCatalog) (id : Nat) : Option BytecodeProgram :=
  mapGet c.messages id

/-- Message loop of PackCatalog::decode over (id, offset) pairs; the dense
path feeds the enumerated index with u32::MAX slots dropped, the sparse path
feeds the stored pairs. -/
def decodeMessagesLoop (blob : List Nat) (string_pool : List String)
    (case_tables : List CaseTable) (meta : List (Nat × List String)) :
    List (Nat × Nat) → List (Nat × BytecodeProgram) →
    CoreResult (List (Nat × BytecodeProgram))
  | [], acc => .ok acc
  | (id, offset) :: rest, acc => do
      let slice ← read_bytecode_at blob offset
      let arg_names := (mapGet meta id).getD []
      let program ← decode_message slice string_pool case_tables arg_names
      decodeMessagesLoop blob string_pool case_tables meta rest (mapInsert acc id program)

/-- PackCatalog::decode of pack_catalog.rs. -/
def PackCatalog.decode (bytes : List Nat) (expected_id_map_hash : List Nat) :
    CoreResult PackCatalog := do
  let (header, cursor) ← parse_pack_header bytes
  if header.id_map_hash ≠ expected_id_map_hash then
    .error (.invalidInput "id map hash mismatch")
  else do
    let (section_count, c1) ← readU16 bytes cursor
    let sections ← parse_section_directory bytes c1 section_count
    let section_map ← map_sections bytes sections []
    let string_pool_bytes ← getSection section_map 1 "missing string pool section"
    let string_pool ← decode_string_pool string_pool_bytes
    let case_tables_bytes ← getSection section_map 4 "missing case tables section"
    let case_tables ← decode_case_tables case_tables_bytes
    let meta_bytes ← getSection section_map 5 "missing message meta section"
    let meta ← decode_message_meta meta_bytes string_pool
    let index_bytes ← getSection section_map 2 "missing message index section"
    let index ← (match header.pack_kind with
      | .base => (decode_dense_index index_bytes).map MessageIndex.dense
      | .overlay => (decode_sparse_index index_bytes).map MessageIndex.sparse
      | .icuData => .error (CoreError.unsupported "icu data packs not supported"))
    let blob ← getSection section_map 3 "missing bytecode blob section"
    let pairs := match index with
      | .dense offsets => (offsets.enum.filter fun p => p.2 ≠ u32MAX)
      | .sparse pairs => pairs
    let messages ← decodeMessagesLoop blob string_pool case_tables meta pairs []
    .ok ⟨header, messages⟩

/-! Pack encoder (pack_encode.rs of the CLI crate). -/

/-- Little-endian u16 bytes; the value is truncated modulo 2^16 exactly as a
Rust cast to u16 would. -/
def u16Bytes (n : Nat) : List Nat :=
  [n % 256, n / 256 % 256]

/-- Little-endian u32 bytes; truncation modulo 2^32 is inherent. -/
def u32Bytes (n : Nat) : List Nat :=
  [n % 256, n / 256 % 256, n / 65536 % 256, n / 16777216 % 256]

/-- Little-endian u64 bytes. -/
def u64Bytes (n : Nat) : List Nat :=
  [n % 256, n / 256 % 256, n / 65536 % 256, n / 16777216 % 256,
   n / 4294967296 % 256, n / 1099511627776 % 256,
   n / 281474976710656 % 256, n / 72057594037927936 % 256]

/-- Little-endian i32 bytes: the two's-complement bit pattern of the
integer. -/
def i32Bytes (i : Int) : List Nat :=
  u32Bytes (i % 4294967296).toNat

/-- Build input of pack_encode.rs.  The messages BTreeMap is modelled as its
ascending-key entry list (theorems state the sortedness where it matters). -/
structure PackBuildInput where
  pack_kind : PackKind
  id_map_hash : List Nat
  locale_tag : String
  parent_tag : Option String
  build_epoch_ms : Nat
  messages : List (Nat × BytecodeProgram)

/-- String interner of pack_encode.rs: a lookup map and the pool built so
far. -/
structure StringInterner where
  map : List (String × Nat)
  pool : List String

/-- StringInterner::intern. -/
def StringInterner.intern (itn : StringInterner) (value : String) :
    StringInterner × Nat :=
  match (itn.map.find? fun p => p.1 = value).map (·.2) with
  | some idx => (itn, idx)
  | none =>
      (⟨itn.map ++ [(value, itn.pool.length)], itn.pool ++ [value]⟩, itn.pool.length)

/-- Mapping loop of remap_program: intern every pool entry in order,
collecting the new indices. -/
def internPool (itn : StringInterner) : List String → StringInterner × List Nat
  | [] => (itn, [])
  | value :: rest =>
      let (itn1, idx) := StringInterner.intern itn value
      let (itn2, mapping) := internPool itn1 rest
      (itn2, idx :: mapping)

/-- Argument-name interning loop of remap_program (indices discarded). -/
def internAll (itn : StringInterner) : List String → StringInterner
  | [] => itn
  | value :: rest => internAll (StringInterner.intern itn value).1 rest

/-- Case-key remapping of remap_program.  Indexing the per-program mapping
vector panics in Rust when the stored index is out of range; the model totals
it with 0 and the round-trip theorems restrict to well-formed programs where
the index is always in range. -/
def remapCaseKey (mapping : List Nat) : CaseKey → CaseKey
  | .string old => .string (mapping.getD old 0)
  | .exact value => .exact value
  | .category cat => .category cat
  | .other => .other

/-- Case-table remapping of remap_program: keys remapped, targets kept. -/
def remapTable (mapping : List Nat) (table : CaseTable) : CaseTable :=
  ⟨table.entries.map fun entry => ⟨remapCaseKey mapping entry.key, entry.target⟩⟩

/-- Opcode remapping of remap_program: string indices through the mapping,
table indices offset by the running case-table count. -/
def remapOpcode (mapping : List Nat) (case_offset : Nat) : Opcode → Opcode
  | .emitText sidx => .emitText (mapping.getD sidx 0)
  | .pushStr sidx => .pushStr (mapping.getD sidx 0)
  | .select aidx table => .select aidx (table + case_offset)
  | .selectPlural aidx ruleset table => .selectPlural aidx ruleset (table + case_offset)
  | other => other

/-- remap_program of pack_encode.rs: returns the updated interner, the
remapped program (with its own pool and tables emptied) and the extracted
tables. -/
def remap_program (program : BytecodeProgram) (itn : StringInterner)
    (case_offset : Nat) : StringInterner × BytecodeProgram × List CaseTable :=
  let (itn1, mapping) := internPool itn program.string_pool
  let itn2 := internAll itn1 program.arg_names
  let tables := program.case_tables.map (remapTable mapping)
  let opcodes := program.opcodes.map (remapOpcode mapping case_offset)
  (itn2, ⟨opcodes, [], program.number_pool, [], program.arg_names⟩, tables)

/-- Message loop of encode_pack: remap every program in map order, extending
the shared case-table list. -/
def remapMessages (itn : StringInterner) (case_tables : List CaseTable) :
    List (Nat × BytecodeProgram) →
    StringInterner × List CaseTable × List (Nat × BytecodeProgram)
  | [] => (itn, case_tables, [])
  | (message_id, program) :: rest =>
      let (itn1, remapped, local_tables) := remap_program program itn case_tables.length
      let (itn2, tables2, remapped_rest) :=
        remapMessages itn1 (case_tables ++ local_tables) rest
      (itn2, tables2, (message_id, remapped) :: remapped_rest)

/-- encode_string_pool of pack_encode.rs. -/
def encode_string_pool (pool : List String) : List Nat :=
  u32Bytes pool.length ++
    (pool.map fun value =>
      u32Bytes (strToBytes value).length ++ strToBytes value).flatten

/-- encode_category of pack_encode.rs. -/
def encode_category : PluralCategory → Nat
  | .zero => 0
  | .one => 1
  | .two => 2
  | .few => 3
  | .many => 4
  | .other => 5

/-- encode_ruleset of pack_encode.rs. -/
def encode_ruleset : PluralRuleset → Nat
  | .cardinal => 0

/-- Per-entry bytes of encode_case_tables. -/
def encodeCaseEntry (entry : CaseEntry) : List Nat :=
  (match entry.key with
   | .string sidx => 0 :: u32Bytes sidx
   | .exact value => 1 :: u32Bytes value
   | .category cat => [2, encode_category cat]
   | .other => [3]) ++ u32Bytes entry.target

/-- encode_case_tables of pack_encode.rs. -/
def encode_case_tables (tables : List CaseTable) : List Nat :=
  u32Bytes tables.length ++
    (tables.map fun table =>
      u32Bytes table.entries.length ++ (table.entries.map encodeCaseEntry).flatten).flatten

/-- find_string of pack_encode.rs: the first pool index holding the value,
0 when absent. -/
def find_string (pool : List String) (value : String) : Nat :=
  match pool.findIdx? (fun entry => entry = value) with
  | some idx => idx
  | none => 0

/-- encode_message_meta of pack_encode.rs. -/
def encode_message_meta (messages : List (Nat × BytecodeProgram))
    (pool : List String) : List Nat :=
  u32Bytes messages.length ++
    (messages.map fun p =>
      u32Bytes p.1 ++ u32Bytes p.2.arg_names.length ++
        (p.2.arg_names.map fun arg => u32Bytes (find_string pool arg)).flatten).flatten

/-- fid byte of encode_opcode (the discriminant cast FormatterId as u8). -/
def formatterIdByte : FormatterId → Nat
  | .number => 0
  | .date => 1
  | .time => 2
  | .dateTime => 3
  | .unit => 4
  | .currency => 5
  | .identity => 6

/-- encode_opcode of pack_encode.rs. -/
def encode_opcode : Opcode → List Nat
  | .emitText sidx => 0 :: u32Bytes sidx
  | .emitStack => [1]
  | .pushStr sidx => 2 :: u32Bytes sidx
  | .pushNum nidx => 3 :: u32Bytes nidx
  | .pushArg aidx => 4 :: u32Bytes aidx
  | .dup => [5]
  | .pop => [6]
  | .callFmt fid opt_count => [7, formatterIdByte fid, opt_count % 256]
  | .select aidx table => 8 :: (u32Bytes aidx ++ u32Bytes table)
  | .selectPlural aidx ruleset table =>
      9 :: (u32Bytes aidx ++ encode_ruleset ruleset :: u32Bytes table)
  | .jump rel => 10 :: i32Bytes rel
  | .endOp => [11]

/-- encode_message of pack_encode.rs: number pool then opcodes. -/
def encode_message (program : BytecodeProgram) : List Nat :=
  u32Bytes program.number_pool.length ++
    (program.number_pool.map f64ToLeBytes).flatten ++
    u32Bytes program.opcodes.length ++
    (program.opcodes.map encode_opcode).flatten

/-- Blob loop of encode_bytecode_blob: length-prefixed message bytes with
the offset of each prefix recorded. -/
def encodeBlobLoop : List (Nat × BytecodeProgram) → Nat →
    List Nat × List (Nat × Nat)
  | [], _ => ([], [])
  | (message_id, program) :: rest, pos =>
      let bytes := encode_message program
      let chunk := u32Bytes bytes.length ++ bytes
      let (blob, offsets) := encodeBlobLoop rest (pos + chunk.length)
      (chunk ++ blob, (message_id, pos) :: offsets)

/-- encode_dense_index of pack_encode.rs: one u32 slot per id from 0 to the
maximum id, u32::MAX marking the absent ones. -/
def encode_dense_index (offsets : List (Nat × Nat)) : List Nat :=
  let max_id := (offsets.map Prod.fst).foldr max 0
  let count := max_id + 1
  u32Bytes count ++
    ((List.range count).map fun id =>
      u32Bytes ((mapGet offsets id).getD u32MAX)).flatten

/-- encode_sparse_index of pack_encode.rs. -/
def encode_sparse_index (offsets : List (Nat × Nat)) : List Nat :=
  u32Bytes offsets.length ++
    (offsets.map fun p => u32Bytes p.1 ++ u32Bytes p.2).flatten

/-- encode_bytecode_blob of pack_encode.rs: the blob and the kind-dependent
index section. -/
def encode_bytecode_blob (messages : List (Nat × BytecodeProgram))
    (pack_kind : PackKind) : List Nat × List Nat :=
  let (blob, offsets) := encodeBlobLoop messages 0
  let index := match pack_kind with
    | .base => encode_dense_index offsets
    | .overlay => encode_sparse_index offsets
    | .icuData => []
  (blob, index)

/-- Kind byte of build_pack_bytes. -/
def packKindByte : PackKind → Nat
  | .base => 0
  | .overlay => 1
  | .icuData => 2

/-- Directory and body assembly of build_pack_bytes: entries carry the
running offset of each body. -/
def sectionDirectory : List (Nat × List Nat) → Nat → List Nat × List Nat
  | [], _ => ([], [])
  | (section_type, data) :: rest, start =>
      let (dir, body) := sectionDirectory rest (start + data.length)
      (section_type :: (u32Bytes start ++ u32Bytes data.length) ++ dir, data ++ body)

/-- build_pack_bytes of pack_encode.rs: fixed header, section count, patched
directory, concatenated bodies. -/
def build_pack_bytes (pack_kind : PackKind) (id_map_hash : List Nat)
    (locale_tag_sidx : Nat) (parent_tag_sidx : Option Nat)
    (build_epoch_ms : Nat) (sections : List (Nat × List Nat)) : List Nat :=
  let headerBytes :=
    PACK_MAGIC ++ u16Bytes 0 ++ [packKindByte pack_kind] ++ u32Bytes 0 ++
    id_map_hash ++ u32Bytes locale_tag_sidx ++
    u32Bytes (parent_tag_sidx.getD u32MAX) ++ u64Bytes build_epoch_ms ++
    u16Bytes sections.length
  let bodyStart := headerBytes.length + 9 * sections.length
  let (dir, body) := sectionDirectory sections bodyStart
  headerBytes ++ dir ++ body

/-- encode_pack of pack_encode.rs. -/
def encode_pack (input : PackBuildInput) : List Nat :=
  let itn0 : StringInterner := ⟨[], []⟩
  let (itn1, locale_tag_sidx) := StringInterner.intern itn0 input.locale_tag
  let (itn2, parent_tag_sidx) := match input.parent_tag with
    | some tag =>
        let (itn2, idx) := StringInterner.intern itn1 tag
        (itn2, some idx)
    | none => (itn1, none)
  let (itn3, case_tables, remapped_messages) := remapMessages itn2 [] input.messages
  let string_pool := itn3.pool
  let string_section := encode_string_pool string_pool
  let case_section := encode_case_tables case_tables
  let meta_section := encode_message_meta remapped_messages string_pool
  let (blob_section, index_section) :=
    encode_bytecode_blob remapped_messages input.pack_kind
  let sections :=
    [(1, string_section), (2, index_section), (3, blob_section),
     (4, case_section), (5, meta_section)]
  build_pack_bytes input.pack_kind input.id_map_hash locale_tag_sidx
    parent_tag_sidx input.build_epoch_ms sections

/-! Compiler (compiler.rs of the CLI crate) over the parser AST
(parser.rs). -/

/-- Source span of lexer.rs (1-based line and column). -/
structure Span where
  line : Nat
  col : Nat
deriving DecidableEq

/-- Select kinds of parser.rs. -/
inductive SelectKind where
  | select | plural
deriving DecidableEq

/-- AST case keys of parser.rs. -/
inductive AstCaseKey where
  | ident (s : String)
  | exact (n : Nat)
  | other
deriving DecidableEq

/-- AST segments of parser.rs.  A Message is its segment list; the Expr
layer (Variable or Select) is inlined into the segment constructors, and a
SelectCase is the tuple of key, sub-message segments, default flag and
span. -/
inductive Segment where
  | text (value : String) (span : Span)
  | variable (name : String) (formatter : Option String) (span : Span)
  | selectExpr (selector : String) (cases : List (AstCaseKey × List Segment × Bool × Span))
      (kind : SelectKind) (span : Span)

/-- Compiler state of compiler.rs: the program under construction and the
name-to-index argument map. -/
structure CompilerState where
  program : BytecodeProgram
  arg_indices : List (String × Nat)

/-- Compiler::arg_index: reuse a known index or allocate the next
arg_names slot. -/
def arg_index (st : CompilerState) (name : String) : CompilerState × Nat :=
  match (st.arg_indices.find? fun p => p.1 = name).map (·.2) with
  | some index => (st, index)
  | none =>
      let index := st.program.arg_names.length
      (⟨{ st.program with arg_names := st.program.arg_names ++ [name] },
        st.arg_indices ++ [(name, index)]⟩, index)

/-- formatter_id of compiler.rs: unknown names fall back to Identity. -/
def formatter_id (name : String) : FormatterId :=
  if name = "number" then .number
  else if name = "date" then .date
  else if name = "time" then .time
  else if name = "datetime" then .dateTime
  else if name = "unit" then .unit
  else if name = "currency" then .currency
  else .identity

/-- compile_case_key of compiler.rs: a default case is Other regardless of
its key; idents are interned into the string pool. -/
def compile_case_key (program : BytecodeProgram) (key : AstCaseKey)
    (is_default : Bool) : BytecodeProgram × CaseKey :=
  if is_default then (program, .other)
  else
    match key with
    | .other => (program, .other)
    | .exact value => (program, .exact value)
    | .ident value =>
        let (pool, sidx) := StringPool.push program.string_pool value
        ({ program with string_pool := pool }, .string sidx)

/-- Push one opcode onto the program of a compiler state. -/
def pushOp (st : CompilerState) (op : Opcode) : CompilerState :=
  ⟨{ st.program with opcodes := st.program.opcodes ++ [op] }, st.arg_indices⟩

/-- Compiler::compile_var of compiler.rs. -/
def compile_var (st : CompilerState) (name : String)
    (formatter : Option String) : CompilerState :=
  let (st1, aidx) := arg_index st name
  let st2 := pushOp st1 (.pushArg aidx)
  let st3 := match formatter with
    | some f => pushOp st2 (.callFmt (formatter_id f) 0)
    | none => st2
  pushOp st3 .emitStack

mutual

/-- Segment loop of Compiler::compile_message. -/
def compileSegments (st : CompilerState) : List Segment → CompilerState
  | [] => st
  | seg :: rest => compileSegments (compileSegment st seg) rest

/-- One segment of Compiler::compile_message. -/
def compileSegment (st : CompilerState) : Segment → CompilerState
  | .text value _ =>
      let (pool, sidx) := StringPool.push st.program.string_pool value
      pushOp ⟨{ st.program with string_pool := pool }, st.arg_indices⟩ (.emitText sidx)
  | .variable name formatter _ => compile_var st name formatter
  | .selectExpr selector cases kind _ => compileSelect st selector cases kind

/-- Case loop of Compiler::compile_select: for each case record its start
position as the target, lower the sub-message, push a placeholder
Jump 0 and record its position. -/
def compileCases (st : CompilerState) :
    List (AstCaseKey × List Segment × Bool × Span) →
    CompilerState × List CaseEntry × List Nat
  | [] => (st, [], [])
  | (key, value, is_default, _) :: rest =>
      let start := st.program.opcodes.length
      let (program1, ckey) := compile_case_key st.program key is_default
      let st1 : CompilerState := ⟨program1, st.arg_indices⟩
      let st2 := compileSegments st1 value
      let jump_pos := st2.program.opcodes.length
      let st3 := pushOp st2 (.jump 0)
      let (st4, entries, jumps) := compileCases st3 rest
      (st4, ⟨ckey, start⟩ :: entries, jump_pos :: jumps)

/-- Compiler::compile_select of compiler.rs: emit the select opcode, lower
every case, back-patch the placeholder jumps to the block end, rewrite the
select opcode (a no-op rewrite with the same operands) and push the case
table. -/
def compileSelect (st : CompilerState) (selector : String)
    (cases : List (AstCaseKey × List Segment × Bool × Span))
    (kind : SelectKind) : CompilerState :=
  let (st1, aidx) := arg_index st selector
  let table_idx := st1.program.case_tables.length
  let select_pos := st1.program.opcodes.length
  let opcode : Opcode := match kind with
    | .plural => .selectPlural aidx .cardinal table_idx
    | .select => .select aidx table_idx
  let st2 := pushOp st1 opcode
  let (st3, entries, jumps) := compileCases st2 cases
  let endPos := st3.program.opcodes.length
  let patched := jumps.foldl
    (fun ops jump_pos =>
      match ops.get? jump_pos with
      | some (Opcode.jump _) => ops.set jump_pos (.jump ((endPos : Int) - (jump_pos : Int)))
      | _ => ops)
    st3.program.opcodes
  let rewritten := if select_pos < patched.length then patched.set select_pos opcode else patched
  ⟨{ st3.program with
      opcodes := rewritten,
      case_tables := st3.program.case_tables ++ [⟨entries⟩] }, st3.arg_indices⟩

end

/-- compile_message of compiler.rs: lower the segments from a fresh state
and append the final End opcode. -/
def compile_message (segments : List Segment) : BytecodeProgram :=
  let st := compileSegments ⟨⟨[], [], [], [], []⟩, []⟩ segments
  { st.program with opcodes := st.program.opcodes ++ [.endOp] }

/-! Language tags and negotiation (language_tag.rs, negotiation.rs). -/

/-- UTF-8 encoding of one character. -/
def charUtf8 (c : Char) : List Nat :=
  let n := c.toNat
  if n < 128 then [n]
  else if n < 2048 then [192 + n / 64, 128 + n % 64]
  else if n < 65536 then [224 + n / 4096, 128 + n / 64 % 64, 128 + n % 64]
  else [240 + n / 262144, 128 + n / 4096 % 64, 128 + n / 64 % 64, 128 + n % 64]

/-- UTF-8 bytes of a string. -/
def utf8Bytes (s : String) : List Nat :=
  (s.data.map charUtf8).flatten

/-- Whitespace test of str::trim (the tags in play use ASCII whitespace). -/
def isWhitespaceChar (c : Char) : Bool :=
  c = ' ' || c = '\t' || c = '\n' || c = '\r'

/-- str::trim: strip whitespace from both ends. -/
def strTrim (s : String) : String :=
  String.mk (((s.data.dropWhile isWhitespaceChar).reverse.dropWhile
    isWhitespaceChar).reverse)

/-- Splitting accumulator for str::split on the dash character. -/
def splitDashAux : List Char → List Char → List String
  | [], acc => [String.mk acc.reverse]
  | c :: rest, acc =>
      if c = '-' then String.mk acc.reverse :: splitDashAux rest []
      else splitDashAux rest (c :: acc)

/-- str::split on the dash: same semantics as the Rust iterator collected
into a vector (leading, trailing and adjacent dashes yield empty parts). -/
def splitOnDash (s : String) : List String :=
  splitDashAux s.data []

/-- ASCII alphabetic test of is_alpha in language_tag.rs, per character. -/
def isAsciiAlphaChar (c : Char) : Bool :=
  (65 ≤ c.toNat && c.toNat ≤ 90) || (97 ≤ c.toNat && c.toNat ≤ 122)

/-- ASCII digit test, per character. -/
def isAsciiDigitChar (c : Char) : Bool :=
  48 ≤ c.toNat && c.toNat ≤ 57

/-- is_alpha of language_tag.rs. -/
def is_alpha (value : String) : Bool :=
  value.data.all isAsciiAlphaChar

/-- to_ascii_lowercase on one character. -/
def asciiLowerChar (c : Char) : Char :=
  if 65 ≤ c.toNat ∧ c.toNat ≤ 90 then Char.ofNat (c.toNat + 32) else c

/-- to_ascii_uppercase on one character. -/
def asciiUpperChar (c : Char) : Char :=
  if 97 ≤ c.toNat ∧ c.toNat ≤ 122 then Char.ofNat (c.toNat - 32) else c

/-- to_ascii_lowercase on a string. -/
def asciiLower (s : String) : String :=
  String.mk (s.data.map asciiLowerChar)

/-- to_ascii_uppercase on a string. -/
def asciiUpper (s : String) : String :=
  String.mk (s.data.map asciiUpperChar)

/-- Byte length of a subtag; the source compares str::len, the UTF-8 byte
count. -/
def subtagLen (s : String) : Nat := (utf8Bytes s).length

/-- is_region of language_tag.rs: two ASCII letters or three ASCII digits. -/
def is_region (value : String) : Bool :=
  (subtagLen value = 2 && is_alpha value) ||
  (subtagLen value = 3 && value.data.all isAsciiDigitChar)

/-- titlecase of language_tag.rs: first character ASCII-uppercased, rest
ASCII-lowercased. -/
def titlecase (value : String) : String :=
  match value.data with
  | [] => ""
  | first :: rest => String.mk (asciiUpperChar first :: rest.map asciiLowerChar)

/-- Joining normalized parts with a dash. -/
def joinDash (parts : List String) : String :=
  String.intercalate "-" parts

/-- Parsed language tag of language_tag.rs. -/
structure LanguageTag where
  original : String
  normalized : String
  match_subtags : List String
deriving DecidableEq

/-- Loop state of LanguageTag::parse over the subtags after the language
subtag. -/
structure TagParseAcc where
  normalized_parts : List String
  match_parts : List String
  script_seen : Bool
  region_seen : Bool
  stop_for_match : Bool
deriving DecidableEq

/-- Casing branch of the subtag loop of LanguageTag::parse: the normalized
subtag together with the updated script-seen and region-seen flags. -/
def stepCase (acc : TagParseAcc) (part : String) : String × Bool × Bool :=
  if ¬acc.script_seen ∧ subtagLen part = 4 ∧ is_alpha part then
    (titlecase part, true, acc.region_seen)
  else if ¬acc.region_seen ∧ is_region part then
    (asciiUpper part, acc.script_seen, true)
  else
    (asciiLower part, acc.script_seen, acc.region_seen)

/-- Subtag loop of LanguageTag::parse for index 1 and upwards: singletons
are lowercased and end the match prefix; otherwise the first 4-letter
alphabetic subtag is titlecased, the first region-shaped subtag is
uppercased, everything else lowercased. -/
def parseSubtags : List String → TagParseAcc → TagParseAcc
  | [], acc => acc
  | part0 :: rest, acc =>
      let part := strTrim part0
      if subtagLen part = 1 then
        parseSubtags rest
          { acc with
              stop_for_match := true,
              normalized_parts := acc.normalized_parts ++ [asciiLower part] }
      else
        parseSubtags rest
          { normalized_parts := acc.normalized_parts ++ [(stepCase acc part).1],
            match_parts :=
              if acc.stop_for_match then acc.match_parts
              else acc.match_parts ++ [(stepCase acc part).1],
            script_seen := (stepCase acc part).2.1,
            region_seen := (stepCase acc part).2.2,
            stop_for_match := acc.stop_for_match }

/-- LanguageTag::parse of language_tag.rs. -/
def LanguageTag.parse (input : String) : CoreResult LanguageTag :=
  let trimmed := strTrim input
  if trimmed.isEmpty then .error (.invalidInput "language tag is empty")
  else
    let subtags := splitOnDash trimmed
    if subtags.any (fun part => part.isEmpty) then
      .error (.invalidInput "language tag has empty subtag")
    else
      match subtags with
      | [] => .error (.invalidInput "language tag is empty")
      | first :: rest =>
          let part := strTrim first
          if ¬(is_alpha part ∧ 2 ≤ subtagLen part ∧ subtagLen part ≤ 8) then
            .error (.invalidInput "invalid language subtag")
          else
            let lower := asciiLower part
            let acc := parseSubtags rest ⟨[lower], [lower], false, false, false⟩
            .ok ⟨trimmed, joinDash acc.normalized_parts, acc.match_parts⟩

/-- LanguageTag::normalized. -/
def LanguageTag.getNormalized (t : LanguageTag) : String := t.normalized

/-- Negotiation result of negotiation.rs; the trace is the attempts list of
NegotiationTrace when tracing is on. -/
structure NegotiationResult where
  selected : LanguageTag
  requested : LanguageTag
  trace : Option (List String)
deriving DecidableEq

/-- Truncation loop of negotiate_lookup_internal: progressively drop the
last match subtag and join, down to the primary language alone. -/
def popJoinsAux : Nat → List String → List String
  | 0, _ => []
  | fuel + 1, l =>
      if l.length ≤ 1 then []
      else joinDash l.dropLast :: popJoinsAux fuel l.dropLast

/-- Truncation loop entry point: the fuel equals the list length, which the
loop (dropping one subtag per iteration) never exhausts. -/
def popJoins (l : List String) : List String :=
  popJoinsAux l.length l

/-- Candidate list tried for one requested tag in
negotiate_lookup_internal: the normalized form, the full match prefix when
it differs, then the truncations. -/
def triedFor (t : LanguageTag) : List String :=
  let base := [t.normalized]
  if t.match_subtags.isEmpty then base
  else
    let full := joinDash t.match_subtags
    (if full ≠ t.normalized then base ++ [full] else base) ++ popJoins t.match_subtags

/-- find_supported of negotiation.rs: first supported tag whose normalized
form equals the candidate. -/
def find_supported (tag : String) (supported : List LanguageTag) :
    Option LanguageTag :=
  supported.find? fun candidate => candidate.normalized = tag

/-- Inner attempt loop of negotiate_lookup_internal, threading the trace. -/
def tryAttempts (supported : List LanguageTag) :
    List String → Option (List String) → Option (List String) × Option LanguageTag
  | [], trace => (trace, none)
  | attempt :: rest, trace =>
      let trace2 := trace.map fun attempts => attempts ++ [attempt]
      match find_supported attempt supported with
      | some selected => (trace2, some selected)
      | none => tryAttempts supported rest trace2

/-- Outer requested-tag loop of negotiate_lookup_internal. -/
def negotiateLoop (supported : List LanguageTag) :
    List LanguageTag → Option (List String) →
    Option (List String) × Option (LanguageTag × LanguageTag)
  | [], trace => (trace, none)
  | requested_tag :: rest, trace =>
      match tryAttempts supported (triedFor requested_tag) trace with
      | (trace2, some selected) => (trace2, some (selected, requested_tag))
      | (trace2, none) => negotiateLoop supported rest trace2

/-- negotiate_lookup_internal of negotiation.rs.  On a match the result
carries the matching requested tag; otherwise the default is selected and
the first requested tag (or the default when none) is carried. -/
def negotiate_lookup_internal (requested supported : List LanguageTag)
    (default_locale : LanguageTag) (with_trace : Bool) : NegotiationResult :=
  let trace0 : Option (List String) := if with_trace then some [] else none
  match negotiateLoop supported requested trace0 with
  | (trace, some (selected, requested_tag)) => ⟨selected, requested_tag, trace⟩
  | (trace, none) => ⟨default_locale, requested.head?.getD default_locale, trace⟩

/-- negotiate_lookup of negotiation.rs. -/
def negotiate_lookup (requested supported : List LanguageTag)
    (default_locale : LanguageTag) : NegotiationResult :=
  negotiate_lookup_internal requested supported default_locale false

/-- negotiate_lookup_with_trace of negotiation.rs. -/
def negotiate_lookup_with_trace (requested supported : List LanguageTag)
    (default_locale : LanguageTag) : NegotiationResult :=
  negotiate_lookup_internal requested supported default_locale true

/-! Id-map hashing (id_map.rs of the CLI crate and of the runtime crate)
with a concrete SHA-256 over byte lists standing in for the sha2 crate. -/

/-- Right rotation of a 32-bit word. -/
def rotr32 (x n : Nat) : Nat :=
  ((x >>> n) ||| (x <<< (32 - n))) % 4294967296

/-- SHA-256 round constants. -/
def sha256K : List Nat :=
  [1116352408, 1899447441, 3049323471, 3921009573, 961987163, 1508970993, 2453635748, 2870763221,
   3624381080, 310598401, 607225278, 1426881987, 1925078388, 2162078206, 2614888103, 3248222580,
   3835390401, 4022224774, 264347078, 604807628, 770255983, 1249150122, 1555081692, 1996064986,
   2554220882, 2821834349, 2952996808, 3210313671, 3336571891, 3584528711, 113926993, 338241895,
   666307205, 773529912, 1294757372, 1396182291, 1695183700, 1986661051, 2177026350, 2456956037,
   2730485921, 2820302411, 3259730800, 3345764771, 3516065817, 3600352804, 4094571909, 275423344,
   430227734, 506948616, 659060556, 883997877, 958139571, 1322822218, 1537002063, 1747873779,
   1955562222, 2024104815, 2227730452, 2361852424, 2428436474, 2756734187, 3204031479, 3329325298]

/-- SHA-256 initial hash state. -/
def sha256H0 : List Nat :=
  [1779033703, 3144134277, 1013904242, 2773480762, 1359893119, 2600822924, 528734635, 1541459225]

/-- Big-endian 8-byte encoding of the bit length. -/
def be64 (n : Nat) : List Nat :=
  [n / 72057594037927936 % 256, n / 281474976710656 % 256,
   n / 1099511627776 % 256, n / 4294967296 % 256,
   n / 16777216 % 256, n / 65536 % 256, n / 256 % 256, n % 256]

/-- SHA-256 padding: 0x80, zeros to 56 mod 64, then the bit length. -/
def sha256Pad (msg : List Nat) : List Nat :=
  let k := (64 + 55 - msg.length % 64) % 64
  msg ++ 128 :: List.replicate k 0 ++ be64 (8 * msg.length)

/-- Split a byte list into 64-byte blocks. -/
def chunks64 (l : List Nat) : List (List Nat) :=
  if l.length = 0 then []
  else l.take 64 :: chunks64 (l.drop 64)
termination_by l.length
decreasing_by
  simp only [List.length_drop]
  omega

/-- Big-endian 32-bit word from four bytes. -/
def beWord (b0 b1 b2 b3 : Nat) : Nat :=
  16777216 * (b0 % 256) + 65536 * (b1 % 256) + 256 * (b2 % 256) + b3 % 256

/-- First 16 message-schedule words of a block. -/
def blockWords : List Nat → List Nat
  | b0 :: b1 :: b2 :: b3 :: rest => beWord b0 b1 b2 b3 :: blockWords rest
  | _ => []

/-- Sigma functions of the SHA-256 schedule and rounds. -/
def smallSigma0 (x : Nat) : Nat := rotr32 x 7 ^^^ rotr32 x 18 ^^^ (x >>> 3)

/-- Second schedule sigma. -/
def smallSigma1 (x : Nat) : Nat := rotr32 x 17 ^^^ rotr32 x 19 ^^^ (x >>> 10)

/-- First round sigma. -/
def bigSigma0 (x : Nat) : Nat := rotr32 x 2 ^^^ rotr32 x 13 ^^^ rotr32 x 22

/-- Second round sigma. -/
def bigSigma1 (x : Nat) : Nat := rotr32 x 6 ^^^ rotr32 x 11 ^^^ rotr32 x 25

/-- Choice function. -/
def chFn (x y z : Nat) : Nat := (x &&& y) ^^^ ((x ^^^ 4294967295) &&& z)

/-- Majority function. -/
def majFn (x y z : Nat) : Nat := (x &&& y) ^^^ (x &&& z) ^^^ (y &&& z)

/-- Message-schedule extension from 16 to 64 words. -/
def extendWords : List Nat → Nat → List Nat
  | w, 0 => w
  | w, n + 1 =>
      let i := w.length
      let nw := (w.getD (i - 16) 0 + smallSigma0 (w.getD (i - 15) 0) +
                 w.getD (i - 7) 0 + smallSigma1 (w.getD (i - 2) 0)) % 4294967296
      extendWords (w ++ [nw]) n

/-- One SHA-256 round on the 8-word state. -/
def sha256Round (wi ki : Nat) (st : List Nat) : List Nat :=
  match st with
  | [a, b, c, d, e, f, g, h] =>
      let t1 := (h + bigSigma1 e + chFn e f g + ki + wi) % 4294967296
      let t2 := (bigSigma0 a + majFn a b c) % 4294967296
      [(t1 + t2) % 4294967296, a, b, c, (d + t1) % 4294967296, e, f, g]
  | st => st

/-- One block of SHA-256 compression. -/
def sha256Block (h : List Nat) (block : List Nat) : List Nat :=
  let w := extendWords (blockWords block) 48
  let st := (w.zip sha256K).foldl (fun st p => sha256Round p.1 p.2 st) h
  (h.zip st).map fun p => (p.1 + p.2) % 4294967296

/-- SHA-256 of a byte list, as 32 digest bytes. -/
def sha256 (msg : List Nat) : List Nat :=
  let hh := (chunks64 (sha256Pad msg)).foldl sha256Block sha256H0
  (hh.map fun x => [x / 16777216 % 256, x / 65536 % 256, x / 256 % 256, x % 256]).flatten

/-- Serialization loop shared by IdMap::hash in the CLI and runtime crates:
ascending (key, id) entries as u32-LE key byte length, key bytes, u32-LE id.
The error value is the length of a key exceeding the u32 range. -/
def idMapSerialize : List (String × Nat) → Except Nat (List Nat)
  | [] => .ok []
  | (key, id) :: rest =>
      let kb := utf8Bytes key
      if kb.length < 4294967296 then
        match idMapSerialize rest with
        | .ok tail => .ok (u32Bytes kb.length ++ kb ++ u32Bytes id ++ tail)
        | .error len => .error len
      else .error kb.length

/-- Build-time id-map errors of id_map.rs (CLI crate). -/
inductive IdMapError where
  | collision (id : Nat) (existing incoming : String)
  | keyTooLong (len : Nat)
deriving DecidableEq

/-- Sorted insert-or-replace into a string-keyed map, modelling
BTreeMap::insert including its ascending iteration order. -/
def strMapInsert : List (String × Nat) → String → Nat → List (String × Nat)
  | [], k, v => [(k, v)]
  | (k0, v0) :: rest, k, v =>
      if k < k0 then (k, v) :: (k0, v0) :: rest
      else if k = k0 then (k, v) :: rest
      else (k0, v0) :: strMapInsert rest k v

/-- Sorted insert-or-replace into a nat-keyed map of strings (the reverse
map of the build-time IdMap). -/
def natMapInsert : List (Nat × String) → Nat → String → List (Nat × String)
  | [], k, v => [(k, v)]
  | (k0, v0) :: rest, k, v =>
      if k < k0 then (k, v) :: (k0, v0) :: rest
      else if k = k0 then (k, v) :: rest
      else (k0, v0) :: natMapInsert rest k v

/-- Lookup in a string-keyed association list (BTreeMap::get). -/
def strGet {α : Type} (m : List (String × α)) (k : String) : Option α :=
  (m.find? fun p => p.1 = k).map (·.2)

/-- Build-time IdMap of id_map.rs (CLI crate): the forward entries map and
the id-keyed reverse map, both sorted. -/
structure IdMapCli where
  entries : List (String × Nat)
  reverse : List (Nat × String)
deriving DecidableEq

/-- IdMap::insert of the CLI crate: a different key already holding the id
is a collision; otherwise both maps are updated. -/
def IdMapCli.insert (m : IdMapCli) (key : String) (id : Nat) :
    Except IdMapError IdMapCli :=
  match mapGet m.reverse id with
  | some existing =>
      if existing ≠ key then .error (.collision id existing key)
      else .ok ⟨strMapInsert m.entries key id, natMapInsert m.reverse id key⟩
  | none => .ok ⟨strMapInsert m.entries key id, natMapInsert m.reverse id key⟩

/-- Folding IdMap::insert over a list of pairs (the loop shape of
build_id_map, with the ids given explicitly). -/
def buildIdMap : List (String × Nat) → IdMapCli → Except IdMapError IdMapCli
  | [], m => .ok m
  | (key, id) :: rest, m =>
      match m.insert key id with
      | .ok m2 => buildIdMap rest m2
      | .error e => .error e

/-- IdMap::hash of the CLI crate. -/
def IdMapCli.hash (m : IdMapCli) : Except IdMapError (List Nat) :=
  match idMapSerialize m.entries with
  | .ok bytes => .ok (sha256 bytes)
  | .error len => .error (.keyTooLong len)

/-- Runtime errors of error.rs (runtime crate); the Core variant carries
the rendered display string of the core error. -/
inductive RuntimeError where
  | io
  | json
  | core (msg : String)
  | invalidHash
  | invalidIdMap
  | hashMismatch (locale : String)
  | missingLocale (locale : String)
  | missingMessage (key : String)
  | invalidManifest (msg : String)
deriving DecidableEq

/-- Display rendering of a CoreError (error.rs of the core crate), used by
the From conversion into RuntimeError::Core. -/
def renderCoreError : CoreError → String
  | .unsupported msg => "unsupported: " ++ msg
  | .invalidInput msg => "invalid input: " ++ msg
  | .internal msg => "internal error: " ++ msg

/-- IdMap::hash of the runtime crate (id_map.rs there): identical
serialization, with the overlong-key failure reported as InvalidIdMap. -/
def idMapHashRuntime (entries : List (String × Nat)) :
    Except RuntimeError (List Nat) :=
  match idMapSerialize entries with
  | .ok bytes => .ok (sha256 bytes)
  | .error _ => .error .invalidIdMap

/-! Runtime assembly (runtime.rs of the runtime crate).  The loaded Runtime
is modelled by its in-memory state; the chain walk of catalog_chain_for is
an unbounded while loop and carries explicit fuel. -/

/-- Loaded runtime state of runtime.rs. -/
structure Runtime where
  id_map : List (String × Nat)
  packs : List (String × PackCatalog)
  parents : List (String × String)
  default_locale : LanguageTag
  supported : List LanguageTag

/-- Parent-chain walk of Runtime::catalog_chain_for, with fuel: none means
the walk has not finished within the given number of steps (the Rust loop
does not terminate on a cyclic parent map). -/
def catalogChainGo (rt : Runtime) :
    Nat → Option String → List PackCatalog → Option (List PackCatalog)
  | _, none, acc => some acc
  | 0, some _, _ => none
  | fuel + 1, some tag, acc =>
      let acc2 := match strGet rt.packs tag with
        | some pack => acc ++ [pack]
        | none => acc
      catalogChainGo rt fuel (strGet rt.parents tag) acc2

/-- Runtime::catalog_chain_for: collect the catalogs along the parent
chain; an empty chain is the MissingLocale error. -/
def catalog_chain_for (rt : Runtime) (locale : String) (fuel : Nat) :
    Option (Except RuntimeError (List PackCatalog)) :=
  (catalogChainGo rt fuel (some locale) []).map fun catalogs =>
    if catalogs.isEmpty then .error (.missingLocale locale) else .ok catalogs

/-- CatalogChain::lookup of catalog.rs: first catalog holding the id wins. -/
def chainLookup (catalogs : List PackCatalog) (id : Nat) :
    Option BytecodeProgram :=
  catalogs.findSome? fun c => c.lookup id

/-- Runtime::format_with_backend of runtime.rs.  The chain walk and the
interpreter both carry fuel; none means one of the two loops has not
finished within its fuel. -/
def format_with_backend (rt : Runtime) (locale key : String) (args : Args)
    (backend : FormatBackend) (chainFuel execFuel : Nat) :
    Option (Except RuntimeError String) :=
  match LanguageTag.parse locale with
  | .error e => some (.error (.core (renderCoreError e)))
  | .ok locale_tag =>
    let negotiation := negotiate_lookup [locale_tag] rt.supported rt.default_locale
    let selected := negotiation.selected.normalized
    match catalog_chain_for rt selected chainFuel with
    | none => none
    | some (.error e) => some (.error e)
    | some (.ok catalog_chain) =>
      match strGet rt.id_map key with
      | none => some (.error (.missingMessage key))
      | some message_id =>
        match chainLookup catalog_chain message_id with
        | none => some (.error (.missingMessage key))
        | some program =>
          match executeFuel program args backend execFuel with
          | none => none
          | some (.ok output) => some (.ok output)
          | some (.error e) => some (.error (.core (renderCoreError e)))

/-- Model of BasicFormatBackend in runtime.rs: plural category Other for
every value, Display-style rendering for every formatter. -/
def BasicFormatBackend : FormatBackend :=
  ⟨fun _ => .ok .other,
   fun value _ => .ok (f64ToString value),
   fun value _ => .ok (toString value),
   fun value _ => .ok (toString value),
   fun value _ => .ok (toString value),
   fun value unit_id _ => .ok (f64ToString value ++ ":" ++ toString unit_id),
   fun value code _ =>
     .ok (f64ToString value ++ ":" ++
       (match currencyCodeToString code with
        | .ok s => s
        | .error _ => "???"))⟩

/-! Theorems for the frozen claims. -/

/-- C10: negotiate_lookup called with an empty requested list returns a
result whose selected tag and requested tag are both the default locale,
for every supported set and every default locale. -/
theorem negotiate_lookup_empty_requested (supported : List LanguageTag)
    (default_locale : LanguageTag) :
    (negotiate_lookup [] supported default_locale).selected = default_locale ∧
    (negotiate_lookup [] supported default_locale).requested = default_locale := by
  constructor <;> rfl

/-- C1: whenever the pack header parses and its embedded id-map hash differs
from the caller-supplied expected hash, PackCatalog::decode fails with the
invalid-input error "id map hash mismatch"; since the result is an error, no
catalog and hence no decoded program is ever produced from such a pack. -/
theorem decode_id_map_hash_mismatch (bytes expected : List Nat)
    (header : PackHeader) (cursor : Nat)
    (hparse : parse_pack_header bytes = .ok (header, cursor))
    (hne : header.id_map_hash ≠ expected) :
    PackCatalog.decode bytes expected =
      .error (.invalidInput "id map hash mismatch") := by
  unfold PackCatalog.decode
  rw [hparse]
  simp only [Bind.bind, Except.bind, hne, ne_eq, not_false_eq_true, if_true]

/-- Witness for C1 at a concrete 63-byte pack whose embedded hash is 32
bytes of 7 while the expected hash is 32 zero bytes. -/
theorem decode_id_map_hash_mismatch_witness :
    PackCatalog.decode
      (PACK_MAGIC ++ u16Bytes 0 ++ [0] ++ u32Bytes 0 ++ List.replicate 32 7 ++
        u32Bytes 0 ++ u32Bytes u32MAX ++ u64Bytes 0)
      (List.replicate 32 0) =
      .error (.invalidInput "id map hash mismatch") :=
  decode_id_map_hash_mismatch _ _
    ⟨0, .base, 0, List.replicate 32 7, 0, none, 0⟩ 63 rfl (by decide)

/-- Helper for C3: a successful exact match picks an Exact entry of the
table whose key, read as a rational, equals the selected numeric value; in
particular that value is a non-negative integer. -/
theorem match_exact_number_sound (table : CaseTable) (q : Rat) (target : Nat)
    (h : match_exact_number table q = some target) :
    0 ≤ q ∧ ∃ entry ∈ table.entries, ∃ n, entry.key = CaseKey.exact n ∧
      (n : Rat) = q ∧ entry.target = target := by
  unfold match_exact_number at h
  split at h
  · exact absurd h (by simp)
  · next hneg =>
    dsimp only at h
    split at h
    · next heq =>
      rcases Option.map_eq_some'.mp h with ⟨entry, hfind, htgt⟩
      have hmem := List.mem_of_find?_eq_some hfind
      have hpred := List.find?_some hfind
      refine ⟨le_of_not_lt hneg, entry, hmem, ?_⟩
      cases hk : entry.key with
      | exact n =>
          rw [hk] at hpred
          simp only [decide_eq_true_eq] at hpred
          exact ⟨n, rfl, by rw [hpred, heq], htgt⟩
      | string s => rw [hk] at hpred; simp at hpred
      | category c => rw [hk] at hpred; simp at hpred
      | other => rw [hk] at hpred; simp at hpred
    · exact absurd h (by simp)

/-- C3: semantics of the SelectPlural opcode in the interpreter.  The
referenced argument must be a Num value, otherwise an invalid-input error is
returned; an Exact case key matches first and only when the value is a
non-negative integer equal to the key; failing that, for the Cardinal
ruleset the backend plural category is consulted and a matching Category
key taken; otherwise selection falls through to the Other entry, and a
missing Other entry is an error. -/
theorem select_plural_case_semantics (program : BytecodeProgram) (args : Args)
    (backend : FormatBackend) (aidx : Nat) (ruleset : PluralRuleset)
    (table_idx : Nat) :
    ((∀ name v, program.arg_name aidx = some name → Args.get args name = some v →
        (∀ q, v ≠ Value.num q) →
        select_plural_case program args backend aidx ruleset table_idx =
          .error (.invalidInput "plural expects number")) ∧
     (∀ table q target, match_exact_number table q = some target →
        0 ≤ q ∧ ∃ entry ∈ table.entries, ∃ n, entry.key = CaseKey.exact n ∧
          (n : Rat) = q ∧ entry.target = target) ∧
     (∀ name q table target, program.arg_name aidx = some name →
        Args.get args name = some (Value.num q) →
        program.case_tables.get? table_idx = some table →
        match_exact_number table q = some target →
        select_plural_case program args backend aidx ruleset table_idx = .ok target) ∧
     (∀ name q table c target, program.arg_name aidx = some name →
        Args.get args name = some (Value.num q) →
        program.case_tables.get? table_idx = some table →
        match_exact_number table q = none →
        ruleset = .cardinal →
        backend.plural_category q = .ok c →
        match_plural_category table c = some target →
        select_plural_case program args backend aidx ruleset table_idx = .ok target) ∧
     (∀ name q table c, program.arg_name aidx = some name →
        Args.get args name = some (Value.num q) →
        program.case_tables.get? table_idx = some table →
        match_exact_number table q = none →
        backend.plural_category q = .ok c →
        match_plural_category table c = none →
        select_plural_case program args backend aidx ruleset table_idx =
          match_other table) ∧
     (∀ table : CaseTable, (∀ entry ∈ table.entries, entry.key ≠ CaseKey.other) →
        match_other table = .error (.invalidInput "missing other case"))) := by
  refine ⟨?_, ?_, ?_, ?_, ?_, ?_⟩
  · intro name v hname hget hnum
    unfold select_plural_case
    rw [hname]
    dsimp only
    unfold Args.require
    rw [hget]
    dsimp only
    cases v with
    | num q => exact absurd rfl (hnum q)
    | str s => rfl
    | bool b => rfl
    | dateTime t => rfl
    | unit a b => rfl
    | currency a b => rfl
    | any => rfl
  · exact fun table q target h => match_exact_number_sound table q target h
  · intro name q table target hname hget htable hexact
    unfold select_plural_case
    rw [hname]
    dsimp only
    unfold Args.require
    rw [hget]
    dsimp only
    unfold get_case_table
    rw [htable]
    dsimp only
    rw [hexact]
  · intro name q table c target hname hget htable hexact hrs hcat hmatch
    unfold select_plural_case
    rw [hname]
    dsimp only
    unfold Args.require
    rw [hget]
    dsimp only
    unfold get_case_table
    rw [htable]
    dsimp only
    rw [hexact]
    dsimp only
    rw [hcat]
    dsimp only
    rw [hmatch]
  · intro name q table c hname hget htable hexact hcat hmatch
    unfold select_plural_case
    rw [hname]
    dsimp only
    unfold Args.require
    rw [hget]
    dsimp only
    unfold get_case_table
    rw [htable]
    dsimp only
    rw [hexact]
    dsimp only
    rw [hcat]
    dsimp only
    rw [hmatch]
  · intro table h
    unfold match_other
    rw [List.find?_eq_none.mpr]
    intro entry hmem
    cases hk : entry.key with
    | other => exact absurd hk (h entry hmem)
    | string s => simp
    | exact n => simp
    | category c => simp

/-- Witness for C3 at a concrete program: the argument count = 1 matches the
Exact 1 key of the table (taking target 5), and a string argument yields the
invalid-input error. -/
theorem select_plural_case_semantics_witness :
    select_plural_case
      ⟨[], [], [], [⟨[⟨CaseKey.exact 1, 5⟩, ⟨CaseKey.other, 9⟩]⟩], ["count"]⟩
      [("count", Value.num 1)] BasicFormatBackend 0 .cardinal 0 = .ok 5 ∧
    select_plural_case
      ⟨[], [], [], [⟨[⟨CaseKey.exact 1, 5⟩, ⟨CaseKey.other, 9⟩]⟩], ["count"]⟩
      [("count", Value.str "x")] BasicFormatBackend 0 .cardinal 0 =
      .error (.invalidInput "plural expects number") := by
  constructor
  · exact (select_plural_case_semantics
      ⟨[], [], [], [⟨[⟨CaseKey.exact 1, 5⟩, ⟨CaseKey.other, 9⟩]⟩], ["count"]⟩
      [("count", Value.num 1)] BasicFormatBackend 0 .cardinal 0).2.2.1
      "count" 1 ⟨[⟨CaseKey.exact 1, 5⟩, ⟨CaseKey.other, 9⟩]⟩ 5
      rfl rfl rfl (by decide)
  · exact (select_plural_case_semantics
      ⟨[], [], [], [⟨[⟨CaseKey.exact 1, 5⟩, ⟨CaseKey.other, 9⟩]⟩], ["count"]⟩
      [("count", Value.str "x")] BasicFormatBackend 0 .cardinal 0).1
      "count" (Value.str "x") rfl rfl (by intro q h; exact Value.noConfusion h)

/-- Helper for C5: when no candidate in the attempt list is supported, the
inner loop reports no match. -/
theorem tryAttempts_none (supported : List LanguageTag) (cands : List String)
    (trace : Option (List String))
    (h : ∀ c ∈ cands, find_supported c supported = none) :
    (tryAttempts supported cands trace).2 = none := by
  induction cands generalizing trace with
  | nil => rfl
  | cons c rest ih =>
      unfold tryAttempts
      rw [h c (List.mem_cons_self c rest)]
      exact ih _ fun d hd => h d (List.mem_cons_of_mem c hd)

/-- Helper for C5: a successful outer loop returns a requested tag that is a
member of the requested list. -/
theorem negotiateLoop_requested_mem (supported : List LanguageTag)
    (reqs : List LanguageTag) (trace : Option (List String))
    (selected requested_tag : LanguageTag)
    (h : (negotiateLoop supported reqs trace).2 = some (selected, requested_tag)) :
    requested_tag ∈ reqs := by
  induction reqs generalizing trace with
  | nil => exact absurd h (by simp [negotiateLoop])
  | cons r rest ih =>
      unfold negotiateLoop at h
      rcases ht : tryAttempts supported (triedFor r) trace with ⟨trace2, found⟩
      rw [ht] at h
      cases found with
      | some sel =>
          simp only [Option.some.injEq, Prod.mk.injEq] at h
          rcases h with ⟨h1, h2⟩
          subst h2
          exact List.mem_cons_self r rest
      | none =>
          simp only at h
          exact List.mem_cons_of_mem r (ih trace2 h)

/-- Helper for C5: when no candidate of any requested tag is supported, the
outer loop reports no match. -/
theorem negotiateLoop_none (supported : List LanguageTag)
    (reqs : List LanguageTag) (trace : Option (List String))
    (h : ∀ r ∈ reqs, ∀ c ∈ triedFor r, find_supported c supported = none) :
    (negotiateLoop supported reqs trace).2 = none := by
  induction reqs generalizing trace with
  | nil => rfl
  | cons r rest ih =>
      unfold negotiateLoop
      rcases ht : tryAttempts supported (triedFor r) trace with ⟨trace2, found⟩
      have hnone : found = none := by
        have := tryAttempts_none supported (triedFor r) trace
          (h r (List.mem_cons_self r rest))
        rw [ht] at this
        exact this
      subst hnone
      simp only
      exact ih trace2 fun r2 hr2 => h r2 (List.mem_cons_of_mem r hr2)

/-- Counterexample for C5: requesting [aa, bb] against supported [bb], the
match is found via the second requested tag and the result carries that
second tag in its requested field, not the first requested tag. -/
theorem negotiate_requested_field_counterexample :
    (negotiate_lookup
        [⟨"aa", "aa", ["aa"]⟩, ⟨"bb", "bb", ["bb"]⟩]
        [⟨"bb", "bb", ["bb"]⟩] ⟨"cc", "cc", ["cc"]⟩).requested =
      ⟨"bb", "bb", ["bb"]⟩ ∧
    (⟨"bb", "bb", ["bb"]⟩ : LanguageTag) ≠ ⟨"aa", "aa", ["aa"]⟩ := by
  constructor
  · decide
  · decide

/-- C5 as amended: the requested field always carries one of the requested
tags — the one whose candidate matched — and when no candidate of any
requested tag matches a supported tag, the selected field is the default
locale and the requested field is the first requested tag. -/
theorem negotiate_lookup_requested_field (requested supported : List LanguageTag)
    (default_locale : LanguageTag) (r0 : LanguageTag) (rest : List LanguageTag)
    (hreq : requested = r0 :: rest) :
    (negotiate_lookup requested supported default_locale).requested ∈ requested ∧
    ((∀ r ∈ requested, ∀ c ∈ triedFor r, find_supported c supported = none) →
      (negotiate_lookup requested supported default_locale).selected = default_locale ∧
      (negotiate_lookup requested supported default_locale).requested = r0) := by
  constructor
  · unfold negotiate_lookup negotiate_lookup_internal
    dsimp only
    rw [show (if false = true then some ([] : List String) else none) = none from rfl]
    rcases hl : negotiateLoop supported requested none with ⟨trace, found⟩
    cases found with
    | some pair =>
        rcases pair with ⟨sel, rt⟩
        dsimp only
        exact negotiateLoop_requested_mem supported requested none sel rt (by rw [hl])
    | none =>
        dsimp only
        rw [hreq]
        simp only [List.head?_cons, Option.getD_some]
        exact List.mem_cons_self r0 rest
  · intro hnomatch
    have hl0 := negotiateLoop_none supported requested none hnomatch
    unfold negotiate_lookup negotiate_lookup_internal
    dsimp only
    rw [show (if false = true then some ([] : List String) else none) = none from rfl]
    rcases hl : negotiateLoop supported requested none with ⟨trace, found⟩
    rw [hl] at hl0
    dsimp only at hl0
    subst hl0
    dsimp only
    rw [hreq]
    simp only [List.head?_cons, Option.getD_some]
    exact ⟨trivial, trivial⟩

/-- Witness for C5 amended at a concrete no-match instance: requested [aa],
supported empty, default cc. -/
theorem negotiate_lookup_requested_field_witness :
    (negotiate_lookup [⟨"aa", "aa", ["aa"]⟩] [] ⟨"cc", "cc", ["cc"]⟩).requested ∈
      [(⟨"aa", "aa", ["aa"]⟩ : LanguageTag)] ∧
    ((∀ r ∈ [(⟨"aa", "aa", ["aa"]⟩ : LanguageTag)], ∀ c ∈ triedFor r,
        find_supported c [] = none) →
      (negotiate_lookup [⟨"aa", "aa", ["aa"]⟩] [] ⟨"cc", "cc", ["cc"]⟩).selected =
        ⟨"cc", "cc", ["cc"]⟩ ∧
      (negotiate_lookup [⟨"aa", "aa", ["aa"]⟩] [] ⟨"cc", "cc", ["cc"]⟩).requested =
        ⟨"aa", "aa", ["aa"]⟩) :=
  negotiate_lookup_requested_field [⟨"aa", "aa", ["aa"]⟩] [] ⟨"cc", "cc", ["cc"]⟩
    ⟨"aa", "aa", ["aa"]⟩ [] rfl

/-- Script-shaped subtag: a 4-byte all-ASCII-alphabetic subtag. -/
def scriptShapedB (p : String) : Bool :=
  subtagLen p == 4 && is_alpha p

/-- Declarative casing of one subtag given the trimmed subtags preceding it
(anywhere after the language subtag, singletons included): singletons are
lowercased; the first script-shaped subtag is titlecased; the first
region-shaped subtag is uppercased; everything else is lowercased. -/
def casedSubtagSpec (prior : List String) (p : String) : String :=
  if subtagLen p = 1 then asciiLower p
  else if scriptShapedB p && prior.all (fun q => !scriptShapedB q) then titlecase p
  else if is_region p && prior.all (fun q => !is_region q) then asciiUpper p
  else asciiLower p

/-- Declarative normalization of the subtag list after the language subtag,
threading the list of already-seen trimmed subtags. -/
def casedList (prior : List String) : List String → List String
  | [] => []
  | p0 :: rest =>
      casedSubtagSpec prior (strTrim p0) :: casedList (prior ++ [strTrim p0]) rest

/-- Helper: all-negated equals negated any. -/
theorem allNot_eq_notAny {α : Type} (l : List α) (f : α → Bool) :
    l.all (fun q => !f q) = !l.any f := by
  induction l with
  | nil => rfl
  | cons x xs ih => simp [List.all_cons, List.any_cons, ih]

/-- Helper: a singleton subtag is not script-shaped. -/
theorem singleton_not_script (p : String) (h : subtagLen p = 1) :
    scriptShapedB p = false := by
  simp [scriptShapedB, h]

/-- Helper: a singleton subtag is not region-shaped. -/
theorem singleton_not_region (p : String) (h : subtagLen p = 1) :
    is_region p = false := by
  simp [is_region, h]

/-- Helper: a script-shaped subtag is not region-shaped. -/
theorem script_not_region (p : String) (h : scriptShapedB p = true) :
    is_region p = false := by
  simp only [scriptShapedB, Bool.and_eq_true, beq_iff_eq] at h
  simp [is_region, h.1]

/-- Helper: a region-shaped subtag is not script-shaped. -/
theorem region_not_script (p : String) (h : is_region p = true) :
    scriptShapedB p = false := by
  simp only [is_region, Bool.or_eq_true, Bool.and_eq_true, beq_iff_eq,
    decide_eq_true_eq] at h
  rcases h with ⟨h2, _⟩ | ⟨h3, _⟩ <;> simp [scriptShapedB, *]

/-- Helper for C6: the subtag loop of LanguageTag::parse computes, for the
normalized parts, exactly the declarative casing where the first-qualifier
tracking spans the whole tag (flags are never reset by singletons). -/
theorem parseSubtags_casedList (parts : List String) (prior : List String)
    (acc : TagParseAcc)
    (hs : acc.script_seen = prior.any scriptShapedB)
    (hr : acc.region_seen = prior.any is_region) :
    (parseSubtags parts acc).normalized_parts =
      acc.normalized_parts ++ casedList prior parts := by
  induction parts generalizing prior acc with
  | nil => simp [parseSubtags, casedList]
  | cons p0 rest ih =>
      unfold parseSubtags casedList
      dsimp only
      by_cases h1 : subtagLen (strTrim p0) = 1
      · rw [if_pos h1,
          ih (prior ++ [strTrim p0]) _
            (by simp [List.any_append, hs, singleton_not_script _ h1])
            (by simp [List.any_append, hr, singleton_not_region _ h1])]
        have hspec : casedSubtagSpec prior (strTrim p0) = asciiLower (strTrim p0) := by
          unfold casedSubtagSpec
          rw [if_pos h1]
        rw [hspec]
        simp [List.append_assoc]
      · rw [if_neg h1]
        by_cases h2 : ¬acc.script_seen = true ∧ subtagLen (strTrim p0) = 4 ∧
            is_alpha (strTrim p0) = true
        · have hsf : acc.script_seen = false := by
            revert h2
            cases acc.script_seen <;> simp
          have hshaped : scriptShapedB (strTrim p0) = true := by
            simp [scriptShapedB, h2.2.1, h2.2.2]
          have hstep : stepCase acc (strTrim p0) =
              (titlecase (strTrim p0), true, acc.region_seen) := by
            unfold stepCase
            rw [if_pos h2]
          rw [hstep]
          dsimp only
          rw [ih (prior ++ [strTrim p0]) _
            (by simp [List.any_append, hshaped])
            (by simp [List.any_append, hr, script_not_region _ hshaped])]
          have hspec : casedSubtagSpec prior (strTrim p0) = titlecase (strTrim p0) := by
            unfold casedSubtagSpec
            rw [if_neg h1, if_pos]
            rw [hshaped, allNot_eq_notAny, ← hs, hsf]
            simp
          rw [hspec]
          simp [List.append_assoc]
        · by_cases h3 : ¬acc.region_seen = true ∧ is_region (strTrim p0) = true
          · have hrf : acc.region_seen = false := by
              revert h3
              cases acc.region_seen <;> simp
            have hnotscript : scriptShapedB (strTrim p0) = false :=
              region_not_script _ h3.2
            have hstep : stepCase acc (strTrim p0) =
                (asciiUpper (strTrim p0), acc.script_seen, true) := by
              unfold stepCase
              rw [if_neg h2, if_pos h3]
            rw [hstep]
            dsimp only
            rw [ih (prior ++ [strTrim p0]) _
              (by simp [List.any_append, hs, hnotscript])
              (by simp [List.any_append, h3.2])]
            have hspec : casedSubtagSpec prior (strTrim p0) =
                asciiUpper (strTrim p0) := by
              unfold casedSubtagSpec
              rw [if_neg h1, if_neg, if_pos]
              · rw [h3.2, allNot_eq_notAny, ← hr, hrf]
                simp
              · simp [hnotscript]
            rw [hspec]
            simp [List.append_assoc]
          · have hsflag : scriptShapedB (strTrim p0) = true → acc.script_seen = true := by
              intro hsp
              simp only [scriptShapedB, Bool.and_eq_true, beq_iff_eq] at hsp
              by_contra hc
              exact h2 ⟨hc, hsp.1, hsp.2⟩
            have hrflag : is_region (strTrim p0) = true → acc.region_seen = true := by
              intro hrp
              by_contra hc
              exact h3 ⟨hc, hrp⟩
            have hstep : stepCase acc (strTrim p0) =
                (asciiLower (strTrim p0), acc.script_seen, acc.region_seen) := by
              unfold stepCase
              rw [if_neg h2, if_neg h3]
            rw [hstep]
            dsimp only
            have hs2 : acc.script_seen = (prior ++ [strTrim p0]).any scriptShapedB := by
              rw [List.any_append, ← hs]
              by_cases hsp : scriptShapedB (strTrim p0) = true
              · simp [hsp, hsflag hsp]
              · rw [Bool.not_eq_true] at hsp
                simp [hsp]
            have hr2 : acc.region_seen = (prior ++ [strTrim p0]).any is_region := by
              rw [List.any_append, ← hr]
              by_cases hrp : is_region (strTrim p0) = true
              · simp [hrp, hrflag hrp]
              · rw [Bool.not_eq_true] at hrp
                simp [hrp]
            rw [ih (prior ++ [strTrim p0]) _ (by exact hs2) (by exact hr2)]
            have hspec : casedSubtagSpec prior (strTrim p0) =
                asciiLower (strTrim p0) := by
              unfold casedSubtagSpec
              rw [if_neg h1, if_neg, if_neg]
              all_goals
                first
                | (by_cases hsp : scriptShapedB (strTrim p0) = true
                   · rw [hsp, allNot_eq_notAny, ← hs, hsflag hsp]
                     simp
                   · rw [Bool.not_eq_true] at hsp
                     simp [hsp])
                | (by_cases hrp : is_region (strTrim p0) = true
                   · rw [hrp, allNot_eq_notAny, ← hr, hrflag hrp]
                     simp
                   · rw [Bool.not_eq_true] at hrp
                     simp [hrp])
            rw [hspec]
            simp [List.append_assoc]

/-- Counterexample for C6: in "en-x-abcd" the 4-letter subtag "abcd" occurs
after the singleton "x", yet the script title-casing rule is applied to it:
the normalized form is "en-x-Abcd", so the rule is not restricted to
subtags before the first singleton. -/
theorem language_tag_post_singleton_counterexample :
    LanguageTag.parse "en-x-abcd" =
      .ok ⟨"en-x-abcd", "en-x-Abcd", ["en"]⟩ ∧
    ("en-x-Abcd" : String) ≠ "en-x-abcd" := by
  constructor
  · decide
  · decide

/-- C6 as amended: for every accepted input the normalized form applies the
script title-casing rule to the first 4-letter alphabetic subtag and the
region upper-casing rule to the first region-shaped subtag anywhere after
the language subtag — before or after the first singleton alike — while
singletons and all remaining subtags are lower-cased. -/
theorem language_tag_casing_rule (input : String) (t : LanguageTag)
    (h : LanguageTag.parse input = .ok t) :
    ∃ first rest, splitOnDash (strTrim input) = first :: rest ∧
      t.normalized =
        joinDash (asciiLower (strTrim first) :: casedList [] rest) := by
  unfold LanguageTag.parse at h
  dsimp only at h
  split at h
  · exact absurd h (by simp)
  · split at h
    · exact absurd h (by simp)
    · split at h
      · exact absurd h (by simp)
      · next first rest heq =>
          split at h
          · exact absurd h (by simp)
          · refine ⟨first, rest, heq, ?_⟩
            have hcase := parseSubtags_casedList rest []
              ⟨[asciiLower (strTrim first)], [asciiLower (strTrim first)],
                false, false, false⟩ rfl rfl
            have ht := Except.ok.inj h
            rw [← ht]
            dsimp only
            rw [hcase]
            simp

/-- Witness for C6 amended at the concrete tag "zh-hant-tw". -/
theorem language_tag_casing_rule_witness :
    ∃ first rest, splitOnDash (strTrim "zh-hant-tw") = first :: rest ∧
      (⟨"zh-hant-tw", "zh-Hant-TW", ["zh", "Hant", "TW"]⟩ : LanguageTag).normalized =
        joinDash (asciiLower (strTrim first) :: casedList [] rest) :=
  language_tag_casing_rule "zh-hant-tw"
    ⟨"zh-hant-tw", "zh-Hant-TW", ["zh", "Hant", "TW"]⟩ (by decide)

/-- Key order on id-map entries (the BTreeMap key order). -/
def entryKeyLt (a b : String × Nat) : Prop := a.1 < b.1

instance : IsAntisymm (String × Nat) entryKeyLt :=
  ⟨fun a _b h1 h2 => absurd (h1.trans h2) (lt_irrefl a.1)⟩

/-- Lookup through one cons cell of an association list. -/
theorem mapGet_cons {α : Type} (p : Nat × α) (ps : List (Nat × α)) (k : Nat) :
    mapGet (p :: ps) k = if p.1 = k then some p.2 else mapGet ps k := by
  by_cases h : p.1 = k <;> simp [mapGet, List.find?, h]

/-- Membership after a sorted insert: old entries or the new pair. -/
theorem strMapInsert_mem (l : List (String × Nat)) (k : String) (v : Nat)
    (x : String × Nat) (hx : x ∈ strMapInsert l k v) : x ∈ l ∨ x = (k, v) := by
  induction l with
  | nil => exact Or.inr (by simpa [strMapInsert] using hx)
  | cons hd tl ih =>
      unfold strMapInsert at hx
      split at hx
      · rcases List.mem_cons.mp hx with h | h
        · exact Or.inr h
        · exact Or.inl h
      · split at hx
        · rcases List.mem_cons.mp hx with h | h
          · exact Or.inr h
          · exact Or.inl (List.mem_cons_of_mem _ h)
        · rcases List.mem_cons.mp hx with h | h
          · exact Or.inl (by simp [h])
          · rcases ih h with h2 | h2
            · exact Or.inl (List.mem_cons_of_mem _ h2)
            · exact Or.inr h2

/-- Sorted insert preserves the BTreeMap sorted-keys invariant. -/
theorem strMapInsert_sorted (l : List (String × Nat)) (k : String) (v : Nat)
    (hl : l.Pairwise entryKeyLt) :
    (strMapInsert l k v).Pairwise entryKeyLt := by
  induction l with
  | nil => simp [strMapInsert, List.pairwise_singleton]
  | cons hd tl ih =>
      rcases List.pairwise_cons.mp hl with ⟨hhd, htl⟩
      unfold strMapInsert
      split
      · next hlt =>
          refine List.pairwise_cons.mpr ⟨?_, hl⟩
          intro x hx
          rcases List.mem_cons.mp hx with h | h
          · exact h ▸ hlt
          · exact lt_trans hlt (hhd x h)
      · next hnlt =>
          split
          · next heq =>
              refine List.pairwise_cons.mpr ⟨?_, htl⟩
              intro x hx
              exact heq ▸ hhd x hx
          · next hne =>
              refine List.pairwise_cons.mpr ⟨?_, ih htl⟩
              intro x hx
              rcases strMapInsert_mem tl k v x hx with h | h
              · exact hhd x h
              · subst h
                rcases lt_trichotomy k hd.1 with h2 | h2 | h2
                · exact absurd h2 hnlt
                · exact absurd h2 hne
                · exact h2

/-- Sorted insert of a fresh key is a permutation of consing the pair. -/
theorem strMapInsert_perm (l : List (String × Nat)) (k : String) (v : Nat)
    (hk : k ∉ l.map Prod.fst) :
    (strMapInsert l k v).Perm ((k, v) :: l) := by
  induction l with
  | nil => simp [strMapInsert]
  | cons hd tl ih =>
      unfold strMapInsert
      split
      · exact List.Perm.refl _
      · split
        · next heq =>
            exact absurd (by simp [← heq]) hk
        · have hk2 : k ∉ tl.map Prod.fst := fun h => hk (by simp [h])
          exact ((ih hk2).cons hd).trans (List.Perm.swap _ _ _)

/-- Lookup after a sorted insert into the reverse map. -/
theorem natMapInsert_get (l : List (Nat × String)) (k : Nat) (v : String)
    (k2 : Nat) :
    mapGet (natMapInsert l k v) k2 = if k2 = k then some v else mapGet l k2 := by
  induction l with
  | nil =>
      show mapGet [(k, v)] k2 = _
      rw [mapGet_cons]
      by_cases h : k2 = k
      · simp [h]
      · simp only [if_neg (fun hh : k = k2 => h hh.symm), if_neg h]
  | cons hd tl ih =>
      unfold natMapInsert
      split
      · next hlt =>
          rw [mapGet_cons]
          by_cases h : k2 = k
          · simp [h]
          · simp only [if_neg (fun hh : k = k2 => h hh.symm), if_neg h]
      · next hnlt =>
          split
          · next heq =>
              rw [mapGet_cons, mapGet_cons]
              by_cases h : k2 = k
              · simp [h]
              · rw [if_neg (fun hh : k = k2 => h hh.symm), if_neg h,
                  if_neg (fun hh : hd.1 = k2 => h (by rw [← hh]; exact heq.symm))]
          · next hne =>
              rw [mapGet_cons, mapGet_cons, ih]
              by_cases h2 : hd.1 = k2 <;> by_cases h : k2 = k
              · exact absurd (h2.trans h).symm hne
              · simp [h2, h]
              · have h2b : ¬hd.1 = k := fun hh => h2 (hh.trans h.symm)
                simp [h, h2b, h2]
              · simp [h2, h]

/-- Invariant run of build_id_map: with globally distinct keys and ids every
insert succeeds, the entries stay sorted, and they are a permutation of the
pairs inserted so far. -/
theorem buildIdMap_ok (todo done : List (String × Nat)) (m : IdMapCli)
    (hperm : m.entries.Perm done)
    (hsorted : m.entries.Pairwise entryKeyLt)
    (hrev : ∀ i, mapGet m.reverse i ≠ none → i ∈ done.map Prod.snd)
    (hkeys : ((done ++ todo).map Prod.fst).Nodup)
    (hids : ((done ++ todo).map Prod.snd).Nodup) :
    ∃ m2, buildIdMap todo m = .ok m2 ∧ m2.entries.Perm (done ++ todo) ∧
      m2.entries.Pairwise entryKeyLt := by
  induction todo generalizing done m with
  | nil => exact ⟨m, rfl, by simpa using hperm, hsorted⟩
  | cons p rest ih =>
      rcases p with ⟨key, id⟩
      have hfresh : mapGet m.reverse id = none := by
        cases hg : mapGet m.reverse id with
        | none => rfl
        | some ex =>
            have hmem := hrev id (by simp [hg])
            have : id ∈ (rest.map Prod.snd) ∨ True := Or.inr trivial
            exfalso
            have hnd := hids
            rw [List.map_append, List.nodup_append] at hnd
            exact hnd.2.2 hmem (by simp)
      have hkeyfresh : key ∉ m.entries.map Prod.fst := by
        intro hmem
        have : key ∈ done.map Prod.fst := by
          have := (hperm.map Prod.fst).mem_iff.mp hmem
          exact this
        have hnd := hkeys
        rw [List.map_append, List.nodup_append] at hnd
        exact hnd.2.2 this (by simp)
      unfold buildIdMap IdMapCli.insert
      rw [hfresh]
      dsimp only
      have hperm2 : (strMapInsert m.entries key id).Perm (done ++ [(key, id)]) :=
        (strMapInsert_perm m.entries key id hkeyfresh).trans
          ((hperm.cons (key, id)).trans (List.perm_append_singleton _ _).symm)
      have hrev2 : ∀ i, mapGet (natMapInsert m.reverse id key) i ≠ none →
          i ∈ (done ++ [(key, id)]).map Prod.snd := by
        intro i hi
        rw [natMapInsert_get] at hi
        by_cases h : i = id
        · simp [h]
        · rw [if_neg h] at hi
          simp only [List.map_append, List.mem_append]
          exact Or.inl (hrev i hi)
      have happ : done ++ (key, id) :: rest = (done ++ [(key, id)]) ++ rest := by
        simp
      rcases ih (done ++ [(key, id)])
          ⟨strMapInsert m.entries key id, natMapInsert m.reverse id key⟩
          hperm2 (strMapInsert_sorted _ _ _ hsorted) hrev2
          (by rw [← happ]; exact hkeys) (by rw [← happ]; exact hids) with
        ⟨m2, hrun, hp2, hs2⟩
      exact ⟨m2, hrun, by rwa [← happ] at hp2, hs2⟩

/-- C7: IdMap::hash is the SHA-256 digest of the ascending-key length-
prefixed serialization of the entries, and it depends only on the set of
(key, id) pairs: building the id-map from any two insertion orders of the
same pairs (with distinct keys and ids) yields identical entries and
identical hashes, and the runtime id-map hash over the same entries agrees
with the build-time hash. -/
theorem idmap_hash_insertion_invariant (ins1 ins2 : List (String × Nat))
    (hperm : ins1.Perm ins2)
    (hkeys : (ins1.map Prod.fst).Nodup) (hids : (ins1.map Prod.snd).Nodup) :
    ∃ m1 m2, buildIdMap ins1 ⟨[], []⟩ = .ok m1 ∧ buildIdMap ins2 ⟨[], []⟩ = .ok m2 ∧
      m1.entries = m2.entries ∧
      IdMapCli.hash m1 = IdMapCli.hash m2 ∧
      idMapHashRuntime m1.entries =
        Except.mapError (fun _ => RuntimeError.invalidIdMap) (IdMapCli.hash m2) ∧
      IdMapCli.hash m1 =
        Except.map sha256 (Except.mapError IdMapError.keyTooLong
          (idMapSerialize m1.entries)) := by
  rcases buildIdMap_ok ins1 [] ⟨[], []⟩ (List.Perm.refl _) (by simp)
      (by intro i hi; simp [mapGet, List.find?] at hi) (by simpa using hkeys)
      (by simpa using hids) with ⟨m1, hrun1, hp1, hs1⟩
  rcases buildIdMap_ok ins2 [] ⟨[], []⟩ (List.Perm.refl _) (by simp)
      (by intro i hi; simp [mapGet, List.find?] at hi)
      (by simpa using (hperm.map Prod.fst).nodup_iff.mp hkeys)
      (by simpa using (hperm.map Prod.snd).nodup_iff.mp hids) with
    ⟨m2, hrun2, hp2, hs2⟩
  have hentries : m1.entries = m2.entries := by
    refine List.eq_of_perm_of_sorted ?_ hs1 hs2
    exact (hp1.trans hperm).trans hp2.symm
  refine ⟨m1, m2, hrun1, hrun2, hentries, ?_, ?_, ?_⟩
  · unfold IdMapCli.hash
    rw [hentries]
  · unfold IdMapCli.hash idMapHashRuntime
    rw [hentries]
    cases idMapSerialize m2.entries <;> rfl
  · unfold IdMapCli.hash
    cases idMapSerialize m1.entries <;> rfl

/-- Witness for C7 with two insertion orders of the same two pairs. -/
theorem idmap_hash_insertion_invariant_witness :
    ∃ m1 m2, buildIdMap [("b", 2), ("a", 1)] ⟨[], []⟩ = .ok m1 ∧
      buildIdMap [("a", 1), ("b", 2)] ⟨[], []⟩ = .ok m2 ∧
      m1.entries = m2.entries ∧
      IdMapCli.hash m1 = IdMapCli.hash m2 ∧
      idMapHashRuntime m1.entries =
        Except.mapError (fun _ => RuntimeError.invalidIdMap) (IdMapCli.hash m2) ∧
      IdMapCli.hash m1 =
        Except.map sha256 (Except.mapError IdMapError.keyTooLong
          (idMapSerialize m1.entries)) :=
  idmap_hash_insertion_invariant [("b", 2), ("a", 1)] [("a", 1), ("b", 2)]
    (List.Perm.swap _ _ _) (by decide) (by decide)

/-- Forward-control condition on the targets of one case table: every entry
jumps strictly past the given opcode position. -/
def tableForwardB (p : BytecodeProgram) (q tbl : Nat) : Bool :=
  match p.case_tables.get? tbl with
  | some table => table.entries.all fun entry => q < entry.target
  | none => true

/-- Forward-control condition on one opcode at position q: jumps move
strictly forward and select targets lie strictly past the select. -/
def opForwardB (p : BytecodeProgram) (q : Nat) : Opcode → Bool
  | .jump rel => decide (1 ≤ rel)
  | .select _ tbl => tableForwardB p q tbl
  | .selectPlural _ _ tbl => tableForwardB p q tbl
  | _ => true

/-- Forward-control programs: every control transfer strictly increases the
program counter.  Every compiler-produced program satisfies this (its jumps
are back-patched to the end of their select block and case targets point
into the block), but a decoded pack need not. -/
def ForwardControl (p : BytecodeProgram) : Prop :=
  ∀ e ∈ p.opcodes.enum, opForwardB p e.1 e.2 = true

instance (p : BytecodeProgram) : Decidable (ForwardControl p) :=
  List.decidableBAll _ _

/-- A successful string-case match returns the target of some table entry. -/
theorem match_case_go_target (prog : BytecodeProgram) (value : String)
    (entries : List CaseEntry) (other : Option Nat) (t : Nat)
    (h : match_case.go prog value entries other = .ok t) :
    (∃ e ∈ entries, e.target = t) ∨ other = some t := by
  induction entries generalizing other with
  | nil =>
      cases other with
      | none => exact absurd h (by simp [match_case.go])
      | some t2 =>
          simp only [match_case.go, Except.ok.injEq] at h
          exact Or.inr (by rw [h])
  | cons entry rest ih =>
      unfold match_case.go at h
      split at h
      · split at h
        · split at h
          · exact Or.inl ⟨entry, List.mem_cons_self _ _, Except.ok.inj h⟩
          · rcases ih _ h with ⟨e, he, ht⟩ | h2
            · exact Or.inl ⟨e, List.mem_cons_of_mem _ he, ht⟩
            · exact Or.inr h2
        · rcases ih _ h with ⟨e, he, ht⟩ | h2
          · exact Or.inl ⟨e, List.mem_cons_of_mem _ he, ht⟩
          · exact Or.inr h2
      · next heq =>
          rcases ih _ h with ⟨e, he, ht⟩ | h2
          · exact Or.inl ⟨e, List.mem_cons_of_mem _ he, ht⟩
          · exact Or.inl ⟨entry, List.mem_cons_self _ _, Option.some.inj h2⟩
      · rcases ih _ h with ⟨e, he, ht⟩ | h2
        · exact Or.inl ⟨e, List.mem_cons_of_mem _ he, ht⟩
        · exact Or.inr h2

/-- A successful table fetch pins down the case-table lookup. -/
theorem get_case_table_some (p : BytecodeProgram) (tbl : Nat) (table : CaseTable)
    (h : get_case_table p tbl = .ok table) :
    p.case_tables.get? tbl = some table := by
  unfold get_case_table at h
  split at h
  · next t0 hget => rw [hget, Except.ok.inj h]
  · exact Except.noConfusion h

/-- A successful Select resolution returns the target of an entry of the
referenced case table. -/
theorem select_case_target (p : BytecodeProgram) (args : Args) (aidx tbl t : Nat)
    (h : select_case p args aidx tbl = .ok t) :
    ∃ table, p.case_tables.get? tbl = some table ∧
      ∃ e ∈ table.entries, e.target = t := by
  unfold select_case at h
  split at h
  · exact absurd h (by simp)
  · split at h
    · exact absurd h (by simp)
    · split at h
      · split at h
        · exact absurd h (by simp)
        · next table hget =>
            refine ⟨table, get_case_table_some _ _ _ hget, ?_⟩
            unfold match_case at h
            rcases match_case_go_target _ _ _ _ _ h with ⟨e, he, ht⟩ | h2
            · exact ⟨e, he, ht⟩
            · exact absurd h2 (by simp)
      · exact absurd h (by simp)

/-- A successful category match returns the target of some table entry. -/
theorem match_plural_category_target (table : CaseTable) (c : PluralCategory)
    (t : Nat) (h : match_plural_category table c = some t) :
    ∃ e ∈ table.entries, e.target = t := by
  unfold match_plural_category at h
  rcases Option.map_eq_some'.mp h with ⟨e, hfind, ht⟩
  exact ⟨e, List.mem_of_find?_eq_some hfind, ht⟩

/-- A successful Other fall-through returns the target of some table
entry. -/
theorem match_other_target (table : CaseTable) (t : Nat)
    (h : match_other table = .ok t) : ∃ e ∈ table.entries, e.target = t := by
  unfold match_other at h
  split at h
  · next e hfind =>
      exact ⟨e, List.mem_of_find?_eq_some hfind, Except.ok.inj h⟩
  · exact absurd h (by simp)

/-- A successful SelectPlural resolution returns the target of an entry of
the referenced case table. -/
theorem select_plural_case_target (p : BytecodeProgram) (args : Args)
    (backend : FormatBackend) (aidx : Nat) (rs : PluralRuleset) (tbl t : Nat)
    (h : select_plural_case p args backend aidx rs tbl = .ok t) :
    ∃ table, p.case_tables.get? tbl = some table ∧
      ∃ e ∈ table.entries, e.target = t := by
  unfold select_plural_case at h
  cases rs
  dsimp only at h
  split at h
  · exact absurd h (by simp)
  · split at h
    · exact absurd h (by simp)
    · split at h
      · split at h
        · exact absurd h (by simp)
        · next table hget =>
            refine ⟨table, get_case_table_some _ _ _ hget, ?_⟩
            split at h
            · next hex =>
                rcases match_exact_number_sound _ _ _ hex with
                  ⟨_, e, he, n, _, _, ht⟩
                exact ⟨e, he, by rw [ht, Except.ok.inj h]⟩
            · split at h
              · exact absurd h (by simp)
              · split at h
                · next hcat =>
                    rcases match_plural_category_target _ _ _ hcat with ⟨e, he, ht⟩
                    exact ⟨e, he, by rw [ht, Except.ok.inj h]⟩
                · exact match_other_target _ _ h
      · exact absurd h (by simp)

/-- Under forward control, every non-terminal interpreter step strictly
increases the program counter. -/
theorem execStep_pc_lt (p : BytecodeProgram) (args : Args)
    (backend : FormatBackend) (s : ExecState) (op : Opcode) (s2 : ExecState)
    (hfc : ForwardControl p) (hop : p.opcodes.get? s.pc = some op)
    (hstep : execStep p args backend s op = .next s2) : s.pc < s2.pc := by
  have hmem : (s.pc, op) ∈ p.opcodes.enum := by
    have : p.opcodes.enum.get? s.pc = some (s.pc, op) := by
      rw [List.get?_eq_getElem?, List.getElem?_enum, ← List.get?_eq_getElem?, hop]
      rfl
    exact List.get?_mem this
  have hfwd := hfc (s.pc, op) hmem
  cases op with
  | emitText sidx =>
      simp only [execStep] at hstep
      split at hstep
      · cases hstep; simp
      · exact absurd hstep (by simp)
  | emitStack =>
      simp only [execStep] at hstep
      split at hstep
      · exact absurd hstep (by simp)
      · split at hstep
        · cases hstep; simp
        · exact absurd hstep (by simp)
  | pushStr sidx =>
      simp only [execStep] at hstep
      split at hstep
      · cases hstep; simp
      · exact absurd hstep (by simp)
  | pushNum nidx =>
      simp only [execStep] at hstep
      split at hstep
      · cases hstep; simp
      · exact absurd hstep (by simp)
  | pushArg aidx =>
      simp only [execStep] at hstep
      split at hstep
      · exact absurd hstep (by simp)
      · split at hstep
        · exact absurd hstep (by simp)
        · split at hstep
          · cases hstep; simp
          · exact absurd hstep (by simp)
  | dup =>
      simp only [execStep] at hstep
      split at hstep
      · exact absurd hstep (by simp)
      · split at hstep
        · cases hstep; simp
        · exact absurd hstep (by simp)
  | pop =>
      simp only [execStep] at hstep
      split at hstep
      · exact absurd hstep (by simp)
      · cases hstep; simp
  | callFmt fid opt_count =>
      simp only [execStep] at hstep
      split at hstep
      · exact absurd hstep (by simp)
      · split at hstep
        · exact absurd hstep (by simp)
        · split at hstep
          · cases hstep; simp
          · exact absurd hstep (by simp)
  | endOp => exact absurd hstep (by simp [execStep])
  | jump rel =>
      simp only [execStep] at hstep
      split at hstep
      · exact absurd hstep (by simp)
      · cases hstep
        simp only [opForwardB, decide_eq_true_eq] at hfwd
        simp only
        omega
  | select aidx tbl =>
      simp only [execStep] at hstep
      split at hstep
      · next t hsel =>
          cases hstep
          rcases select_case_target _ _ _ _ _ hsel with ⟨table, hget, e, he, ht⟩
          simp only [opForwardB, tableForwardB, hget] at hfwd
          have := List.all_eq_true.mp hfwd e he
          simpa [← ht] using this
      · exact absurd hstep (by simp)
  | selectPlural aidx rs tbl =>
      simp only [execStep] at hstep
      split at hstep
      · next t hsel =>
          cases hstep
          rcases select_plural_case_target _ _ _ _ _ _ _ hsel with
            ⟨table, hget, e, he, ht⟩
          simp only [opForwardB, tableForwardB, hget] at hfwd
          have := List.all_eq_true.mp hfwd e he
          simpa [← ht] using this
      · exact absurd hstep (by simp)

/-- Under forward control the interpreter loop finishes within
length-many iterations starting anywhere. -/
theorem execLoop_terminates (p : BytecodeProgram) (args : Args)
    (backend : FormatBackend) (hfc : ForwardControl p) :
    ∀ (n : Nat) (s : ExecState), p.opcodes.length ≤ s.pc + n →
      (execLoop p args backend (n + 1) s).isSome = true := by
  intro n
  induction n with
  | zero =>
      intro s hs
      unfold execLoop
      rw [show p.opcodes.get? s.pc = none from by rw [List.get?_eq_none]; omega]
      rfl
  | succ n ih =>
      intro s hs
      unfold execLoop
      cases hget : p.opcodes.get? s.pc with
      | none => rfl
      | some op =>
          dsimp only
          cases hstep : execStep p args backend s op with
          | done out => rfl
          | failed e => rfl
          | next s2 =>
              have hlt := execStep_pc_lt p args backend s op s2 hfc hget hstep
              exact ih s2 (by omega)

/-- Counterexample for C8: a pack holding the single opcode Jump 0 decodes
successfully, and executing the decoded program never terminates — for
every fuel bound the interpreter loop is still running; so execute does not
terminate on every program obtainable from PackCatalog::decode. -/
theorem execute_decoded_jump_counterexample :
    PackCatalog.decode
      (encode_pack ⟨.base, List.replicate 32 7, "en", none, 0,
        [(0, ⟨[.jump 0], [], [], [], []⟩)]⟩) (List.replicate 32 7) =
      .ok ⟨⟨0, .base, 0, List.replicate 32 7, 0, none, 0⟩,
        [(0, ⟨[.jump 0], ["en"], [], [], []⟩)]⟩ ∧
    PackCatalog.lookup
      ⟨⟨0, .base, 0, List.replicate 32 7, 0, none, 0⟩,
        [(0, ⟨[.jump 0], ["en"], [], [], []⟩)]⟩ 0 =
      some ⟨[.jump 0], ["en"], [], [], []⟩ ∧
    ∀ fuel, executeFuel ⟨[.jump 0], ["en"], [], [], []⟩ [] BasicFormatBackend
      fuel = none := by
  refine ⟨by decide, by decide, ?_⟩
  intro fuel
  induction fuel with
  | zero => rfl
  | succ n ih => exact ih


/-- Counterexample for C9: in a successfully loaded runtime with no packs,
a format call whose key is absent from the id-map returns MissingLocale,
not MissingMessage — the catalog chain is consulted before the id-map. -/
theorem format_missing_locale_counterexample :
    strGet ([] : List (String × Nat)) "missing" = none ∧
    format_with_backend
      ⟨[], [], [], ⟨"en", "en", ["en"]⟩, [⟨"en", "en", ["en"]⟩]⟩
      "en" "missing" [] BasicFormatBackend 4 4 =
      some (.error (.missingLocale "en")) := by
  constructor
  · rfl
  · decide

/-- C9 as amended: when the locale parses and the parent-chain walk of the
negotiated locale finishes, an empty catalog chain yields MissingLocale
regardless of the key; a key absent from the id-map yields MissingMessage
only once the chain is non-empty; and MissingLocale is returned exactly
when the chain is empty. -/
theorem format_chain_before_key_lookup (rt : Runtime) (locale key : String)
    (args : Args) (backend : FormatBackend) (chainFuel execFuel : Nat)
    (locale_tag : LanguageTag)
    (hparse : LanguageTag.parse locale = .ok locale_tag)
    (cats : List PackCatalog)
    (hchain : catalogChainGo rt chainFuel
      (some (negotiate_lookup [locale_tag] rt.supported
        rt.default_locale).selected.normalized) [] = some cats) :
    (cats = [] →
      format_with_backend rt locale key args backend chainFuel execFuel =
        some (.error (.missingLocale
          (negotiate_lookup [locale_tag] rt.supported
            rt.default_locale).selected.normalized))) ∧
    (cats ≠ [] → strGet rt.id_map key = none →
      format_with_backend rt locale key args backend chainFuel execFuel =
        some (.error (.missingMessage key))) ∧
    (∀ l r, format_with_backend rt locale key args backend chainFuel execFuel =
        some r → r = .error (.missingLocale l) → cats = []) := by
  have heq : format_with_backend rt locale key args backend chainFuel execFuel =
      (if cats.isEmpty then
          some (.error (.missingLocale
            (negotiate_lookup [locale_tag] rt.supported
              rt.default_locale).selected.normalized))
        else
          match strGet rt.id_map key with
          | none => some (.error (.missingMessage key))
          | some message_id =>
            match chainLookup cats message_id with
            | none => some (.error (.missingMessage key))
            | some program =>
              match executeFuel program args backend execFuel with
              | none => none
              | some (.ok output) => some (.ok output)
              | some (.error e) =>
                  some (.error (.core (renderCoreError e)))) := by
    unfold format_with_backend
    rw [hparse]
    dsimp only
    unfold catalog_chain_for
    rw [hchain]
    by_cases hemp : cats.isEmpty
    · rw [if_pos hemp]
      dsimp only [Option.map]
      rw [if_pos hemp]
    · rw [if_neg hemp]
      dsimp only [Option.map]
      rw [if_neg hemp]
  refine ⟨?_, ?_, ?_⟩
  · intro hcats
    rw [heq, if_pos (by simp [hcats])]
  · intro hcats hkey
    rw [heq, if_neg (by simpa using hcats), hkey]
  · intro l r hr hmiss
    subst hmiss
    by_contra hne
    rw [heq, if_neg (by simpa using hne)] at hr
    cases hk : strGet rt.id_map key with
    | none => rw [hk] at hr; simp at hr
    | some message_id =>
        rw [hk] at hr
        dsimp only at hr
        cases hc : chainLookup cats message_id with
        | none => rw [hc] at hr; simp at hr
        | some program =>
            rw [hc] at hr
            dsimp only at hr
            cases hx : executeFuel program args backend execFuel with
            | none => rw [hx] at hr; simp at hr
            | some r2 =>
                rw [hx] at hr
                cases r2 with
                | ok output => simp at hr
                | error e => simp at hr

/-- Witness for C9 amended: the empty runtime, where the chain is empty and
the first conjunct yields MissingLocale. -/
theorem format_chain_before_key_lookup_witness :
    (([] : List PackCatalog) = [] →
      format_with_backend
        ⟨[], [], [], ⟨"en", "en", ["en"]⟩, [⟨"en", "en", ["en"]⟩]⟩
        "en" "absent" [] BasicFormatBackend 3 3 =
        some (.error (.missingLocale
          (negotiate_lookup [⟨"en", "en", ["en"]⟩] [⟨"en", "en", ["en"]⟩]
            ⟨"en", "en", ["en"]⟩).selected.normalized))) ∧
    (([] : List PackCatalog) ≠ [] →
      strGet ([] : List (String × Nat)) "absent" = none →
      format_with_backend
        ⟨[], [], [], ⟨"en", "en", ["en"]⟩, [⟨"en", "en", ["en"]⟩]⟩
        "en" "absent" [] BasicFormatBackend 3 3 =
        some (.error (.missingMessage "absent"))) ∧
    (∀ l r, format_with_backend
        ⟨[], [], [], ⟨"en", "en", ["en"]⟩, [⟨"en", "en", ["en"]⟩]⟩
        "en" "absent" [] BasicFormatBackend 3 3 = some r →
      r = .error (.missingLocale l) → ([] : List PackCatalog) = []) :=
  format_chain_before_key_lookup
    ⟨[], [], [], ⟨"en", "en", ["en"]⟩, [⟨"en", "en", ["en"]⟩]⟩
    "en" "absent" [] BasicFormatBackend 3 3 ⟨"en", "en", ["en"]⟩
    (by decide) [] (by decide)

/-! C4: compiler output shape — one final End, jumps in bounds. -/

/-- Every jump in the opcode list lands in the inclusive range [0, length]:
the invariant that holds of the program body during compilation, before the
final End is appended. -/
def JumpBound (ops : List Opcode) : Prop :=
  ∀ q rel, ops.get? q = some (.jump rel) →
    0 ≤ (q : Int) + rel ∧ (q : Int) + rel ≤ (ops.length : Int)

/-- Compiler-body invariant: no End emitted yet, and every jump in bounds. -/
def OpsInv (ops : List Opcode) : Prop :=
  Opcode.endOp ∉ ops ∧ JumpBound ops

theorem opsInv_nil : OpsInv [] :=
  ⟨List.not_mem_nil _, fun q rel h => by simp at h⟩

theorem opsInv_push (ops : List Opcode) (op : Opcode)
    (hne : op ≠ Opcode.endOp)
    (hop : op = Opcode.jump 0 ∨ ∀ rel, op ≠ Opcode.jump rel)
    (h : OpsInv ops) : OpsInv (ops ++ [op]) := by
  obtain ⟨hmem, hjb⟩ := h
  refine ⟨?_, ?_⟩
  · intro hin
    rcases List.mem_append.mp hin with hin | hin
    · exact hmem hin
    · exact hne (List.mem_singleton.mp hin).symm
  · intro q rel hq
    rw [List.length_append]
    rcases Nat.lt_trichotomy q ops.length with hlt | heq | hgt
    · rw [List.get?_append hlt] at hq
      have hb := hjb q rel hq
      push_cast
      push_cast at hb
      omega
    · subst heq
      rw [List.get?_concat_length] at hq
      have hopj : op = Opcode.jump rel := Option.some.inj hq
      rcases hop with h0 | hnj
      · rw [h0] at hopj
        have hrel : (0 : Int) = rel := Opcode.jump.inj hopj
        push_cast
        omega
      · exact absurd hopj (hnj rel)
    · rw [List.get?_eq_none.mpr (by simp only [List.length_append]; simp; omega)] at hq
      exact Option.noConfusion hq

theorem opsInv_set (ops : List Opcode) (i : Nat) (op : Opcode)
    (hne : op ≠ Opcode.endOp)
    (hop : ∀ rel, op = Opcode.jump rel →
      0 ≤ (i : Int) + rel ∧ (i : Int) + rel ≤ (ops.length : Int))
    (h : OpsInv ops) : OpsInv (ops.set i op) := by
  obtain ⟨hmem, hjb⟩ := h
  refine ⟨?_, ?_⟩
  · intro hin
    rcases List.mem_or_eq_of_mem_set hin with hin | heq
    · exact hmem hin
    · exact hne heq.symm
  · intro q rel hq
    rw [List.length_set]
    by_cases hqi : q = i
    · subst hqi
      rw [List.get?_set_eq] at hq
      cases hg : ops.get? q with
      | none => rw [hg] at hq; exact Option.noConfusion hq
      | some old =>
          rw [hg] at hq
          have hopj : op = Opcode.jump rel := Option.some.inj hq
          exact hop rel hopj
    · rw [List.get?_set_ne _ _ fun hh => hqi hh.symm] at hq
      exact hjb q rel hq

theorem opsInv_patchStep (endPos jp : Nat) (ops : List Opcode)
    (hlen : endPos ≤ ops.length) (h : OpsInv ops) :
    OpsInv (match ops.get? jp with
      | some (Opcode.jump _) =>
          ops.set jp (Opcode.jump ((endPos : Int) - (jp : Int)))
      | _ => ops) ∧
    (match ops.get? jp with
      | some (Opcode.jump _) =>
          ops.set jp (Opcode.jump ((endPos : Int) - (jp : Int)))
      | _ => ops).length = ops.length := by
  rcases hget : ops.get? jp with _ | op
  · exact ⟨h, rfl⟩
  · cases op with
    | jump rel =>
        dsimp only
        have hjp : jp < ops.length := by
          by_contra hge
          rw [List.get?_eq_none.mpr (by omega)] at hget
          exact Option.noConfusion hget
        refine ⟨opsInv_set ops jp _ (fun hc => Opcode.noConfusion hc) ?_ h,
          List.length_set _ _ _⟩
        intro r hr
        have hr2 : (endPos : Int) - (jp : Int) = r := Opcode.jump.inj hr
        omega
    | emitText s => exact ⟨h, rfl⟩
    | emitStack => exact ⟨h, rfl⟩
    | pushStr s => exact ⟨h, rfl⟩
    | pushNum n => exact ⟨h, rfl⟩
    | pushArg a => exact ⟨h, rfl⟩
    | dup => exact ⟨h, rfl⟩
    | pop => exact ⟨h, rfl⟩
    | callFmt f o => exact ⟨h, rfl⟩
    | select a t => exact ⟨h, rfl⟩
    | selectPlural a r t => exact ⟨h, rfl⟩
    | endOp => exact ⟨h, rfl⟩

theorem opsInv_patch (endPos : Nat) (jumps : List Nat) :
    ∀ ops : List Opcode, endPos ≤ ops.length → OpsInv ops →
    OpsInv (jumps.foldl (fun l jump_pos =>
        match l.get? jump_pos with
        | some (Opcode.jump _) =>
            l.set jump_pos (Opcode.jump ((endPos : Int) - (jump_pos : Int)))
        | _ => l) ops) ∧
    (jumps.foldl (fun l jump_pos =>
        match l.get? jump_pos with
        | some (Opcode.jump _) =>
            l.set jump_pos (Opcode.jump ((endPos : Int) - (jump_pos : Int)))
        | _ => l) ops).length = ops.length := by
  induction jumps with
  | nil => exact fun ops hlen h => ⟨h, rfl⟩
  | cons jp rest ih =>
      intro ops hlen h
      rw [List.foldl_cons]
      have hstep := opsInv_patchStep endPos jp ops hlen h
      have hrec := ih _ (hlen.trans_eq hstep.2.symm) hstep.1
      exact ⟨hrec.1, hrec.2.trans hstep.2⟩

theorem opsInv_ifset (patched : List Opcode) (select_pos : Nat) (op : Opcode)
    (hne : op ≠ Opcode.endOp) (hnj : ∀ rel, op ≠ Opcode.jump rel)
    (h : OpsInv patched) :
    OpsInv (if select_pos < patched.length then
      patched.set select_pos op else patched) := by
  by_cases hsel : select_pos < patched.length
  · rw [if_pos hsel]
    exact opsInv_set _ _ _ hne (fun rel hr => absurd hr (hnj rel)) h
  · rw [if_neg hsel]
    exact h

theorem opsInv_pushOp (st : CompilerState) (op : Opcode)
    (hne : op ≠ Opcode.endOp)
    (hop : op = Opcode.jump 0 ∨ ∀ rel, op ≠ Opcode.jump rel)
    (h : OpsInv st.program.opcodes) : OpsInv (pushOp st op).program.opcodes :=
  opsInv_push _ _ hne hop h

theorem arg_index_opcodes (st : CompilerState) (name : String) :
    (arg_index st name).1.program.opcodes = st.program.opcodes := by
  unfold arg_index
  cases (st.arg_indices.find? fun p => p.1 = name).map (·.2) <;> rfl

theorem compile_case_key_opcodes (p : BytecodeProgram) (key : AstCaseKey)
    (d : Bool) : ((compile_case_key p key d).1).opcodes = p.opcodes := by
  unfold compile_case_key
  by_cases hd : d
  · rw [if_pos hd]
  · rw [if_neg hd]
    cases key <;> rfl

theorem compile_var_inv (st : CompilerState) (name : String)
    (formatter : Option String) (h : OpsInv st.program.opcodes) :
    OpsInv (compile_var st name formatter).program.opcodes := by
  unfold compile_var
  rcases ha : arg_index st name with ⟨st1, aidx⟩
  dsimp only
  have h1 : OpsInv st1.program.opcodes := by
    have heq := arg_index_opcodes st name
    rw [ha] at heq
    rw [show st1.program.opcodes = st.program.opcodes from heq]
    exact h
  have h2 := opsInv_pushOp st1 (.pushArg aidx) (fun hc => Opcode.noConfusion hc)
    (Or.inr fun rel hc => Opcode.noConfusion hc) h1
  cases formatter with
  | none =>
      dsimp only
      exact opsInv_pushOp _ Opcode.emitStack (fun hc => Opcode.noConfusion hc)
        (Or.inr fun rel hc => Opcode.noConfusion hc) h2
  | some f =>
      dsimp only
      exact opsInv_pushOp _ Opcode.emitStack (fun hc => Opcode.noConfusion hc)
        (Or.inr fun rel hc => Opcode.noConfusion hc)
        (opsInv_pushOp _ (Opcode.callFmt (formatter_id f) 0)
          (fun hc => Opcode.noConfusion hc)
          (Or.inr fun rel hc => Opcode.noConfusion hc) h2)

mutual

theorem compileSegments_inv (st : CompilerState) (segs : List Segment)
    (h : OpsInv st.program.opcodes) :
    OpsInv (compileSegments st segs).program.opcodes := by
  cases segs with
  | nil => simp only [compileSegments]; exact h
  | cons seg rest =>
      simp only [compileSegments]
      exact compileSegments_inv _ rest (compileSegment_inv st seg h)

theorem compileSegment_inv (st : CompilerState) (seg : Segment)
    (h : OpsInv st.program.opcodes) :
    OpsInv (compileSegment st seg).program.opcodes := by
  cases seg with
  | text value sp =>
      simp only [compileSegment]
      rcases hsp : StringPool.push st.program.string_pool value with ⟨pool, sidx⟩
      dsimp only
      exact opsInv_pushOp _ (Opcode.emitText sidx) (fun hc => Opcode.noConfusion hc)
        (Or.inr fun rel hc => Opcode.noConfusion hc) h
  | «variable» name formatter sp =>
      simp only [compileSegment]
      exact compile_var_inv st name formatter h
  | selectExpr selector cs kind sp =>
      simp only [compileSegment]
      exact compileSelect_inv st selector cs kind h

theorem compileCases_inv (st : CompilerState)
    (cs : List (AstCaseKey × List Segment × Bool × Span))
    (h : OpsInv st.program.opcodes) :
    OpsInv (compileCases st cs).1.program.opcodes := by
  cases cs with
  | nil => simp only [compileCases]; exact h
  | cons c rest =>
      obtain ⟨key, value, is_default, sp⟩ := c
      simp only [compileCases]
      rcases hck : compile_case_key st.program key is_default with ⟨program1, ckey⟩
      dsimp only
      have h1 : OpsInv (⟨program1, st.arg_indices⟩ : CompilerState).program.opcodes := by
        have heq := compile_case_key_opcodes st.program key is_default
        rw [hck] at heq
        rw [show (⟨program1, st.arg_indices⟩ : CompilerState).program.opcodes =
          st.program.opcodes from heq]
        exact h
      have h2 := compileSegments_inv ⟨program1, st.arg_indices⟩ value h1
      have h3 := opsInv_pushOp (compileSegments ⟨program1, st.arg_indices⟩ value)
        (Opcode.jump 0) (fun hc => Opcode.noConfusion hc) (Or.inl rfl) h2
      rcases hcc : compileCases (pushOp (compileSegments ⟨program1, st.arg_indices⟩ value)
          (Opcode.jump 0)) rest with ⟨st4, entries, jumps⟩
      dsimp only
      have h4 := compileCases_inv (pushOp (compileSegments ⟨program1, st.arg_indices⟩ value)
        (Opcode.jump 0)) rest h3
      rw [hcc] at h4
      exact h4

theorem compileSelect_inv (st : CompilerState) (selector : String)
    (cs : List (AstCaseKey × List Segment × Bool × Span)) (kind : SelectKind)
    (h : OpsInv st.program.opcodes) :
    OpsInv (compileSelect st selector cs kind).program.opcodes := by
  simp only [compileSelect]
  rcases ha : arg_index st selector with ⟨st1, aidx⟩
  dsimp only
  have h1 : OpsInv st1.program.opcodes := by
    have heq := arg_index_opcodes st selector
    rw [ha] at heq
    rw [show st1.program.opcodes = st.program.opcodes from heq]
    exact h
  set opc : Opcode := (match kind with
    | SelectKind.plural =>
        Opcode.selectPlural aidx PluralRuleset.cardinal st1.program.case_tables.length
    | SelectKind.select => Opcode.select aidx st1.program.case_tables.length) with hopc
  have hne : opc ≠ Opcode.endOp := by
    rw [hopc]
    cases kind <;> exact fun hc => Opcode.noConfusion hc
  have hnj : ∀ rel, opc ≠ Opcode.jump rel := by
    intro rel
    rw [hopc]
    cases kind <;> exact fun hc => Opcode.noConfusion hc
  have h2 := opsInv_pushOp st1 opc hne (Or.inr hnj) h1
  rcases hcc : compileCases (pushOp st1 opc) cs with ⟨st3, entries, jumps⟩
  dsimp only
  have h3 := compileCases_inv (pushOp st1 opc) cs h2
  rw [hcc] at h3
  exact opsInv_ifset _ _ _ hne hnj
    (opsInv_patch st3.program.opcodes.length jumps st3.program.opcodes (le_refl _) h3).1

end

/-- C4: for every parsed Message, compile_message emits exactly one End
opcode, that End is the final opcode, and every Jump at position Q with
offset rel has Q + rel a valid opcode index of the program. -/
theorem compile_message_end_and_jumps (segments : List Segment) :
    (compile_message segments).opcodes.count Opcode.endOp = 1 ∧
    (compile_message segments).opcodes.getLast? = some Opcode.endOp ∧
    ∀ q rel, (compile_message segments).opcodes.get? q = some (Opcode.jump rel) →
      0 ≤ (q : Int) + rel ∧
      (q : Int) + rel < ((compile_message segments).opcodes.length : Int) := by
  have hinv := compileSegments_inv ⟨⟨[], [], [], [], []⟩, []⟩ segments opsInv_nil
  obtain ⟨hmem, hjb⟩ := hinv
  have hops : (compile_message segments).opcodes =
      (compileSegments ⟨⟨[], [], [], [], []⟩, []⟩ segments).program.opcodes ++
        [Opcode.endOp] := rfl
  refine ⟨?_, ?_, ?_⟩
  · rw [hops, List.count_append, List.count_eq_zero.mpr hmem]
    simp
  · rw [hops]
    exact List.getLast?_concat _
  · intro q rel hq
    rw [hops] at hq ⊢
    rw [List.length_append, List.length_singleton]
    rcases Nat.lt_trichotomy q
      (compileSegments ⟨⟨[], [], [], [], []⟩, []⟩ segments).program.opcodes.length
      with hlt | heq | hgt
    · rw [List.get?_append hlt] at hq
      have hb := hjb q rel hq
      push_cast
      push_cast at hb
      omega
    · subst heq
      rw [List.get?_concat_length] at hq
      exact absurd (Option.some.inj hq) (fun hc => Opcode.noConfusion hc)
    · rw [List.get?_eq_none.mpr (by simp; omega)] at hq
      exact Option.noConfusion hq

/-- Witness for C4 at a concrete message with text, a plural select with a
default case, and a formatted variable. -/
theorem compile_message_end_and_jumps_witness :
    (compile_message [Segment.text "Hi " ⟨1, 1⟩,
        Segment.selectExpr "count"
          [(AstCaseKey.exact 1, [Segment.text "one" ⟨1, 5⟩], false, ⟨1, 4⟩),
           (AstCaseKey.other, [Segment.variable "count" (some "number") ⟨1, 9⟩],
             true, ⟨1, 8⟩)]
          SelectKind.plural ⟨1, 3⟩]).opcodes.count Opcode.endOp = 1 ∧
    (compile_message [Segment.text "Hi " ⟨1, 1⟩,
        Segment.selectExpr "count"
          [(AstCaseKey.exact 1, [Segment.text "one" ⟨1, 5⟩], false, ⟨1, 4⟩),
           (AstCaseKey.other, [Segment.variable "count" (some "number") ⟨1, 9⟩],
             true, ⟨1, 8⟩)]
          SelectKind.plural ⟨1, 3⟩]).opcodes.getLast? = some Opcode.endOp ∧
    ∀ q rel, (compile_message [Segment.text "Hi " ⟨1, 1⟩,
        Segment.selectExpr "count"
          [(AstCaseKey.exact 1, [Segment.text "one" ⟨1, 5⟩], false, ⟨1, 4⟩),
           (AstCaseKey.other, [Segment.variable "count" (some "number") ⟨1, 9⟩],
             true, ⟨1, 8⟩)]
          SelectKind.plural ⟨1, 3⟩]).opcodes.get? q = some (Opcode.jump rel) →
      0 ≤ (q : Int) + rel ∧
      (q : Int) + rel < ((compile_message [Segment.text "Hi " ⟨1, 1⟩,
        Segment.selectExpr "count"
          [(AstCaseKey.exact 1, [Segment.text "one" ⟨1, 5⟩], false, ⟨1, 4⟩),
           (AstCaseKey.other, [Segment.variable "count" (some "number") ⟨1, 9⟩],
             true, ⟨1, 8⟩)]
          SelectKind.plural ⟨1, 3⟩]).opcodes.length : Int) :=
  compile_message_end_and_jumps [Segment.text "Hi " ⟨1, 1⟩,
    Segment.selectExpr "count"
      [(AstCaseKey.exact 1, [Segment.text "one" ⟨1, 5⟩], false, ⟨1, 4⟩),
       (AstCaseKey.other, [Segment.variable "count" (some "number") ⟨1, 9⟩],
         true, ⟨1, 8⟩)]
      SelectKind.plural ⟨1, 3⟩]

/-! Forward control of compiled programs.  The compiler only pushes Jump 0
placeholders that its own compile_select back-patches to the block end, and
every select opcode's table operand resolves to a table whose entry targets
are case starts recorded after the select was pushed.  The development below
tracks both facts compositionally over the mutual compiler functions. -/

/-- The case-table operand of an opcode, if it has one. -/
def opTable : Opcode → Option Nat
  | .select _ tbl => some tbl
  | .selectPlural _ _ tbl => some tbl
  | _ => none

theorem get?_lt_length {α : Type} {l : List α} {q : Nat} {v : α}
    (h : l.get? q = some v) : q < l.length := by
  by_contra hge
  rw [List.get?_eq_none.mpr (by omega)] at h
  exact Option.noConfusion h

/-- Forward-control transformer specification between two compiler states:
the opcode list and table list are extended, every table appended has its
entry targets at or past the old opcode end, every jump in the new region is
strictly forward, and every select in the new region references an in-range
table whose entry targets lie strictly past it. -/
structure TSpec (a b : CompilerState) : Prop where
  hops : ∃ d, b.program.opcodes = a.program.opcodes ++ d
  htabs : ∃ d, b.program.case_tables = a.program.case_tables ++ d
  hnewt : ∀ i t, b.program.case_tables.get? i = some t →
    a.program.case_tables.length ≤ i →
    ∀ e ∈ t.entries, a.program.opcodes.length ≤ e.target
  hjf : ∀ q rel, b.program.opcodes.get? q = some (Opcode.jump rel) →
    a.program.opcodes.length ≤ q → 1 ≤ rel
  hsf : ∀ q op, b.program.opcodes.get? q = some op →
    a.program.opcodes.length ≤ q → ∀ tbl, opTable op = some tbl →
    tbl < b.program.case_tables.length ∧
    ∀ tb, b.program.case_tables.get? tbl = some tb →
    ∀ e ∈ tb.entries, q < e.target

theorem tspec_ops_le {a b : CompilerState} (h : TSpec a b) :
    a.program.opcodes.length ≤ b.program.opcodes.length := by
  rcases h.hops with ⟨d, e⟩
  rw [e, List.length_append]
  omega

theorem tspec_tabs_le {a b : CompilerState} (h : TSpec a b) :
    a.program.case_tables.length ≤ b.program.case_tables.length := by
  rcases h.htabs with ⟨d, e⟩
  rw [e, List.length_append]
  omega

theorem tspec_of_eq (a b : CompilerState)
    (ho : b.program.opcodes = a.program.opcodes)
    (ht : b.program.case_tables = a.program.case_tables) : TSpec a b := by
  refine ⟨⟨[], by rw [ho, List.append_nil]⟩, ⟨[], by rw [ht, List.append_nil]⟩,
    ?_, ?_, ?_⟩
  · intro i t hget hi
    rw [ht] at hget
    have := get?_lt_length hget
    omega
  · intro q rel hget hq
    rw [ho] at hget
    have := get?_lt_length hget
    omega
  · intro q op hget hq tbl htbl
    rw [ho] at hget
    have := get?_lt_length hget
    omega

theorem tspec_trans {a b c : CompilerState} (h1 : TSpec a b) (h2 : TSpec b c) :
    TSpec a c := by
  rcases h1.hops with ⟨d1, e1⟩
  rcases h2.hops with ⟨d2, e2⟩
  rcases h1.htabs with ⟨t1, f1⟩
  rcases h2.htabs with ⟨t2, f2⟩
  refine ⟨⟨d1 ++ d2, by rw [e2, e1, List.append_assoc]⟩,
    ⟨t1 ++ t2, by rw [f2, f1, List.append_assoc]⟩, ?_, ?_, ?_⟩
  · intro i t hget hi
    by_cases hib : i < b.program.case_tables.length
    · rw [f2, List.get?_append hib] at hget
      exact h1.hnewt i t hget hi
    · intro e he
      have := h2.hnewt i t hget (by omega) e he
      have hle := tspec_ops_le h1
      omega
  · intro q rel hget hq
    by_cases hqb : q < b.program.opcodes.length
    · rw [e2, List.get?_append hqb] at hget
      exact h1.hjf q rel hget hq
    · exact h2.hjf q rel hget (by omega)
  · intro q op hget hq tbl htbl
    by_cases hqb : q < b.program.opcodes.length
    · rw [e2, List.get?_append hqb] at hget
      obtain ⟨hlt, htgt⟩ := h1.hsf q op hget hq tbl htbl
      refine ⟨by have := tspec_tabs_le h2; omega, ?_⟩
      intro tb htb
      rw [f2, List.get?_append hlt] at htb
      exact htgt tb htb
    · exact h2.hsf q op hget (by omega) tbl htbl

theorem tspec_push (st : CompilerState) (op : Opcode)
    (hj : ∀ rel, op ≠ Opcode.jump rel) (ht : opTable op = none) :
    TSpec st (pushOp st op) := by
  refine ⟨⟨[op], rfl⟩, ⟨[], (List.append_nil _).symm⟩, ?_, ?_, ?_⟩
  · intro i t hget hi
    have hlt := get?_lt_length hget
    have hteq : (pushOp st op).program.case_tables.length =
        st.program.case_tables.length := rfl
    omega
  · intro q rel hget hq
    have hlt := get?_lt_length hget
    have hql : q = st.program.opcodes.length := by
      have : (pushOp st op).program.opcodes.length =
          st.program.opcodes.length + 1 := by
        show (st.program.opcodes ++ [op]).length = _
        simp
      omega
    subst hql
    rw [show (pushOp st op).program.opcodes = st.program.opcodes ++ [op]
      from rfl, List.get?_concat_length] at hget
    exact absurd (Option.some.inj hget) (hj rel)
  · intro q op2 hget hq tbl htbl
    have hlt := get?_lt_length hget
    have hql : q = st.program.opcodes.length := by
      have : (pushOp st op).program.opcodes.length =
          st.program.opcodes.length + 1 := by
        show (st.program.opcodes ++ [op]).length = _
        simp
      omega
    subst hql
    rw [show (pushOp st op).program.opcodes = st.program.opcodes ++ [op]
      from rfl, List.get?_concat_length] at hget
    rw [show op2 = op from (Option.some.inj hget).symm] at htbl
    rw [ht] at htbl
    exact Option.noConfusion htbl

/-- Case-table list of the state after arg_index. -/
theorem arg_index_tables (st : CompilerState) (name : String) :
    (arg_index st name).1.program.case_tables = st.program.case_tables := by
  unfold arg_index
  cases (st.arg_indices.find? fun p => p.1 = name).map (·.2) <;> rfl

/-- Case-table list after compile_case_key. -/
theorem compile_case_key_tables (p : BytecodeProgram) (key : AstCaseKey)
    (d : Bool) : ((compile_case_key p key d).1).case_tables = p.case_tables := by
  unfold compile_case_key
  by_cases hd : d
  · rw [if_pos hd]
  · rw [if_neg hd]
    cases key <;> rfl

theorem compile_var_fc (st : CompilerState) (name : String)
    (formatter : Option String) : TSpec st (compile_var st name formatter) := by
  unfold compile_var
  rcases ha : arg_index st name with ⟨st1, aidx⟩
  dsimp only
  have h1 : TSpec st st1 := by
    refine tspec_of_eq st st1 ?_ ?_
    · have := arg_index_opcodes st name
      rw [ha] at this
      exact this
    · have := arg_index_tables st name
      rw [ha] at this
      exact this
  have h2 : TSpec st (pushOp st1 (Opcode.pushArg aidx)) :=
    tspec_trans h1 (tspec_push st1 _ (fun rel hc => Opcode.noConfusion hc) rfl)
  cases formatter with
  | none =>
      dsimp only
      exact tspec_trans h2
        (tspec_push _ Opcode.emitStack (fun rel hc => Opcode.noConfusion hc) rfl)
  | some f =>
      dsimp only
      exact tspec_trans (tspec_trans h2
        (tspec_push _ (Opcode.callFmt (formatter_id f) 0)
          (fun rel hc => Opcode.noConfusion hc) rfl))
        (tspec_push _ Opcode.emitStack (fun rel hc => Opcode.noConfusion hc) rfl)

/-- The back-patch fold of compile_select. -/
def patchJumps (endPos : Nat) (jumps : List Nat) (ops : List Opcode) :
    List Opcode :=
  jumps.foldl (fun l jump_pos =>
    match l.get? jump_pos with
    | some (Opcode.jump _) =>
        l.set jump_pos (Opcode.jump ((endPos : Int) - (jump_pos : Int)))
    | _ => l) ops

theorem patchJumps_cons (endPos j : Nat) (rest : List Nat) (ops : List Opcode) :
    patchJumps endPos (j :: rest) ops = patchJumps endPos rest
      (match ops.get? j with
        | some (Opcode.jump _) =>
            ops.set j (Opcode.jump ((endPos : Int) - (j : Int)))
        | _ => ops) := rfl

theorem patchStep_get (endPos jp : Nat) (ops : List Opcode) :
    (match ops.get? jp with
      | some (Opcode.jump _) =>
          ops.set jp (Opcode.jump ((endPos : Int) - (jp : Int)))
      | _ => ops) = ops ∨
    ∃ r, ops.get? jp = some (Opcode.jump r) ∧
      (match ops.get? jp with
        | some (Opcode.jump _) =>
            ops.set jp (Opcode.jump ((endPos : Int) - (jp : Int)))
        | _ => ops) = ops.set jp (Opcode.jump ((endPos : Int) - (jp : Int))) := by
  rcases hget : ops.get? jp with _ | op
  · exact Or.inl rfl
  · cases op
    case jump rel => exact Or.inr ⟨rel, rfl, rfl⟩
    all_goals exact Or.inl rfl

theorem patchJumps_length (endPos : Nat) :
    ∀ (jumps : List Nat) (ops : List Opcode),
      (patchJumps endPos jumps ops).length = ops.length := by
  intro jumps
  induction jumps with
  | nil => intro ops; rfl
  | cons j rest ih =>
      intro ops
      rw [patchJumps_cons, ih]
      rcases patchStep_get endPos j ops with heq | ⟨r, hg, heq⟩ <;>
        rw [heq] <;> simp [List.length_set]

theorem patchJumps_get_notmem (endPos : Nat) :
    ∀ (jumps : List Nat) (ops : List Opcode) (q : Nat), q ∉ jumps →
      (patchJumps endPos jumps ops).get? q = ops.get? q := by
  intro jumps
  induction jumps with
  | nil => intro ops q _; rfl
  | cons j rest ih =>
      intro ops q hq
      have hqj : q ≠ j := fun hc => hq (hc ▸ List.mem_cons_self j rest)
      have hqr : q ∉ rest := fun hc => hq (List.mem_cons_of_mem j hc)
      rw [patchJumps_cons, ih _ q hqr]
      rcases patchStep_get endPos j ops with heq | ⟨r, hg, heq⟩
      · rw [heq]
      · rw [heq]
        exact List.get?_set_ne _ _ (fun hc => hqj hc.symm)

theorem patchJumps_get_mem (endPos : Nat) :
    ∀ (jumps : List Nat) (ops : List Opcode) (q : Nat), q ∈ jumps →
      ∀ r, ops.get? q = some (Opcode.jump r) →
      (patchJumps endPos jumps ops).get? q =
        some (Opcode.jump ((endPos : Int) - (q : Int))) := by
  intro jumps
  induction jumps with
  | nil => intro ops q hq; exact absurd hq (List.not_mem_nil q)
  | cons j rest ih =>
      intro ops q hq r hr
      rw [patchJumps_cons]
      by_cases hqj : q = j
      · subst hqj
        have hstep : (match ops.get? q with
            | some (Opcode.jump _) =>
                ops.set q (Opcode.jump ((endPos : Int) - (q : Int)))
            | _ => ops) = ops.set q (Opcode.jump ((endPos : Int) - (q : Int))) := by
          rw [hr]
        rw [hstep]
        have hset : (ops.set q (Opcode.jump ((endPos : Int) - (q : Int)))).get? q =
            some (Opcode.jump ((endPos : Int) - (q : Int))) := by
          rw [List.get?_set_eq, hr]
          rfl
        by_cases hqr : q ∈ rest
        · exact ih _ q hqr _ hset
        · rw [patchJumps_get_notmem endPos rest _ q hqr]
          exact hset
      · have hqr : q ∈ rest := by
          rcases List.mem_cons.mp hq with hc | hc
          · exact absurd hc hqj
          · exact hc
        have hkeep : (match ops.get? j with
            | some (Opcode.jump _) =>
                ops.set j (Opcode.jump ((endPos : Int) - (j : Int)))
            | _ => ops).get? q = some (Opcode.jump r) := by
          rcases patchStep_get endPos j ops with heq | ⟨r2, hg, heq⟩ <;> rw [heq]
          · exact hr
          · rw [List.get?_set_ne _ _ (fun hc => hqj hc.symm)]
            exact hr
        exact ih _ q hqr r hkeep

theorem patchJumps_shape (endPos : Nat) :
    ∀ (jumps : List Nat) (ops : List Opcode) (q : Nat),
      (patchJumps endPos jumps ops).get? q = ops.get? q ∨
      ∃ r r2, ops.get? q = some (Opcode.jump r) ∧
        (patchJumps endPos jumps ops).get? q = some (Opcode.jump r2) := by
  intro jumps
  induction jumps with
  | nil => intro ops q; exact Or.inl rfl
  | cons j rest ih =>
      intro ops q
      rw [patchJumps_cons]
      have hstep : (match ops.get? j with
          | some (Opcode.jump _) =>
              ops.set j (Opcode.jump ((endPos : Int) - (j : Int)))
          | _ => ops).get? q = ops.get? q ∨
          ∃ r r2, ops.get? q = some (Opcode.jump r) ∧
          (match ops.get? j with
            | some (Opcode.jump _) =>
                ops.set j (Opcode.jump ((endPos : Int) - (j : Int)))
            | _ => ops).get? q = some (Opcode.jump r2) := by
        rcases patchStep_get endPos j ops with heq | ⟨r, hg, heq⟩ <;> rw [heq]
        · exact Or.inl rfl
        · by_cases hqj : q = j
          · subst hqj
            refine Or.inr ⟨r, (endPos : Int) - (q : Int), hg, ?_⟩
            rw [List.get?_set_eq, hg]
            rfl
          · exact Or.inl (List.get?_set_ne _ _ (fun hc => hqj hc.symm))
      rcases hstep with heq2 | ⟨r, r2, hg, heq2⟩
      · rcases ih _ q with h3 | ⟨r, r2, hg3, h3⟩
        · exact Or.inl (h3.trans heq2)
        · exact Or.inr ⟨r, r2, heq2 ▸ hg3, h3⟩
      · rcases ih _ q with h3 | ⟨r3, r4, hg3, h3⟩
        · exact Or.inr ⟨r, r2, hg, h3.trans heq2⟩
        · exact Or.inr ⟨r, r4, hg, h3⟩

theorem append_of_prefix_get? {α : Type} (l1 l2 : List α)
    (hlen : l1.length ≤ l2.length)
    (h : ∀ q, q < l1.length → l2.get? q = l1.get? q) :
    ∃ d, l2 = l1 ++ d := by
  refine ⟨l2.drop l1.length, List.ext ?_⟩
  intro n
  by_cases hn : n < l1.length
  · rw [h n hn, List.get?_append hn]
  · rw [List.get?_append_right (by omega)]
    rw [List.get?_drop]
    congr 1
    omega

/-- Specification of compileCases relative to its call state: extensions as
in TSpec, any jump in the new region is forward or a recorded placeholder,
every recorded placeholder holds Jump 0 past the call state, and every
returned case entry targets at or past the call state's opcode end. -/
structure CSpec (st : CompilerState)
    (res : CompilerState × List CaseEntry × List Nat) : Prop where
  hops : ∃ d, res.1.program.opcodes = st.program.opcodes ++ d
  htabs : ∃ d, res.1.program.case_tables = st.program.case_tables ++ d
  hnewt : ∀ i t, res.1.program.case_tables.get? i = some t →
    st.program.case_tables.length ≤ i →
    ∀ e ∈ t.entries, st.program.opcodes.length ≤ e.target
  hjf : ∀ q rel, res.1.program.opcodes.get? q = some (Opcode.jump rel) →
    st.program.opcodes.length ≤ q → 1 ≤ rel ∨ q ∈ res.2.2
  hsf : ∀ q op, res.1.program.opcodes.get? q = some op →
    st.program.opcodes.length ≤ q → ∀ tbl, opTable op = some tbl →
    tbl < res.1.program.case_tables.length ∧
    ∀ tb, res.1.program.case_tables.get? tbl = some tb →
    ∀ e ∈ tb.entries, q < e.target
  hpend : ∀ j ∈ res.2.2, st.program.opcodes.length ≤ j ∧
    res.1.program.opcodes.get? j = some (Opcode.jump 0)
  hent : ∀ e ∈ res.2.1, st.program.opcodes.length ≤ e.target

mutual

theorem compileSegments_fc (st : CompilerState) (segs : List Segment) :
    TSpec st (compileSegments st segs) := by
  cases segs with
  | nil =>
      simp only [compileSegments]
      exact tspec_of_eq st st rfl rfl
  | cons seg rest =>
      simp only [compileSegments]
      exact tspec_trans (compileSegment_fc st seg)
        (compileSegments_fc (compileSegment st seg) rest)

theorem compileSegment_fc (st : CompilerState) (seg : Segment) :
    TSpec st (compileSegment st seg) := by
  cases seg with
  | text value sp =>
      simp only [compileSegment]
      rcases hsp : StringPool.push st.program.string_pool value with ⟨pool, sidx⟩
      dsimp only
      exact tspec_trans
        (tspec_of_eq st ⟨{ st.program with string_pool := pool },
          st.arg_indices⟩ rfl rfl)
        (tspec_push _ (Opcode.emitText sidx)
          (fun rel hc => Opcode.noConfusion hc) rfl)
  | «variable» name formatter sp =>
      simp only [compileSegment]
      exact compile_var_fc st name formatter
  | selectExpr selector cs kind sp =>
      simp only [compileSegment]
      exact compileSelect_fc st selector cs kind

theorem compileCases_fc (st : CompilerState)
    (cs : List (AstCaseKey × List Segment × Bool × Span)) :
    CSpec st (compileCases st cs) := by
  cases cs with
  | nil =>
      simp only [compileCases]
      refine ⟨⟨[], (List.append_nil _).symm⟩, ⟨[], (List.append_nil _).symm⟩,
        ?_, ?_, ?_, ?_, ?_⟩
      · intro i t hget hi
        have hlt : i < st.program.case_tables.length := get?_lt_length hget
        omega
      · intro q rel hget hq
        have hlt : q < st.program.opcodes.length := get?_lt_length hget
        omega
      · intro q op hget hq tbl htbl
        have hlt : q < st.program.opcodes.length := get?_lt_length hget
        omega
      · intro j hj
        exact absurd hj (List.not_mem_nil j)
      · intro e he
        exact absurd he (List.not_mem_nil e)
  | cons c rest =>
      obtain ⟨key, value, is_default, sp⟩ := c
      simp only [compileCases]
      rcases hck : compile_case_key st.program key is_default with ⟨program1, ckey⟩
      dsimp only
      have h01 : TSpec st (⟨program1, st.arg_indices⟩ : CompilerState) := by
        refine tspec_of_eq st _ ?_ ?_
        · have := compile_case_key_opcodes st.program key is_default
          rw [hck] at this
          exact this
        · have := compile_case_key_tables st.program key is_default
          rw [hck] at this
          exact this
      have h12 : TSpec (⟨program1, st.arg_indices⟩ : CompilerState)
          (compileSegments ⟨program1, st.arg_indices⟩ value) :=
        compileSegments_fc _ value
      have hA : TSpec st (compileSegments ⟨program1, st.arg_indices⟩ value) :=
        tspec_trans h01 h12
      set st2 := compileSegments ⟨program1, st.arg_indices⟩ value with hst2
      set st3 := pushOp st2 (Opcode.jump 0) with hst3
      have hops3 : st3.program.opcodes = st2.program.opcodes ++ [Opcode.jump 0] := rfl
      have htabs3 : st3.program.case_tables = st2.program.case_tables := rfl
      rcases hcc : compileCases st3 rest with ⟨st4, entriesR, jumpsR⟩
      dsimp only
      have hC := compileCases_fc st3 rest
      rw [hcc] at hC
      have hlA : st.program.opcodes.length ≤ st2.program.opcodes.length :=
        tspec_ops_le hA
      have hl3 : st3.program.opcodes.length = st2.program.opcodes.length + 1 := by
        rw [hops3, List.length_append, List.length_singleton]
      have hl34 : st3.program.opcodes.length ≤ st4.program.opcodes.length := by
        rcases hC.hops with ⟨d, e⟩
        rw [e, List.length_append]
        omega
      refine ⟨?_, ?_, ?_, ?_, ?_, ?_, ?_⟩
      · rcases hA.hops with ⟨d1, e1⟩
        rcases hC.hops with ⟨d2, e2⟩
        refine ⟨d1 ++ [Opcode.jump 0] ++ d2, ?_⟩
        show st4.program.opcodes = _
        rw [e2, hops3, e1]
        simp [List.append_assoc]
      · rcases hA.htabs with ⟨d1, e1⟩
        rcases hC.htabs with ⟨d2, e2⟩
        refine ⟨d1 ++ d2, ?_⟩
        show st4.program.case_tables = _
        rw [e2, htabs3, e1, List.append_assoc]
      · intro i t hget hi
        by_cases hib : i < st3.program.case_tables.length
        · rcases hC.htabs with ⟨d2, e2⟩
          rw [show (st4, entriesR, jumpsR).1 = st4 from rfl] at hget
          rw [e2, List.get?_append hib] at hget
          rw [htabs3] at hget
          exact hA.hnewt i t hget hi
        · intro e he
          have := hC.hnewt i t hget (by omega) e he
          omega
      · intro q rel hget hq
        by_cases hq4 : q < st3.program.opcodes.length
        · rcases hC.hops with ⟨d2, e2⟩
          rw [show (st4, entriesR, jumpsR).1 = st4 from rfl] at hget
          rw [e2, List.get?_append hq4] at hget
          by_cases hq2 : q < st2.program.opcodes.length
          · rw [hops3, List.get?_append hq2] at hget
            exact Or.inl (hA.hjf q rel hget hq)
          · have hqe : q = st2.program.opcodes.length := by omega
            subst hqe
            exact Or.inr (List.mem_cons_self _ _)
        · rcases hC.hjf q rel hget (by omega) with h1 | h1
          · exact Or.inl h1
          · exact Or.inr (List.mem_cons_of_mem _ h1)
      · intro q op hget hq tbl htbl
        by_cases hq4 : q < st3.program.opcodes.length
        · rcases hC.hops with ⟨d2, e2⟩
          rw [show (st4, entriesR, jumpsR).1 = st4 from rfl] at hget
          rw [e2, List.get?_append hq4] at hget
          by_cases hq2 : q < st2.program.opcodes.length
          · rw [hops3, List.get?_append hq2] at hget
            obtain ⟨hlt, htgt⟩ := hA.hsf q op hget hq tbl htbl
            rcases hC.htabs with ⟨d3, e3⟩
            refine ⟨?_, ?_⟩
            · show tbl < st4.program.case_tables.length
              rw [e3, List.length_append, htabs3]
              omega
            · intro tb htb
              rw [show (st4, entriesR, jumpsR).1 = st4 from rfl] at htb
              rw [e3, List.get?_append (by rw [htabs3]; omega)] at htb
              rw [htabs3] at htb
              exact htgt tb htb
          · have hqe : q = st2.program.opcodes.length := by omega
            subst hqe
            rw [hops3, List.get?_concat_length] at hget
            rw [show op = Opcode.jump 0 from (Option.some.inj hget).symm] at htbl
            exact Option.noConfusion htbl
        · exact hC.hsf q op hget (by omega) tbl htbl
      · intro j hj
        rcases List.mem_cons.mp hj with hje | hjr
        · subst hje
          refine ⟨by omega, ?_⟩
          rcases hC.hops with ⟨d2, e2⟩
          show st4.program.opcodes.get? st2.program.opcodes.length = _
          rw [e2, List.get?_append (by omega), hops3, List.get?_concat_length]
        · obtain ⟨hb, hg⟩ := hC.hpend j hjr
          exact ⟨by omega, hg⟩
      · intro e he
        rcases List.mem_cons.mp he with hee | her
        · rw [hee]
        · have := hC.hent e her
          omega

theorem compileSelect_fc (st : CompilerState) (selector : String)
    (cs : List (AstCaseKey × List Segment × Bool × Span)) (kind : SelectKind) :
    TSpec st (compileSelect st selector cs kind) := by
  simp only [compileSelect]
  rcases ha : arg_index st selector with ⟨st1, aidx⟩
  dsimp only
  have hops1 : st1.program.opcodes = st.program.opcodes := by
    have := arg_index_opcodes st selector
    rw [ha] at this
    exact this
  have htabs1 : st1.program.case_tables = st.program.case_tables := by
    have := arg_index_tables st selector
    rw [ha] at this
    exact this
  set opc : Opcode := (match kind with
    | SelectKind.plural =>
        Opcode.selectPlural aidx PluralRuleset.cardinal st1.program.case_tables.length
    | SelectKind.select => Opcode.select aidx st1.program.case_tables.length)
    with hopc
  have hnj : ∀ rel, opc ≠ Opcode.jump rel := by
    intro rel
    rw [hopc]
    cases kind <;> exact fun hc => Opcode.noConfusion hc
  have hot : opTable opc = some st1.program.case_tables.length := by
    rw [hopc]
    cases kind <;> rfl
  have hops2 : (pushOp st1 opc).program.opcodes =
      st.program.opcodes ++ [opc] := by
    show st1.program.opcodes ++ [opc] = _
    rw [hops1]
  have htabs2 : (pushOp st1 opc).program.case_tables =
      st.program.case_tables := by
    show st1.program.case_tables = _
    rw [htabs1]
  have hl2 : (pushOp st1 opc).program.opcodes.length =
      st.program.opcodes.length + 1 := by
    rw [hops2, List.length_append, List.length_singleton]
  rcases hcc : compileCases (pushOp st1 opc) cs with ⟨st3, entries, jumps⟩
  dsimp only
  have hC := compileCases_fc (pushOp st1 opc) cs
  rw [hcc] at hC
  have hl23 : (pushOp st1 opc).program.opcodes.length ≤
      st3.program.opcodes.length := by
    rcases hC.hops with ⟨d, e⟩
    rw [e, List.length_append]
    omega
  have hpj : (jumps.foldl (fun ops jump_pos =>
      match ops.get? jump_pos with
      | some (Opcode.jump _) =>
          ops.set jump_pos
            (Opcode.jump ((st3.program.opcodes.length : Int) - (jump_pos : Int)))
      | _ => ops) st3.program.opcodes) =
      patchJumps st3.program.opcodes.length jumps st3.program.opcodes := rfl
  rw [hpj]
  set patched := patchJumps st3.program.opcodes.length jumps st3.program.opcodes
    with hpatched
  have hplen : patched.length = st3.program.opcodes.length := by
    rw [hpatched]
    exact patchJumps_length _ jumps _
  have hsellt : st.program.opcodes.length < patched.length := by
    rw [hplen]
    omega
  rw [if_pos (by rw [hops1]; exact hsellt)]
  rw [show st1.program.opcodes.length = st.program.opcodes.length from by
    rw [hops1]]
  set L := st.program.opcodes.length with hL
  -- old region of patched agrees with st
  have hjumps_lo : ∀ j ∈ jumps, L + 1 ≤ j := by
    intro j hj
    have := (hC.hpend j hj).1
    omega
  have hold : ∀ q, q < L → patched.get? q = st.program.opcodes.get? q := by
    intro q hqL
    have hnm : q ∉ jumps := fun hc => by
      have := hjumps_lo q hc
      omega
    rw [hpatched, patchJumps_get_notmem _ jumps _ q hnm]
    rcases hC.hops with ⟨d, e⟩
    rw [e, List.get?_append (by omega), hops2, List.get?_append (by omega)]
  have hsetold : ∀ q, q < L →
      (patched.set L opc).get? q = st.program.opcodes.get? q := by
    intro q hqL
    rw [List.get?_set_ne _ _ (by omega)]
    exact hold q hqL
  have hgetsel : (patched.set L opc).get? L = some opc := by
    rcases hpl : patched.get? L with _ | x
    · have := List.get?_eq_none.mp hpl
      omega
    · rw [List.get?_set_eq, hpl]
      rfl
  -- target facts of the final table list
  have hfin_tabs : ∀ i t,
      (st3.program.case_tables ++ [(⟨entries⟩ : CaseTable)]).get? i = some t →
      st.program.case_tables.length ≤ i → ∀ e ∈ t.entries, L + 1 ≤ e.target := by
    intro i t hget hi
    by_cases hib : i < st3.program.case_tables.length
    · rw [List.get?_append hib] at hget
      intro e he
      have := hC.hnewt i t hget (by rw [htabs2]; omega) e he
      rw [hl2] at this
      exact this
    · have hieq : i = st3.program.case_tables.length := by
        have := get?_lt_length hget
        rw [List.length_append, List.length_singleton] at this
        omega
      subst hieq
      rw [List.get?_concat_length] at hget
      rw [show t = (⟨entries⟩ : CaseTable) from (Option.some.inj hget).symm]
      intro e he
      have := hC.hent e he
      rw [hl2] at this
      exact this
  have htbl0 : st1.program.case_tables.length < st3.program.case_tables.length + 1 := by
    rcases hC.htabs with ⟨d, e⟩
    rw [e, List.length_append, htabs2, htabs1]
    omega
  refine ⟨?_, ?_, ?_, ?_, ?_⟩
  · refine append_of_prefix_get? st.program.opcodes _ ?_ hsetold
    rw [List.length_set, hplen]
    omega
  · rcases hC.htabs with ⟨d, e⟩
    refine ⟨d ++ [(⟨entries⟩ : CaseTable)], ?_⟩
    show st3.program.case_tables ++ _ = _
    rw [e, htabs2, List.append_assoc]
  · intro i t hget hi e he
    have := hfin_tabs i t hget hi e he
    omega
  · intro q rel hget hq
    by_cases hqL : q = L
    · subst hqL
      rw [hgetsel] at hget
      exact absurd (Option.some.inj hget) (hnj rel)
    · rw [List.get?_set_ne _ _ (by omega)] at hget
      by_cases hqm : q ∈ jumps
      · obtain ⟨hqlo, hq0⟩ := hC.hpend q hqm
        have hqlt : q < st3.program.opcodes.length := get?_lt_length hq0
        rw [hpatched, patchJumps_get_mem _ jumps _ q hqm 0 hq0] at hget
        have hrel : ((st3.program.opcodes.length : Int) - (q : Int)) = rel :=
          Opcode.jump.inj (Option.some.inj hget)
        omega
      · rw [hpatched, patchJumps_get_notmem _ jumps _ q hqm] at hget
        rcases hC.hjf q rel hget (by rw [hl2]; omega) with h1 | h1
        · exact h1
        · exact absurd h1 hqm
  · intro q op hget hq tbl htbl
    by_cases hqL : q = L
    · subst hqL
      rw [hgetsel] at hget
      rw [show op = opc from (Option.some.inj hget).symm] at htbl
      rw [hot] at htbl
      have htble : tbl = st1.program.case_tables.length :=
        (Option.some.inj htbl).symm
      subst htble
      refine ⟨?_, ?_⟩
      · show st1.program.case_tables.length <
          (st3.program.case_tables ++ [(⟨entries⟩ : CaseTable)]).length
        rw [List.length_append, List.length_singleton]
        exact htbl0
      · intro tb htb
        intro e he
        have := hfin_tabs st1.program.case_tables.length tb htb
          (by rw [htabs1]) e he
        omega
    · rw [List.get?_set_ne _ _ (by omega)] at hget
      have hget3 : st3.program.opcodes.get? q = some op := by
        rcases patchJumps_shape st3.program.opcodes.length jumps
            st3.program.opcodes q with hsh | ⟨r, r2, hg3, hsh⟩
        · rw [hpatched] at hget
          rw [hsh] at hget
          exact hget
        · rw [hpatched] at hget
          rw [hsh] at hget
          rw [show op = Opcode.jump r2 from (Option.some.inj hget).symm] at htbl
          exact Option.noConfusion htbl
      obtain ⟨hlt, htgt⟩ := hC.hsf q op hget3 (by rw [hl2]; omega) tbl htbl
      have hlt2 : tbl < st3.program.case_tables.length := hlt
      refine ⟨?_, ?_⟩
      · show tbl < (st3.program.case_tables ++ [(⟨entries⟩ : CaseTable)]).length
        rw [List.length_append, List.length_singleton]
        omega
      · intro tb htb
        rw [List.get?_append hlt2] at htb
        exact htgt tb htb

end

/-- Every program the compiler emits is forward-control: placeholder jumps
are all back-patched to the strictly later block end, and every select's
table holds case-start targets recorded after the select was pushed. -/
theorem compile_message_forward (segments : List Segment) :
    ForwardControl (compile_message segments) := by
  have hA := compileSegments_fc (⟨⟨[], [], [], [], []⟩, []⟩ : CompilerState)
    segments
  set stf := compileSegments (⟨⟨[], [], [], [], []⟩, []⟩ : CompilerState)
    segments with hstf
  have hops : (compile_message segments).opcodes =
      stf.program.opcodes ++ [Opcode.endOp] := rfl
  have htabs : (compile_message segments).case_tables =
      stf.program.case_tables := rfl
  intro e he
  rcases e with ⟨q, op⟩
  have hget : (compile_message segments).opcodes.get? q = some op := by
    rw [List.get?_eq_getElem?]
    exact List.mem_enum_iff_getElem?.mp he
  cases hop : op with
  | jump rel =>
      have hget2 : stf.program.opcodes.get? q = some (Opcode.jump rel) := by
        rw [hops] at hget
        by_cases hq : q < stf.program.opcodes.length
        · rw [List.get?_append hq] at hget
          rw [hop] at hget
          exact hget
        · have hlt := get?_lt_length hget
          rw [List.length_append, List.length_singleton] at hlt
          have hqe : q = stf.program.opcodes.length := by omega
          subst hqe
          rw [List.get?_concat_length] at hget
          rw [hop] at hget
          exact absurd (Option.some.inj hget) (fun hc => Opcode.noConfusion hc)
      have hrel := hA.hjf q rel hget2 (Nat.zero_le q)
      show opForwardB _ q (Opcode.jump rel) = true
      unfold opForwardB
      dsimp only
      exact decide_eq_true hrel
  | select aidx tbl =>
      have hget2 : stf.program.opcodes.get? q = some (Opcode.select aidx tbl) := by
        rw [hops] at hget
        by_cases hq : q < stf.program.opcodes.length
        · rw [List.get?_append hq] at hget
          rw [hop] at hget
          exact hget
        · have hlt := get?_lt_length hget
          rw [List.length_append, List.length_singleton] at hlt
          have hqe : q = stf.program.opcodes.length := by omega
          subst hqe
          rw [List.get?_concat_length] at hget
          rw [hop] at hget
          exact absurd (Option.some.inj hget) (fun hc => Opcode.noConfusion hc)
      obtain ⟨hlt, htgt⟩ := hA.hsf q _ hget2 (Nat.zero_le q) tbl rfl
      show opForwardB _ q (Opcode.select aidx tbl) = true
      unfold opForwardB
      dsimp only
      unfold tableForwardB
      rw [htabs]
      rcases htb : stf.program.case_tables.get? tbl with _ | tb
      · rfl
      · dsimp only
        rw [List.all_eq_true]
        intro entry hentry
        exact decide_eq_true (htgt tb htb entry hentry)
  | selectPlural aidx rs tbl =>
      have hget2 : stf.program.opcodes.get? q =
          some (Opcode.selectPlural aidx rs tbl) := by
        rw [hops] at hget
        by_cases hq : q < stf.program.opcodes.length
        · rw [List.get?_append hq] at hget
          rw [hop] at hget
          exact hget
        · have hlt := get?_lt_length hget
          rw [List.length_append, List.length_singleton] at hlt
          have hqe : q = stf.program.opcodes.length := by omega
          subst hqe
          rw [List.get?_concat_length] at hget
          rw [hop] at hget
          exact absurd (Option.some.inj hget) (fun hc => Opcode.noConfusion hc)
      obtain ⟨hlt, htgt⟩ := hA.hsf q _ hget2 (Nat.zero_le q) tbl rfl
      show opForwardB _ q (Opcode.selectPlural aidx rs tbl) = true
      unfold opForwardB
      dsimp only
      unfold tableForwardB
      rw [htabs]
      rcases htb : stf.program.case_tables.get? tbl with _ | tb
      · rfl
      · dsimp only
        rw [List.all_eq_true]
        intro entry hentry
        exact decide_eq_true (htgt tb htb entry hentry)
  | emitText s => rfl
  | emitStack => rfl
  | pushStr s => rfl
  | pushNum n => rfl
  | pushArg a => rfl
  | dup => rfl
  | pop => rfl
  | callFmt f o => rfl
  | endOp => rfl

/-- C8 as amended: the interpreter terminates on every forward-control
program for every argument bag and backend — some fuel yields a result —
and every program emitted by the compiler is forward-control, so execute
terminates on all compiled programs.  The counterexample shows a decoded
pack need not be forward-control: on a decoded Jump 0 the interpreter never
terminates. -/
theorem execute_terminates_forward :
    (∀ (p : BytecodeProgram) (args : Args) (backend : FormatBackend),
      ForwardControl p → ∃ fuel r, executeFuel p args backend fuel = some r) ∧
    ∀ segments : List Segment, ForwardControl (compile_message segments) := by
  constructor
  · intro p args backend hfc
    have h := execLoop_terminates p args backend hfc p.opcodes.length
      ⟨[], "", 0⟩ (by simp)
    rcases Option.isSome_iff_exists.mp h with ⟨r, hr⟩
    exact ⟨p.opcodes.length + 1, r, hr⟩
  · exact compile_message_forward

/-- Witness for C8 amended: a concrete forward-control program on which the
theorem yields termination, and a concrete compiled message certified
forward-control by the theorem. -/
theorem execute_terminates_forward_witness :
    ForwardControl ⟨[.emitText 0, .endOp], ["Hi"], [], [], []⟩ ∧
    (∃ fuel r, executeFuel ⟨[.emitText 0, .endOp], ["Hi"], [], [], []⟩
      [] BasicFormatBackend fuel = some r) ∧
    ForwardControl (compile_message [Segment.text "Hi" ⟨1, 1⟩]) :=
  ⟨by decide,
   execute_terminates_forward.1 ⟨[.emitText 0, .endOp], ["Hi"], [], [], []⟩
     [] BasicFormatBackend (by decide),
   execute_terminates_forward.2 [Segment.text "Hi" ⟨1, 1⟩]⟩

/-! C2: pack encode/decode round trip.  Byte-framing lemmas: each reader,
applied at the start of its own payload inside a larger byte stream, returns
the encoded value and the cursor just past the payload. -/

theorem getD_middle (pre mid rest : List Nat) (i : Nat) (h : i < mid.length) :
    (pre ++ mid ++ rest).getD (pre.length + i) 0 = mid.getD i 0 := by
  rw [List.append_assoc]
  rw [List.getD_append_right pre (mid ++ rest) 0 (pre.length + i) (by omega)]
  rw [Nat.add_sub_cancel_left]
  exact List.getD_append mid rest 0 i h

theorem get?_middle (pre mid rest : List Nat) (i : Nat) (h : i < mid.length) :
    (pre ++ mid ++ rest).get? (pre.length + i) = mid.get? i := by
  rw [List.append_assoc]
  rw [List.get?_append_right (by omega)]
  rw [Nat.add_sub_cancel_left]
  exact List.get?_append h

theorem drop_middle (pre mid rest : List Nat) :
    (pre ++ mid ++ rest).drop (pre.length + mid.length) = rest := by
  rw [← List.length_append]
  exact List.drop_left _ _

theorem slice_middle (pre mid rest : List Nat) :
    ((pre ++ mid ++ rest).drop pre.length).take mid.length = mid := by
  rw [List.append_assoc, List.drop_left, List.take_left]

theorem readU8_at (pre rest : List Nat) (b : Nat) :
    readU8 (pre ++ [b] ++ rest) pre.length = .ok (b, pre.length + 1) := by
  unfold readU8
  rw [show pre.length = pre.length + 0 from rfl, get?_middle pre [b] rest 0 (by simp)]
  rfl

theorem readU16_at (pre rest : List Nat) (n : Nat) (hn : n < 65536) :
    readU16 (pre ++ u16Bytes n ++ rest) pre.length = .ok (n, pre.length + 2) := by
  unfold readU16
  rw [if_pos (by simp only [List.append_assoc, List.length_append, u16Bytes,
    List.length_cons, List.length_nil]; omega)]
  have h0 : (pre ++ u16Bytes n ++ rest).getD pre.length 0 = (u16Bytes n).getD 0 0 := by
    have := getD_middle pre (u16Bytes n) rest 0 (by simp [u16Bytes])
    simpa using this
  have h1 := getD_middle pre (u16Bytes n) rest 1 (by simp [u16Bytes])
  rw [h0, h1]
  simp only [Except.ok.injEq, Prod.mk.injEq]
  refine ⟨?_, trivial⟩
  simp only [u16Bytes, List.getD, List.get?, Option.getD_some]
  omega

theorem readU32_at (pre rest : List Nat) (n : Nat) (hn : n < 4294967296) :
    readU32 (pre ++ u32Bytes n ++ rest) pre.length = .ok (n, pre.length + 4) := by
  unfold readU32
  rw [if_pos (by simp only [List.append_assoc, List.length_append, u32Bytes,
    List.length_cons, List.length_nil]; omega)]
  have h0 : (pre ++ u32Bytes n ++ rest).getD pre.length 0 = (u32Bytes n).getD 0 0 := by
    have := getD_middle pre (u32Bytes n) rest 0 (by simp [u32Bytes])
    simpa using this
  have h1 := getD_middle pre (u32Bytes n) rest 1 (by simp [u32Bytes])
  have h2 := getD_middle pre (u32Bytes n) rest 2 (by simp [u32Bytes])
  have h3 := getD_middle pre (u32Bytes n) rest 3 (by simp [u32Bytes])
  rw [h0, h1, h2, h3]
  simp only [Except.ok.injEq, Prod.mk.injEq]
  refine ⟨?_, trivial⟩
  simp only [u32Bytes, List.getD, List.get?, Option.getD_some]
  omega

theorem readU64_at (pre rest : List Nat) (n : Nat) (hn : n < 18446744073709551616) :
    readU64 (pre ++ u64Bytes n ++ rest) pre.length = .ok (n, pre.length + 8) := by
  unfold readU64
  rw [if_pos (by simp only [List.append_assoc, List.length_append, u64Bytes,
    List.length_cons, List.length_nil]; omega)]
  have h0 : (pre ++ u64Bytes n ++ rest).getD pre.length 0 = (u64Bytes n).getD 0 0 := by
    have := getD_middle pre (u64Bytes n) rest 0 (by simp [u64Bytes])
    simpa using this
  have h1 := getD_middle pre (u64Bytes n) rest 1 (by simp [u64Bytes])
  have h2 := getD_middle pre (u64Bytes n) rest 2 (by simp [u64Bytes])
  have h3 := getD_middle pre (u64Bytes n) rest 3 (by simp [u64Bytes])
  have h4 := getD_middle pre (u64Bytes n) rest 4 (by simp [u64Bytes])
  have h5 := getD_middle pre (u64Bytes n) rest 5 (by simp [u64Bytes])
  have h6 := getD_middle pre (u64Bytes n) rest 6 (by simp [u64Bytes])
  have h7 := getD_middle pre (u64Bytes n) rest 7 (by simp [u64Bytes])
  rw [h0, h1, h2, h3, h4, h5, h6, h7]
  simp only [Except.ok.injEq, Prod.mk.injEq]
  refine ⟨?_, trivial⟩
  simp only [u64Bytes, List.getD, List.get?, Option.getD_some]
  omega

theorem readI32_at (pre rest : List Nat) (i : Int)
    (hlo : -2147483648 ≤ i) (hhi : i < 2147483648) :
    readI32 (pre ++ i32Bytes i ++ rest) pre.length = .ok (i, pre.length + 4) := by
  unfold readI32 i32Bytes
  have hv : (i % 4294967296).toNat < 4294967296 := by omega
  rw [readU32_at pre rest _ hv]
  dsimp only
  by_cases hpos : 0 ≤ i
  · rw [if_pos (by omega)]
    simp only [Except.ok.injEq, Prod.mk.injEq]
    refine ⟨?_, trivial⟩
    omega
  · rw [if_neg (by omega)]
    simp only [Except.ok.injEq, Prod.mk.injEq]
    refine ⟨?_, trivial⟩
    omega

theorem readF64_at (pre rest : List Nat) (q : Rat) :
    readF64 (pre ++ f64ToLeBytes q ++ rest) pre.length = .ok (q, pre.length + 8) := by
  unfold readF64
  rw [if_pos (by simp only [List.append_assoc, List.length_append, f64ToLeBytes,
    List.length_cons, List.length_nil]; omega)]
  have h0 : (pre ++ f64ToLeBytes q ++ rest).getD pre.length 0 =
      (f64ToLeBytes q).getD 0 0 := by
    have := getD_middle pre (f64ToLeBytes q) rest 0 (by simp [f64ToLeBytes])
    simpa using this
  rw [h0]
  show Except.ok (f64FromLeByte (Encodable.encode q), pre.length + 8) = _
  unfold f64FromLeByte
  rw [Encodable.encodek]
  rfl

/-- Reduction of an Except bind at an ok value. -/
theorem exc_bind_ok {α β : Type} (a : α) (f : α → CoreResult β) :
    Bind.bind (Except.ok a : CoreResult α) f = f a := rfl

/-- Bytes of the string-pool entries after the count prefix of
encode_string_pool. -/
def strEntryBytes (l : List String) : List Nat :=
  (l.map fun value => u32Bytes (strToBytes value).length ++ strToBytes value).flatten

theorem encode_string_pool_split (pool : List String) :
    encode_string_pool pool = u32Bytes pool.length ++ strEntryBytes pool := rfl

theorem char_toNat_valid (c : Char) : Nat.isValidChar c.toNat := by
  have hv := c.valid
  unfold UInt32.isValidChar at hv
  exact hv

theorem charFromNat?_toNat (c : Char) : charFromNat? c.toNat = some c := by
  unfold charFromNat?
  rw [dif_pos (char_toNat_valid c)]
  congr 1

theorem strFromBytes?_strToBytes (s : String) :
    strFromBytes? (strToBytes s) = some s := by
  unfold strFromBytes? strToBytes
  have hmm : ∀ l : List Char, (l.map Char.toNat).mapM charFromNat? = some l := by
    intro l
    induction l with
    | nil => rfl
    | cons c t ih =>
        rw [List.map_cons, List.mapM_cons, charFromNat?_toNat, ih]
        rfl
  rw [hmm s.data]
  rfl

theorem decodeStrings_at (l : List String)
    (hb : ∀ v ∈ l, (strToBytes v).length < 4294967296) :
    ∀ pre rest : List Nat,
      decodeStrings (pre ++ strEntryBytes l ++ rest) pre.length l.length =
        .ok (l, pre.length + (strEntryBytes l).length) := by
  induction l with
  | nil =>
      intro pre rest
      simp only [strEntryBytes, List.map_nil, List.flatten_nil, List.length_nil,
        List.append_nil, Nat.add_zero]
      rfl
  | cons v t ih =>
      intro pre rest
      have hlen : (strToBytes v).length < 4294967296 := hb v (List.mem_cons_self v t)
      have hbytes : pre ++ strEntryBytes (v :: t) ++ rest =
          pre ++ u32Bytes (strToBytes v).length ++
            (strToBytes v ++ (strEntryBytes t ++ rest)) := by
        simp [strEntryBytes, List.append_assoc]
      rw [hbytes]
      show decodeStrings _ pre.length (t.length + 1) = _
      simp only [decodeStrings]
      rw [readU32_at pre _ _ hlen, exc_bind_ok]
      dsimp only
      rw [if_pos (by simp [u32Bytes]; omega)]
      have hslice : ((pre ++ u32Bytes (strToBytes v).length ++
            (strToBytes v ++ (strEntryBytes t ++ rest))).drop (pre.length + 4)).take
            (strToBytes v).length = strToBytes v := by
        have h4 : pre.length + 4 = (pre ++ u32Bytes (strToBytes v).length).length := by
          simp [u32Bytes]
        rw [h4, ← List.append_assoc, slice_middle]
      rw [hslice, strFromBytes?_strToBytes]
      have hrec : decodeStrings (pre ++ u32Bytes (strToBytes v).length ++
            (strToBytes v ++ (strEntryBytes t ++ rest)))
            (pre.length + 4 + (strToBytes v).length) t.length =
          .ok (t, pre.length + 4 + (strToBytes v).length + (strEntryBytes t).length) := by
        have hpre : pre.length + 4 + (strToBytes v).length =
            (pre ++ u32Bytes (strToBytes v).length ++ strToBytes v).length := by
          simp [u32Bytes]
          omega
        have hre : pre ++ u32Bytes (strToBytes v).length ++
            (strToBytes v ++ (strEntryBytes t ++ rest)) =
            (pre ++ u32Bytes (strToBytes v).length ++ strToBytes v) ++
              strEntryBytes t ++ rest := by
          simp [List.append_assoc]
        rw [hpre, hre, ih (fun w hw => hb w (List.mem_cons_of_mem v hw))]
      rw [hrec]
      simp only [Bind.bind, Except.bind]
      simp only [Except.ok.injEq, Prod.mk.injEq]
      refine ⟨trivial, ?_⟩
      simp [strEntryBytes, u32Bytes]
      omega

theorem decode_string_pool_roundtrip (pool : List String)
    (hc : pool.length < 4294967296)
    (hb : ∀ v ∈ pool, (strToBytes v).length < 4294967296) :
    decode_string_pool (encode_string_pool pool) = .ok pool := by
  unfold decode_string_pool
  rw [encode_string_pool_split]
  have hr : readU32 (u32Bytes pool.length ++ strEntryBytes pool) 0 =
      .ok (pool.length, 4) := by
    have := readU32_at [] (strEntryBytes pool) pool.length hc
    simpa using this
  rw [hr, exc_bind_ok]
  dsimp only
  have hd : decodeStrings (u32Bytes pool.length ++ strEntryBytes pool) 4 pool.length =
      .ok (pool, 4 + (strEntryBytes pool).length) := by
    have h4 : (4 : Nat) = (u32Bytes pool.length).length := by simp [u32Bytes]
    rw [h4]
    have := decodeStrings_at pool hb (u32Bytes pool.length) []
    simpa using this
  rw [hd, exc_bind_ok]

/-- Bytes of a number pool. -/
def numBytes (l : List Rat) : List Nat := (l.map f64ToLeBytes).flatten

theorem decodeNumbers_at (l : List Rat) :
    ∀ pre rest : List Nat,
      decodeNumbers (pre ++ numBytes l ++ rest) pre.length l.length =
        .ok (l, pre.length + (numBytes l).length) := by
  induction l with
  | nil =>
      intro pre rest
      simp only [numBytes, List.map_nil, List.flatten_nil, List.length_nil,
        List.append_nil, Nat.add_zero]
      rfl
  | cons q t ih =>
      intro pre rest
      have hbytes : pre ++ numBytes (q :: t) ++ rest =
          pre ++ f64ToLeBytes q ++ (numBytes t ++ rest) := by
        simp [numBytes, List.append_assoc]
      rw [hbytes]
      show decodeNumbers _ pre.length (t.length + 1) = _
      simp only [decodeNumbers]
      rw [readF64_at pre _ q, exc_bind_ok]
      dsimp only
      have hrec : decodeNumbers (pre ++ f64ToLeBytes q ++ (numBytes t ++ rest))
          (pre.length + 8) t.length =
          .ok (t, pre.length + 8 + (numBytes t).length) := by
        have hpre : pre.length + 8 = (pre ++ f64ToLeBytes q).length := by
          simp [f64ToLeBytes]
        have hre : pre ++ f64ToLeBytes q ++ (numBytes t ++ rest) =
            (pre ++ f64ToLeBytes q) ++ numBytes t ++ rest := by
          simp [List.append_assoc]
        rw [hpre, hre, ih]
      rw [hrec]
      simp only [Bind.bind, Except.bind]
      simp only [Except.ok.injEq, Prod.mk.injEq]
      refine ⟨trivial, ?_⟩
      simp [numBytes, f64ToLeBytes]
      omega

/-- Operand bounds under which one opcode survives the byte round trip. -/
def opEncOK : Opcode → Prop
  | .emitText sidx => sidx < 4294967296
  | .pushStr sidx => sidx < 4294967296
  | .pushNum nidx => nidx < 4294967296
  | .pushArg aidx => aidx < 4294967296
  | .callFmt _ opt_count => opt_count < 256
  | .select aidx table => aidx < 4294967296 ∧ table < 4294967296
  | .selectPlural aidx _ table => aidx < 4294967296 ∧ table < 4294967296
  | .jump rel => -2147483648 ≤ rel ∧ rel < 2147483648
  | _ => True

instance (op : Opcode) : Decidable (opEncOK op) := by
  cases op <;> (simp only [opEncOK]; infer_instance)

theorem formatterIdOfByte_roundtrip (fid : FormatterId) :
    formatterIdOfByte (formatterIdByte fid) = .ok fid := by
  cases fid <;> rfl

theorem pluralRulesetOfByte_roundtrip (rs : PluralRuleset) :
    pluralRulesetOfByte (encode_ruleset rs) = .ok rs := by
  cases rs
  rfl

theorem regroup3 {α : Type} (a b c : List α) : a ++ (b ++ c) = a ++ b ++ c :=
  (List.append_assoc a b c).symm

theorem decodeOpcode_at (op : Opcode) (h : opEncOK op) :
    ∀ pre rest : List Nat,
      decodeOpcode (pre ++ encode_opcode op ++ rest) pre.length =
        .ok (op, pre.length + (encode_opcode op).length) := by
  intro pre rest
  cases op with
  | emitText sidx =>
      have hbytes : pre ++ encode_opcode (.emitText sidx) ++ rest =
          pre ++ [0] ++ (u32Bytes sidx ++ rest) := by
        simp [encode_opcode, List.append_assoc]
      rw [hbytes]
      simp only [decodeOpcode]
      rw [readU8_at pre _ 0, exc_bind_ok]
      dsimp only
      have h1 : pre.length + 1 = (pre ++ [0]).length := by simp
      rw [h1, regroup3 (pre ++ [0]) (u32Bytes sidx) rest,
        readU32_at (pre ++ [0]) rest sidx h, exc_bind_ok]
      simp [encode_opcode, u32Bytes]
      try omega
  | emitStack =>
      have hbytes : pre ++ encode_opcode .emitStack ++ rest =
          pre ++ [1] ++ rest := rfl
      rw [hbytes]
      simp only [decodeOpcode]
      rw [readU8_at pre _ 1, exc_bind_ok]
      rfl
  | pushStr sidx =>
      have hbytes : pre ++ encode_opcode (.pushStr sidx) ++ rest =
          pre ++ [2] ++ (u32Bytes sidx ++ rest) := by
        simp [encode_opcode, List.append_assoc]
      rw [hbytes]
      simp only [decodeOpcode]
      rw [readU8_at pre _ 2, exc_bind_ok]
      dsimp only
      have h1 : pre.length + 1 = (pre ++ [2]).length := by simp
      rw [h1, regroup3 (pre ++ [2]) (u32Bytes sidx) rest,
        readU32_at (pre ++ [2]) rest sidx h, exc_bind_ok]
      simp [encode_opcode, u32Bytes]
      try omega
  | pushNum nidx =>
      have hbytes : pre ++ encode_opcode (.pushNum nidx) ++ rest =
          pre ++ [3] ++ (u32Bytes nidx ++ rest) := by
        simp [encode_opcode, List.append_assoc]
      rw [hbytes]
      simp only [decodeOpcode]
      rw [readU8_at pre _ 3, exc_bind_ok]
      dsimp only
      have h1 : pre.length + 1 = (pre ++ [3]).length := by simp
      rw [h1, regroup3 (pre ++ [3]) (u32Bytes nidx) rest,
        readU32_at (pre ++ [3]) rest nidx h, exc_bind_ok]
      simp [encode_opcode, u32Bytes]
      try omega
  | pushArg aidx =>
      have hbytes : pre ++ encode_opcode (.pushArg aidx) ++ rest =
          pre ++ [4] ++ (u32Bytes aidx ++ rest) := by
        simp [encode_opcode, List.append_assoc]
      rw [hbytes]
      simp only [decodeOpcode]
      rw [readU8_at pre _ 4, exc_bind_ok]
      dsimp only
      have h1 : pre.length + 1 = (pre ++ [4]).length := by simp
      rw [h1, regroup3 (pre ++ [4]) (u32Bytes aidx) rest,
        readU32_at (pre ++ [4]) rest aidx h, exc_bind_ok]
      simp [encode_opcode, u32Bytes]
      try omega
  | dup =>
      have hbytes : pre ++ encode_opcode .dup ++ rest = pre ++ [5] ++ rest := rfl
      rw [hbytes]
      simp only [decodeOpcode]
      rw [readU8_at pre _ 5, exc_bind_ok]
      rfl
  | pop =>
      have hbytes : pre ++ encode_opcode .pop ++ rest = pre ++ [6] ++ rest := rfl
      rw [hbytes]
      simp only [decodeOpcode]
      rw [readU8_at pre _ 6, exc_bind_ok]
      rfl
  | callFmt fid opt_count =>
      have hbytes : pre ++ encode_opcode (.callFmt fid opt_count) ++ rest =
          pre ++ [7] ++ ([formatterIdByte fid] ++ ([opt_count % 256] ++ rest)) := by
        simp [encode_opcode, List.append_assoc]
      rw [hbytes]
      simp only [decodeOpcode]
      rw [readU8_at pre _ 7, exc_bind_ok]
      dsimp only
      have h1 : pre.length + 1 = (pre ++ [7]).length := by simp
      rw [h1, regroup3 (pre ++ [7]) [formatterIdByte fid] ([opt_count % 256] ++ rest),
        readU8_at (pre ++ [7]) _ (formatterIdByte fid), exc_bind_ok]
      dsimp only
      rw [formatterIdOfByte_roundtrip, exc_bind_ok]
      have h2 : (pre ++ [7]).length + 1 =
          (pre ++ [7] ++ [formatterIdByte fid]).length := by simp
      rw [h2, regroup3 (pre ++ [7] ++ [formatterIdByte fid]) [opt_count % 256] rest,
        readU8_at (pre ++ [7] ++ [formatterIdByte fid]) rest (opt_count % 256),
        exc_bind_ok]
      have hc : opt_count < 256 := h
      simp only [Except.ok.injEq, Prod.mk.injEq, Opcode.callFmt.injEq]
      refine ⟨⟨trivial, ?_⟩, ?_⟩
      · omega
      · simp [encode_opcode]
        try omega
  | select aidx table =>
      obtain ⟨ha, ht⟩ := h
      have hbytes : pre ++ encode_opcode (.select aidx table) ++ rest =
          pre ++ [8] ++ (u32Bytes aidx ++ (u32Bytes table ++ rest)) := by
        simp [encode_opcode, List.append_assoc]
      rw [hbytes]
      simp only [decodeOpcode]
      rw [readU8_at pre _ 8, exc_bind_ok]
      dsimp only
      have h1 : pre.length + 1 = (pre ++ [8]).length := by simp
      rw [h1, regroup3 (pre ++ [8]) (u32Bytes aidx) (u32Bytes table ++ rest),
        readU32_at (pre ++ [8]) _ aidx ha, exc_bind_ok]
      dsimp only
      have h2 : (pre ++ [8]).length + 4 = (pre ++ [8] ++ u32Bytes aidx).length := by
        simp [u32Bytes]
      rw [h2, regroup3 (pre ++ [8] ++ u32Bytes aidx) (u32Bytes table) rest,
        readU32_at (pre ++ [8] ++ u32Bytes aidx) rest table ht, exc_bind_ok]
      simp [encode_opcode, u32Bytes]
      try omega
  | selectPlural aidx ruleset table =>
      obtain ⟨ha, ht⟩ := h
      have hbytes : pre ++ encode_opcode (.selectPlural aidx ruleset table) ++ rest =
          pre ++ [9] ++ (u32Bytes aidx ++ ([encode_ruleset ruleset] ++
            (u32Bytes table ++ rest))) := by
        simp [encode_opcode, List.append_assoc]
      rw [hbytes]
      simp only [decodeOpcode]
      rw [readU8_at pre _ 9, exc_bind_ok]
      dsimp only
      have h1 : pre.length + 1 = (pre ++ [9]).length := by simp
      rw [h1, regroup3 (pre ++ [9]) (u32Bytes aidx)
        ([encode_ruleset ruleset] ++ (u32Bytes table ++ rest)),
        readU32_at (pre ++ [9]) _ aidx ha, exc_bind_ok]
      dsimp only
      have h2 : (pre ++ [9]).length + 4 = (pre ++ [9] ++ u32Bytes aidx).length := by
        simp [u32Bytes]
      rw [h2, regroup3 (pre ++ [9] ++ u32Bytes aidx) [encode_ruleset ruleset]
        (u32Bytes table ++ rest),
        readU8_at (pre ++ [9] ++ u32Bytes aidx) _ (encode_ruleset ruleset), exc_bind_ok]
      dsimp only
      rw [pluralRulesetOfByte_roundtrip, exc_bind_ok]
      have h3 : (pre ++ [9] ++ u32Bytes aidx).length + 1 =
          (pre ++ [9] ++ u32Bytes aidx ++ [encode_ruleset ruleset]).length := by
        simp
        try omega
      rw [h3, regroup3 (pre ++ [9] ++ u32Bytes aidx ++ [encode_ruleset ruleset])
        (u32Bytes table) rest,
        readU32_at (pre ++ [9] ++ u32Bytes aidx ++ [encode_ruleset ruleset])
        rest table ht, exc_bind_ok]
      simp [encode_opcode, u32Bytes]
      try omega
  | jump rel =>
      obtain ⟨hlo, hhi⟩ := h
      have hbytes : pre ++ encode_opcode (.jump rel) ++ rest =
          pre ++ [10] ++ (i32Bytes rel ++ rest) := by
        simp [encode_opcode, List.append_assoc]
      rw [hbytes]
      simp only [decodeOpcode]
      rw [readU8_at pre _ 10, exc_bind_ok]
      dsimp only
      have h1 : pre.length + 1 = (pre ++ [10]).length := by simp
      rw [h1, regroup3 (pre ++ [10]) (i32Bytes rel) rest,
        readI32_at (pre ++ [10]) rest rel hlo hhi, exc_bind_ok]
      simp [encode_opcode, i32Bytes, u32Bytes]
      try omega
  | endOp =>
      have hbytes : pre ++ encode_opcode .endOp ++ rest = pre ++ [11] ++ rest := rfl
      rw [hbytes]
      simp only [decodeOpcode]
      rw [readU8_at pre _ 11, exc_bind_ok]
      rfl

/-- Bytes of an opcode list. -/
def opsBytes (l : List Opcode) : List Nat := (l.map encode_opcode).flatten

theorem decodeOpcodes_at (l : List Opcode) (h : ∀ op ∈ l, opEncOK op) :
    ∀ pre rest : List Nat,
      decodeOpcodes (pre ++ opsBytes l ++ rest) pre.length l.length =
        .ok (l, pre.length + (opsBytes l).length) := by
  induction l with
  | nil =>
      intro pre rest
      simp only [opsBytes, List.map_nil, List.flatten_nil, List.length_nil,
        List.append_nil, Nat.add_zero]
      rfl
  | cons op t ih =>
      intro pre rest
      have hbytes : pre ++ opsBytes (op :: t) ++ rest =
          pre ++ encode_opcode op ++ (opsBytes t ++ rest) := by
        simp [opsBytes, List.append_assoc]
      rw [hbytes]
      show decodeOpcodes _ pre.length (t.length + 1) = _
      simp only [decodeOpcodes]
      rw [decodeOpcode_at op (h op (List.mem_cons_self op t)) pre _, exc_bind_ok]
      dsimp only
      have hrec : decodeOpcodes (pre ++ encode_opcode op ++ (opsBytes t ++ rest))
          (pre.length + (encode_opcode op).length) t.length =
          .ok (t, pre.length + (encode_opcode op).length + (opsBytes t).length) := by
        have hpre : pre.length + (encode_opcode op).length =
            (pre ++ encode_opcode op).length := by simp
        have hre : pre ++ encode_opcode op ++ (opsBytes t ++ rest) =
            (pre ++ encode_opcode op) ++ opsBytes t ++ rest := by
          simp [List.append_assoc]
        rw [hpre, hre, ih (fun w hw => h w (List.mem_cons_of_mem op hw))]
      rw [hrec]
      simp only [Bind.bind, Except.bind]
      simp only [Except.ok.injEq, Prod.mk.injEq]
      refine ⟨trivial, ?_⟩
      simp [opsBytes]
      omega

theorem decode_message_roundtrip (prog : BytecodeProgram)
    (string_pool : List String) (case_tables : List CaseTable)
    (arg_names : List String)
    (hn : prog.number_pool.length < 4294967296)
    (ho : prog.opcodes.length < 4294967296)
    (hops : ∀ op ∈ prog.opcodes, opEncOK op) :
    decode_message (encode_message prog) string_pool case_tables arg_names =
      .ok ⟨prog.opcodes, string_pool, prog.number_pool, case_tables, arg_names⟩ := by
  unfold decode_message
  have hmsg : encode_message prog =
      u32Bytes prog.number_pool.length ++ (numBytes prog.number_pool ++
        (u32Bytes prog.opcodes.length ++ opsBytes prog.opcodes)) := by
    simp [encode_message, numBytes, opsBytes, List.append_assoc]
  rw [hmsg]
  have hr1 : readU32 (u32Bytes prog.number_pool.length ++ (numBytes prog.number_pool ++
      (u32Bytes prog.opcodes.length ++ opsBytes prog.opcodes))) 0 =
      .ok (prog.number_pool.length, 4) := by
    have := readU32_at [] (numBytes prog.number_pool ++
      (u32Bytes prog.opcodes.length ++ opsBytes prog.opcodes)) prog.number_pool.length hn
    simpa using this
  rw [hr1, exc_bind_ok]
  dsimp only
  have hr2 : decodeNumbers (u32Bytes prog.number_pool.length ++
      (numBytes prog.number_pool ++ (u32Bytes prog.opcodes.length ++
        opsBytes prog.opcodes))) 4 prog.number_pool.length =
      .ok (prog.number_pool, 4 + (numBytes prog.number_pool).length) := by
    have h4 : (4 : Nat) = (u32Bytes prog.number_pool.length).length := by simp [u32Bytes]
    rw [h4]
    have := decodeNumbers_at prog.number_pool (u32Bytes prog.number_pool.length)
      (u32Bytes prog.opcodes.length ++ opsBytes prog.opcodes)
    rw [List.append_assoc] at this
    exact this
  rw [hr2, exc_bind_ok]
  dsimp only
  have hr3 : readU32 (u32Bytes prog.number_pool.length ++ (numBytes prog.number_pool ++
      (u32Bytes prog.opcodes.length ++ opsBytes prog.opcodes)))
      (4 + (numBytes prog.number_pool).length) =
      .ok (prog.opcodes.length, 4 + (numBytes prog.number_pool).length + 4) := by
    have hpre : 4 + (numBytes prog.number_pool).length =
        (u32Bytes prog.number_pool.length ++ numBytes prog.number_pool).length := by
      simp [u32Bytes]
      omega
    rw [hpre]
    have heq : u32Bytes prog.number_pool.length ++ (numBytes prog.number_pool ++
        (u32Bytes prog.opcodes.length ++ opsBytes prog.opcodes)) =
        (u32Bytes prog.number_pool.length ++ numBytes prog.number_pool) ++
          u32Bytes prog.opcodes.length ++ opsBytes prog.opcodes := by
      simp [List.append_assoc]
    rw [heq]
    exact readU32_at (u32Bytes prog.number_pool.length ++ numBytes prog.number_pool)
      (opsBytes prog.opcodes) prog.opcodes.length ho
  rw [hr3, exc_bind_ok]
  dsimp only
  have hr4 : decodeOpcodes (u32Bytes prog.number_pool.length ++
      (numBytes prog.number_pool ++ (u32Bytes prog.opcodes.length ++
        opsBytes prog.opcodes))) (4 + (numBytes prog.number_pool).length + 4)
      prog.opcodes.length =
      .ok (prog.opcodes, 4 + (numBytes prog.number_pool).length + 4 +
        (opsBytes prog.opcodes).length) := by
    have hpre : 4 + (numBytes prog.number_pool).length + 4 =
        (u32Bytes prog.number_pool.length ++ numBytes prog.number_pool ++
          u32Bytes prog.opcodes.length).length := by
      simp [u32Bytes]
      omega
    rw [hpre]
    have heq : u32Bytes prog.number_pool.length ++ (numBytes prog.number_pool ++
        (u32Bytes prog.opcodes.length ++ opsBytes prog.opcodes)) =
        (u32Bytes prog.number_pool.length ++ numBytes prog.number_pool ++
          u32Bytes prog.opcodes.length) ++ opsBytes prog.opcodes ++ [] := by
      simp [List.append_assoc]
    rw [heq]
    have := decodeOpcodes_at prog.opcodes hops (u32Bytes prog.number_pool.length ++
      numBytes prog.number_pool ++ u32Bytes prog.opcodes.length) []
    convert this using 2
  rw [hr4, exc_bind_ok]

/-- Key bytes of encodeCaseEntry. -/
def caseKeyBytes : CaseKey → List Nat
  | .string sidx => 0 :: u32Bytes sidx
  | .exact value => 1 :: u32Bytes value
  | .category cat => [2, encode_category cat]
  | .other => [3]

theorem encodeCaseEntry_split (e : CaseEntry) :
    encodeCaseEntry e = caseKeyBytes e.key ++ u32Bytes e.target := by
  cases hk : e.key <;> simp [encodeCaseEntry, caseKeyBytes, hk]

/-- Operand bounds for a case key. -/
def caseKeyEncOK : CaseKey → Prop
  | .string sidx => sidx < 4294967296
  | .exact value => value < 4294967296
  | _ => True

instance (k : CaseKey) : Decidable (caseKeyEncOK k) := by
  cases k <;> (simp only [caseKeyEncOK]; infer_instance)

theorem decodeCaseKey_at (key : CaseKey) (h : caseKeyEncOK key) :
    ∀ pre rest : List Nat,
      decodeCaseKey (pre ++ caseKeyBytes key ++ rest) pre.length =
        .ok (key, pre.length + (caseKeyBytes key).length) := by
  intro pre rest
  cases key with
  | string sidx =>
      have hbytes : pre ++ caseKeyBytes (.string sidx) ++ rest =
          pre ++ [0] ++ (u32Bytes sidx ++ rest) := by
        simp [caseKeyBytes, List.append_assoc]
      rw [hbytes]
      simp only [decodeCaseKey]
      rw [readU8_at pre _ 0, exc_bind_ok]
      dsimp only
      have h1 : pre.length + 1 = (pre ++ [0]).length := by simp
      rw [h1, regroup3 (pre ++ [0]) (u32Bytes sidx) rest,
        readU32_at (pre ++ [0]) rest sidx h, exc_bind_ok]
      simp [caseKeyBytes, u32Bytes]
      try omega
  | exact value =>
      have hbytes : pre ++ caseKeyBytes (.exact value) ++ rest =
          pre ++ [1] ++ (u32Bytes value ++ rest) := by
        simp [caseKeyBytes, List.append_assoc]
      rw [hbytes]
      simp only [decodeCaseKey]
      rw [readU8_at pre _ 1, exc_bind_ok]
      dsimp only
      have h1 : pre.length + 1 = (pre ++ [1]).length := by simp
      rw [h1, regroup3 (pre ++ [1]) (u32Bytes value) rest,
        readU32_at (pre ++ [1]) rest value h, exc_bind_ok]
      simp [caseKeyBytes, u32Bytes]
      try omega
  | category cat =>
      have hbytes : pre ++ caseKeyBytes (.category cat) ++ rest =
          pre ++ [2] ++ ([encode_category cat] ++ rest) := by
        simp [caseKeyBytes, List.append_assoc]
      rw [hbytes]
      simp only [decodeCaseKey]
      rw [readU8_at pre _ 2, exc_bind_ok]
      dsimp only
      have h1 : pre.length + 1 = (pre ++ [2]).length := by simp
      rw [h1, regroup3 (pre ++ [2]) [encode_category cat] rest,
        readU8_at (pre ++ [2]) rest (encode_category cat), exc_bind_ok]
      cases cat <;> (simp [caseKeyBytes, encode_category]; try omega)
  | other =>
      have hbytes : pre ++ caseKeyBytes .other ++ rest = pre ++ [3] ++ rest := rfl
      rw [hbytes]
      simp only [decodeCaseKey]
      rw [readU8_at pre _ 3, exc_bind_ok]
      rfl

/-- Bytes of the entries of one case table. -/
def caseEntriesBytes (l : List CaseEntry) : List Nat :=
  (l.map encodeCaseEntry).flatten

/-- Operand bounds for one case entry. -/
def caseEntryEncOK (e : CaseEntry) : Prop :=
  caseKeyEncOK e.key ∧ e.target < 4294967296

theorem decodeCaseEntries_at (l : List CaseEntry) (h : ∀ e ∈ l, caseEntryEncOK e) :
    ∀ pre rest : List Nat,
      decodeCaseEntries (pre ++ caseEntriesBytes l ++ rest) pre.length l.length =
        .ok (l, pre.length + (caseEntriesBytes l).length) := by
  induction l with
  | nil =>
      intro pre rest
      simp only [caseEntriesBytes, List.map_nil, List.flatten_nil, List.length_nil,
        List.append_nil, Nat.add_zero]
      rfl
  | cons e t ih =>
      intro pre rest
      obtain ⟨hkey, htgt⟩ := h e (List.mem_cons_self e t)
      have hbytes : pre ++ caseEntriesBytes (e :: t) ++ rest =
          pre ++ caseKeyBytes e.key ++ (u32Bytes e.target ++
            (caseEntriesBytes t ++ rest)) := by
        simp [caseEntriesBytes, encodeCaseEntry_split, List.append_assoc]
      rw [hbytes]
      show decodeCaseEntries _ pre.length (t.length + 1) = _
      simp only [decodeCaseEntries]
      rw [decodeCaseKey_at e.key hkey pre _, exc_bind_ok]
      dsimp only
      have h1 : pre.length + (caseKeyBytes e.key).length =
          (pre ++ caseKeyBytes e.key).length := by simp
      rw [h1, regroup3 (pre ++ caseKeyBytes e.key) (u32Bytes e.target)
        (caseEntriesBytes t ++ rest),
        readU32_at (pre ++ caseKeyBytes e.key) _ e.target htgt, exc_bind_ok]
      dsimp only
      have hrec : decodeCaseEntries (pre ++ caseKeyBytes e.key ++ u32Bytes e.target ++
          (caseEntriesBytes t ++ rest)) ((pre ++ caseKeyBytes e.key).length + 4)
          t.length = .ok (t, (pre ++ caseKeyBytes e.key).length + 4 +
            (caseEntriesBytes t).length) := by
        have hpre : (pre ++ caseKeyBytes e.key).length + 4 =
            (pre ++ caseKeyBytes e.key ++ u32Bytes e.target).length := by
          simp [u32Bytes]
          omega
        rw [hpre, regroup3 (pre ++ caseKeyBytes e.key ++ u32Bytes e.target)
          (caseEntriesBytes t) rest,
          ih (fun w hw => h w (List.mem_cons_of_mem e hw))]
      rw [hrec]
      simp only [Bind.bind, Except.bind]
      simp only [Except.ok.injEq, Prod.mk.injEq]
      refine ⟨trivial, ?_⟩
      simp [caseEntriesBytes, encodeCaseEntry_split, u32Bytes]
      try omega

/-- Bytes of a case-table list after the count prefix. -/
def caseTablesBytes (tables : List CaseTable) : List Nat :=
  (tables.map fun table =>
    u32Bytes table.entries.length ++ (table.entries.map encodeCaseEntry).flatten).flatten

theorem encode_case_tables_split (tables : List CaseTable) :
    encode_case_tables tables = u32Bytes tables.length ++ caseTablesBytes tables := rfl

/-- Operand bounds for one case table. -/
def caseTableEncOK (t : CaseTable) : Prop :=
  t.entries.length < 4294967296 ∧ ∀ e ∈ t.entries, caseEntryEncOK e

theorem decodeCaseTablesLoop_at (tables : List CaseTable)
    (h : ∀ t ∈ tables, caseTableEncOK t) :
    ∀ pre rest : List Nat,
      decodeCaseTablesLoop (pre ++ caseTablesBytes tables ++ rest) pre.length
        tables.length =
        .ok (tables, pre.length + (caseTablesBytes tables).length) := by
  induction tables with
  | nil =>
      intro pre rest
      simp only [caseTablesBytes, List.map_nil, List.flatten_nil, List.length_nil,
        List.append_nil, Nat.add_zero]
      rfl
  | cons tb t ih =>
      intro pre rest
      obtain ⟨hcnt, hent⟩ := h tb (List.mem_cons_self tb t)
      have hbytes : pre ++ caseTablesBytes (tb :: t) ++ rest =
          pre ++ u32Bytes tb.entries.length ++ (caseEntriesBytes tb.entries ++
            (caseTablesBytes t ++ rest)) := by
        simp [caseTablesBytes, caseEntriesBytes, List.append_assoc]
      rw [hbytes]
      show decodeCaseTablesLoop _ pre.length (t.length + 1) = _
      simp only [decodeCaseTablesLoop]
      rw [readU32_at pre _ tb.entries.length hcnt, exc_bind_ok]
      dsimp only
      have h1 : pre.length + 4 = (pre ++ u32Bytes tb.entries.length).length := by
        simp [u32Bytes]
      rw [h1, regroup3 (pre ++ u32Bytes tb.entries.length)
        (caseEntriesBytes tb.entries) (caseTablesBytes t ++ rest),
        decodeCaseEntries_at tb.entries hent (pre ++ u32Bytes tb.entries.length) _,
        exc_bind_ok]
      dsimp only
      have hrec : decodeCaseTablesLoop (pre ++ u32Bytes tb.entries.length ++
          caseEntriesBytes tb.entries ++ (caseTablesBytes t ++ rest))
          ((pre ++ u32Bytes tb.entries.length).length +
            (caseEntriesBytes tb.entries).length) t.length =
          .ok (t, (pre ++ u32Bytes tb.entries.length).length +
            (caseEntriesBytes tb.entries).length + (caseTablesBytes t).length) := by
        have hpre : (pre ++ u32Bytes tb.entries.length).length +
            (caseEntriesBytes tb.entries).length =
            (pre ++ u32Bytes tb.entries.length ++ caseEntriesBytes tb.entries).length := by
          simp
          omega
        rw [hpre, regroup3 (pre ++ u32Bytes tb.entries.length ++
          caseEntriesBytes tb.entries) (caseTablesBytes t) rest,
          ih (fun w hw => h w (List.mem_cons_of_mem tb hw))]
      rw [hrec]
      simp only [Bind.bind, Except.bind]
      simp only [Except.ok.injEq, Prod.mk.injEq]
      refine ⟨trivial, ?_⟩
      simp [caseTablesBytes, caseEntriesBytes, u32Bytes]
      try omega

theorem decode_case_tables_roundtrip (tables : List CaseTable)
    (hc : tables.length < 4294967296)
    (h : ∀ t ∈ tables, caseTableEncOK t) :
    decode_case_tables (encode_case_tables tables) = .ok tables := by
  unfold decode_case_tables
  rw [encode_case_tables_split]
  have hr : readU32 (u32Bytes tables.length ++ caseTablesBytes tables) 0 =
      .ok (tables.length, 4) := by
    have := readU32_at [] (caseTablesBytes tables) tables.length hc
    simpa using this
  rw [hr, exc_bind_ok]
  dsimp only
  have hd : decodeCaseTablesLoop (u32Bytes tables.length ++ caseTablesBytes tables) 4
      tables.length = .ok (tables, 4 + (caseTablesBytes tables).length) := by
    have h4 : (4 : Nat) = (u32Bytes tables.length).length := by simp [u32Bytes]
    rw [h4]
    have := decodeCaseTablesLoop_at tables h (u32Bytes tables.length) []
    simpa using this
  rw [hd, exc_bind_ok]

theorem find_string_spec (v : String) : ∀ pool : List String, v ∈ pool →
    pool.get? (find_string pool v) = some v ∧ find_string pool v < pool.length := by
  intro pool
  induction pool with
  | nil => intro h; exact absurd h (List.not_mem_nil v)
  | cons a t ih =>
      intro h
      by_cases ha : a = v
      · have h0 : find_string (a :: t) v = 0 := by
          unfold find_string
          rw [List.findIdx?_cons]
          simp [ha]
        rw [h0]
        exact ⟨by simp [ha], by simp⟩
      · have hv : v ∈ t := by
          rcases List.mem_cons.mp h with h1 | h1
          · exact absurd h1.symm ha
          · exact h1
        rcases hsome : t.findIdx? (fun entry => entry = v) with _ | j
        · exfalso
          have hnone := List.findIdx?_eq_none_iff.mp hsome
          have := hnone v hv
          simp at this
        · have hstep : find_string (a :: t) v = j + 1 := by
            unfold find_string
            rw [List.findIdx?_cons, List.findIdx?_succ, hsome]
            simp [ha]
          have hbase : find_string t v = j := by
            unfold find_string
            rw [hsome]
          obtain ⟨hg, hl⟩ := ih hv
          rw [hbase] at hg hl
          rw [hstep]
          exact ⟨by simpa using hg, by simp; omega⟩

theorem mapGet_mapInsert_self {α : Type} (m : List (Nat × α)) (k : Nat) (v : α) :
    mapGet (mapInsert m k v) k = some v := by
  induction m with
  | nil => simp [mapInsert, mapGet]
  | cons p t ih =>
      by_cases hp : p.1 = k
      · have : mapInsert (p :: t) k v = mapInsert t k v := by
          simp [mapInsert, List.filter_cons, hp]
        rw [this, ih]
      · have h1 : mapInsert (p :: t) k v = p :: mapInsert t k v := by
          simp [mapInsert, List.filter_cons, hp]
        rw [h1]
        have h2 : mapGet (p :: mapInsert t k v) k = mapGet (mapInsert t k v) k := by
          simp [mapGet, List.find?, hp]
        rw [h2, ih]

theorem mapGet_mapInsert_ne {α : Type} (m : List (Nat × α)) (k k2 : Nat) (v : α)
    (h : k2 ≠ k) : mapGet (mapInsert m k v) k2 = mapGet m k2 := by
  induction m with
  | nil =>
      simp [mapInsert, mapGet, List.find?, Ne.symm h]
  | cons p t ih =>
      by_cases hp : p.1 = k
      · have h1 : mapInsert (p :: t) k v = mapInsert t k v := by
          simp [mapInsert, List.filter_cons, hp]
        have h2 : mapGet (p :: t) k2 = mapGet t k2 := by
          simp [mapGet, List.find?, show ¬(p.1 = k2) from fun hc => h (hc ▸ hp ▸ rfl)]
        rw [h1, h2, ih]
      · have h1 : mapInsert (p :: t) k v = p :: mapInsert t k v := by
          simp [mapInsert, List.filter_cons, hp]
        rw [h1]
        by_cases hq : p.1 = k2
        · simp [mapGet, List.find?, hq]
        · have h2 : mapGet (p :: mapInsert t k v) k2 = mapGet (mapInsert t k v) k2 := by
            simp [mapGet, List.find?, hq]
          have h3 : mapGet (p :: t) k2 = mapGet t k2 := by
            simp [mapGet, List.find?, hq]
          rw [h2, h3, ih]

theorem mapGet_foldl_insert_nmem {α β : Type} (g : β → Nat) (fv : β → α) :
    ∀ (l : List β) (acc : List (Nat × α)) (k : Nat), k ∉ l.map g →
      mapGet (l.foldl (fun a b => mapInsert a (g b) (fv b)) acc) k = mapGet acc k := by
  intro l
  induction l with
  | nil => intro acc k _; rfl
  | cons c t ih =>
      intro acc k h
      simp only [List.map_cons, List.mem_cons, not_or] at h
      rw [List.foldl_cons, ih _ k h.2]
      exact mapGet_mapInsert_ne acc (g c) k (fv c) h.1

theorem mapGet_foldl_insert_mem {α β : Type} (g : β → Nat) (fv : β → α) :
    ∀ (l : List β) (acc : List (Nat × α)) (b : β), b ∈ l → (l.map g).Nodup →
      mapGet (l.foldl (fun a b => mapInsert a (g b) (fv b)) acc) (g b) = some (fv b) := by
  intro l
  induction l with
  | nil => intro acc b h _; exact absurd h (List.not_mem_nil b)
  | cons c t ih =>
      intro acc b hb hnd
      simp only [List.map_cons, List.nodup_cons] at hnd
      rw [List.foldl_cons]
      rcases List.mem_cons.mp hb with heq | hbt
      · subst heq
        rw [mapGet_foldl_insert_nmem g fv t _ (g b) hnd.1]
        exact mapGet_mapInsert_self acc (g b) (fv b)
      · exact ih _ b hbt hnd.2

/-- Bytes of one message's argument names inside the meta section. -/
def metaArgsBytes (pool : List String) (args : List String) : List Nat :=
  (args.map fun arg => u32Bytes (find_string pool arg)).flatten

theorem decodeMetaArgs_at (pool : List String) (hpl : pool.length < 4294967296)
    (args : List String) (h : ∀ a ∈ args, a ∈ pool) :
    ∀ pre rest : List Nat,
      decodeMetaArgs (pre ++ metaArgsBytes pool args ++ rest) pool pre.length
        args.length =
        .ok (args, pre.length + (metaArgsBytes pool args).length) := by
  induction args with
  | nil =>
      intro pre rest
      simp only [metaArgsBytes, List.map_nil, List.flatten_nil, List.length_nil,
        List.append_nil, Nat.add_zero]
      rfl
  | cons a t ih =>
      intro pre rest
      have ha : a ∈ pool := h a (List.mem_cons_self a t)
      obtain ⟨hget, hlt⟩ := find_string_spec a pool ha
      have hbytes : pre ++ metaArgsBytes pool (a :: t) ++ rest =
          pre ++ u32Bytes (find_string pool a) ++ (metaArgsBytes pool t ++ rest) := by
        simp [metaArgsBytes, List.append_assoc]
      rw [hbytes]
      show decodeMetaArgs _ pool pre.length (t.length + 1) = _
      simp only [decodeMetaArgs]
      rw [readU32_at pre _ (find_string pool a) (by omega), exc_bind_ok]
      dsimp only
      rw [hget]
      have hrec : decodeMetaArgs (pre ++ u32Bytes (find_string pool a) ++
          (metaArgsBytes pool t ++ rest)) pool (pre.length + 4) t.length =
          .ok (t, pre.length + 4 + (metaArgsBytes pool t).length) := by
        have hpre : pre.length + 4 = (pre ++ u32Bytes (find_string pool a)).length := by
          simp [u32Bytes]
        rw [hpre, regroup3 (pre ++ u32Bytes (find_string pool a))
          (metaArgsBytes pool t) rest,
          ih (fun w hw => h w (List.mem_cons_of_mem a hw))]
      rw [hrec]
      simp only [Bind.bind, Except.bind]
      simp only [Except.ok.injEq, Prod.mk.injEq]
      refine ⟨trivial, ?_⟩
      simp [metaArgsBytes, u32Bytes]
      try omega

/-- Bytes of one message's meta record. -/
def metaMsgBytes (pool : List String) (p : Nat × BytecodeProgram) : List Nat :=
  u32Bytes p.1 ++ u32Bytes p.2.arg_names.length ++ metaArgsBytes pool p.2.arg_names

/-- Bytes of the meta section after the count prefix. -/
def metaBytes (pool : List String) (messages : List (Nat × BytecodeProgram)) :
    List Nat :=
  (messages.map (metaMsgBytes pool)).flatten

theorem encode_message_meta_split (messages : List (Nat × BytecodeProgram))
    (pool : List String) :
    encode_message_meta messages pool =
      u32Bytes messages.length ++ metaBytes pool messages := rfl

/-- Meta-record bounds for one message. -/
def metaMsgEncOK (pool : List String) (p : Nat × BytecodeProgram) : Prop :=
  p.1 < 4294967296 ∧ p.2.arg_names.length < 4294967296 ∧
    ∀ a ∈ p.2.arg_names, a ∈ pool

theorem decodeMetaLoop_at (pool : List String) (hpl : pool.length < 4294967296)
    (messages : List (Nat × BytecodeProgram))
    (h : ∀ p ∈ messages, metaMsgEncOK pool p) :
    ∀ (pre rest : List Nat) (acc : List (Nat × List String)),
      decodeMetaLoop (pre ++ metaBytes pool messages ++ rest) pool pre.length
        messages.length acc =
        .ok (messages.foldl (fun a p => mapInsert a p.1 p.2.arg_names) acc,
          pre.length + (metaBytes pool messages).length) := by
  induction messages with
  | nil =>
      intro pre rest acc
      simp only [metaBytes, List.map_nil, List.flatten_nil, List.length_nil,
        List.append_nil, Nat.add_zero, List.foldl_nil]
      rfl
  | cons m t ih =>
      intro pre rest acc
      obtain ⟨hid, hcnt, hargs⟩ := h m (List.mem_cons_self m t)
      have hbytes : pre ++ metaBytes pool (m :: t) ++ rest =
          pre ++ u32Bytes m.1 ++ (u32Bytes m.2.arg_names.length ++
            (metaArgsBytes pool m.2.arg_names ++ (metaBytes pool t ++ rest))) := by
        simp [metaBytes, metaMsgBytes, List.append_assoc]
      rw [hbytes]
      show decodeMetaLoop _ pool pre.length (t.length + 1) acc = _
      simp only [decodeMetaLoop]
      rw [readU32_at pre _ m.1 hid, exc_bind_ok]
      dsimp only
      have h1 : pre.length + 4 = (pre ++ u32Bytes m.1).length := by simp [u32Bytes]
      rw [h1, regroup3 (pre ++ u32Bytes m.1) (u32Bytes m.2.arg_names.length)
        (metaArgsBytes pool m.2.arg_names ++ (metaBytes pool t ++ rest)),
        readU32_at (pre ++ u32Bytes m.1) _ m.2.arg_names.length hcnt, exc_bind_ok]
      dsimp only
      have h2 : (pre ++ u32Bytes m.1).length + 4 =
          (pre ++ u32Bytes m.1 ++ u32Bytes m.2.arg_names.length).length := by
        simp [u32Bytes]
      rw [h2, regroup3 (pre ++ u32Bytes m.1 ++ u32Bytes m.2.arg_names.length)
        (metaArgsBytes pool m.2.arg_names) (metaBytes pool t ++ rest),
        decodeMetaArgs_at pool hpl m.2.arg_names hargs
          (pre ++ u32Bytes m.1 ++ u32Bytes m.2.arg_names.length) _, exc_bind_ok]
      dsimp only
      have hrec : decodeMetaLoop (pre ++ u32Bytes m.1 ++ u32Bytes m.2.arg_names.length ++
          metaArgsBytes pool m.2.arg_names ++ (metaBytes pool t ++ rest)) pool
          ((pre ++ u32Bytes m.1 ++ u32Bytes m.2.arg_names.length).length +
            (metaArgsBytes pool m.2.arg_names).length) t.length
          (mapInsert acc m.1 m.2.arg_names) =
          .ok (t.foldl (fun a p => mapInsert a p.1 p.2.arg_names)
              (mapInsert acc m.1 m.2.arg_names),
            (pre ++ u32Bytes m.1 ++ u32Bytes m.2.arg_names.length).length +
              (metaArgsBytes pool m.2.arg_names).length +
              (metaBytes pool t).length) := by
        have hpre : (pre ++ u32Bytes m.1 ++ u32Bytes m.2.arg_names.length).length +
            (metaArgsBytes pool m.2.arg_names).length =
            (pre ++ u32Bytes m.1 ++ u32Bytes m.2.arg_names.length ++
              metaArgsBytes pool m.2.arg_names).length := by
          simp
          omega
        rw [hpre, regroup3 (pre ++ u32Bytes m.1 ++ u32Bytes m.2.arg_names.length ++
          metaArgsBytes pool m.2.arg_names) (metaBytes pool t) rest,
          ih (fun w hw => h w (List.mem_cons_of_mem m hw))]
      rw [hrec]
      simp only [List.foldl_cons]
      simp only [Except.ok.injEq, Prod.mk.injEq]
      refine ⟨trivial, ?_⟩
      simp [metaBytes, metaMsgBytes, u32Bytes]
      try omega

theorem decode_message_meta_roundtrip (pool : List String)
    (messages : List (Nat × BytecodeProgram))
    (hc : messages.length < 4294967296) (hpl : pool.length < 4294967296)
    (h : ∀ p ∈ messages, metaMsgEncOK pool p) :
    decode_message_meta (encode_message_meta messages pool) pool =
      .ok (messages.foldl (fun a p => mapInsert a p.1 p.2.arg_names) []) := by
  unfold decode_message_meta
  rw [encode_message_meta_split]
  have hr : readU32 (u32Bytes messages.length ++ metaBytes pool messages) 0 =
      .ok (messages.length, 4) := by
    have := readU32_at [] (metaBytes pool messages) messages.length hc
    simpa using this
  rw [hr, exc_bind_ok]
  dsimp only
  have hd : decodeMetaLoop (u32Bytes messages.length ++ metaBytes pool messages) pool 4
      messages.length [] =
      .ok (messages.foldl (fun a p => mapInsert a p.1 p.2.arg_names) [],
        4 + (metaBytes pool messages).length) := by
    have h4 : (4 : Nat) = (u32Bytes messages.length).length := by simp [u32Bytes]
    rw [h4]
    have := decodeMetaLoop_at pool hpl messages h (u32Bytes messages.length) [] []
    simpa using this
  rw [hd, exc_bind_ok]

/-- Bytes of a flat u32 list. -/
def u32sBytes (l : List Nat) : List Nat := (l.map u32Bytes).flatten

theorem decodeU32s_at (l : List Nat) (h : ∀ v ∈ l, v < 4294967296) :
    ∀ pre rest : List Nat,
      decodeU32s (pre ++ u32sBytes l ++ rest) pre.length l.length =
        .ok (l, pre.length + (u32sBytes l).length) := by
  induction l with
  | nil =>
      intro pre rest
      simp only [u32sBytes, List.map_nil, List.flatten_nil, List.length_nil,
        List.append_nil, Nat.add_zero]
      rfl
  | cons v t ih =>
      intro pre rest
      have hbytes : pre ++ u32sBytes (v :: t) ++ rest =
          pre ++ u32Bytes v ++ (u32sBytes t ++ rest) := by
        simp [u32sBytes, List.append_assoc]
      rw [hbytes]
      show decodeU32s _ pre.length (t.length + 1) = _
      simp only [decodeU32s]
      rw [readU32_at pre _ v (h v (List.mem_cons_self v t)), exc_bind_ok]
      dsimp only
      have hrec : decodeU32s (pre ++ u32Bytes v ++ (u32sBytes t ++ rest))
          (pre.length + 4) t.length =
          .ok (t, pre.length + 4 + (u32sBytes t).length) := by
        have hpre : pre.length + 4 = (pre ++ u32Bytes v).length := by simp [u32Bytes]
        rw [hpre, regroup3 (pre ++ u32Bytes v) (u32sBytes t) rest,
          ih (fun w hw => h w (List.mem_cons_of_mem v hw))]
      rw [hrec]
      simp only [Bind.bind, Except.bind]
      simp only [Except.ok.injEq, Prod.mk.injEq]
      refine ⟨trivial, ?_⟩
      simp [u32sBytes, u32Bytes]
      try omega

/-- The dense-index slot values written by encode_dense_index. -/
def denseSlots (offsets : List (Nat × Nat)) : List Nat :=
  (List.range ((offsets.map Prod.fst).foldr max 0 + 1)).map
    fun id => (mapGet offsets id).getD u32MAX

theorem encode_dense_index_split (offsets : List (Nat × Nat)) :
    encode_dense_index offsets =
      u32Bytes (denseSlots offsets).length ++ u32sBytes (denseSlots offsets) := by
  simp [encode_dense_index, denseSlots, u32sBytes, List.map_map]
  rfl

theorem mapGet_mem {α : Type} (m : List (Nat × α)) (k : Nat) (v : α)
    (h : mapGet m k = some v) : (k, v) ∈ m := by
  unfold mapGet at h
  cases hf : m.find? fun p => p.1 = k with
  | none => rw [hf] at h; exact Option.noConfusion h
  | some q =>
      rw [hf] at h
      have hq2 : q.2 = v := Option.some.inj h
      have hmem := List.mem_of_find?_eq_some hf
      have hq1 : q.1 = k := by
        have := List.find?_some hf
        simpa using this
      obtain ⟨a, b⟩ := q
      simp only at hq1 hq2
      subst hq1
      subst hq2
      exact hmem

theorem le_foldr_max (a : Nat) : ∀ l : List Nat, a ∈ l → a ≤ l.foldr max 0 := by
  intro l
  induction l with
  | nil => intro h; exact absurd h (List.not_mem_nil a)
  | cons b t ih =>
      intro h
      rcases List.mem_cons.mp h with heq | ht
      · subst heq
        exact le_max_left _ _
      · exact le_trans (ih ht) (le_max_right _ _)

theorem denseSlots_get (offsets : List (Nat × Nat)) (id : Nat)
    (h : id < (offsets.map Prod.fst).foldr max 0 + 1) :
    (denseSlots offsets).get? id = some ((mapGet offsets id).getD u32MAX) := by
  unfold denseSlots
  rw [List.get?_map, List.get?_range h]
  rfl

theorem decode_dense_index_roundtrip (offsets : List (Nat × Nat))
    (hc : (offsets.map Prod.fst).foldr max 0 + 1 < 4294967296)
    (hv : ∀ p ∈ offsets, p.2 < u32MAX) :
    decode_dense_index (encode_dense_index offsets) = .ok (denseSlots offsets) := by
  have hvals : ∀ v ∈ denseSlots offsets, v < 4294967296 := by
    intro v hvm
    simp only [denseSlots, List.mem_map] at hvm
    obtain ⟨id, _, hveq⟩ := hvm
    cases hg : mapGet offsets id with
    | none =>
        rw [hg] at hveq
        simp only [Option.getD_none] at hveq
        rw [← hveq]
        simp [u32MAX]
    | some off =>
        rw [hg] at hveq
        simp only [Option.getD_some] at hveq
        have hmem := mapGet_mem offsets id off hg
        have := hv (id, off) hmem
        simp only [u32MAX] at this
        omega
  have hlen : (denseSlots offsets).length < 4294967296 := by
    simp [denseSlots]
    omega
  unfold decode_dense_index
  rw [encode_dense_index_split]
  have hr : readU32 (u32Bytes (denseSlots offsets).length ++
      u32sBytes (denseSlots offsets)) 0 =
      .ok ((denseSlots offsets).length, 4) := by
    have := readU32_at [] (u32sBytes (denseSlots offsets))
      (denseSlots offsets).length hlen
    simpa using this
  rw [hr, exc_bind_ok]
  dsimp only
  have hd : decodeU32s (u32Bytes (denseSlots offsets).length ++
      u32sBytes (denseSlots offsets)) 4 (denseSlots offsets).length =
      .ok (denseSlots offsets, 4 + (u32sBytes (denseSlots offsets)).length) := by
    have h4 : (4 : Nat) = (u32Bytes (denseSlots offsets).length).length := by
      simp [u32Bytes]
    rw [h4]
    have := decodeU32s_at (denseSlots offsets) hvals
      (u32Bytes (denseSlots offsets).length) []
    simpa using this
  rw [hd, exc_bind_ok]

theorem dense_pairs_mem (offsets : List (Nat × Nat))
    (hv : ∀ p ∈ offsets, p.2 < u32MAX) (id off : Nat) :
    ((id, off) ∈ (denseSlots offsets).enum.filter fun p => p.2 ≠ u32MAX) ↔
      mapGet offsets id = some off := by
  constructor
  · intro h
    have hmem := (List.mem_filter.mp h).1
    have hne : off ≠ u32MAX := by
      have := (List.mem_filter.mp h).2
      simpa using this
    have hget : (denseSlots offsets).get? id = some off := by
      have := List.mem_enum_iff_getElem?.mp hmem
      rw [List.get?_eq_getElem?]
      exact this
    have hid : id < (offsets.map Prod.fst).foldr max 0 + 1 := by
      by_contra hge
      push_neg at hge
      have hnone : (denseSlots offsets).get? id = none := by
        rw [List.get?_eq_none]
        simpa [denseSlots] using hge
      rw [hnone] at hget
      exact Option.noConfusion hget
    rw [denseSlots_get offsets id hid] at hget
    have hoff := Option.some.inj hget
    cases hg : mapGet offsets id with
    | none => rw [hg] at hoff; simp at hoff; exact absurd hoff.symm hne
    | some o =>
        rw [hg] at hoff
        simp at hoff
        rw [hoff]
  · intro h
    have hmem := mapGet_mem offsets id off h
    have hid : id < (offsets.map Prod.fst).foldr max 0 + 1 := by
      have : id ∈ offsets.map Prod.fst := by
        exact List.mem_map.mpr ⟨(id, off), hmem, rfl⟩
      have := le_foldr_max id (offsets.map Prod.fst) this
      omega
    have hget : (denseSlots offsets).get? id = some off := by
      rw [denseSlots_get offsets id hid, h]
      rfl
    apply List.mem_filter.mpr
    constructor
    · apply List.mem_enum_iff_getElem?.mpr
      rw [← List.get?_eq_getElem?]
      exact hget
    · have := hv (id, off) hmem
      simp only [u32MAX] at this ⊢
      simp
      omega

theorem dense_pairs_nodup (offsets : List (Nat × Nat)) :
    ((((denseSlots offsets).enum.filter fun p => p.2 ≠ u32MAX)).map Prod.fst).Nodup := by
  have hsub : (((denseSlots offsets).enum.filter fun p => p.2 ≠ u32MAX)).map
      Prod.fst |>.Sublist ((denseSlots offsets).enum.map Prod.fst) :=
    List.Sublist.map _ (List.filter_sublist _)
  rw [List.enum_map_fst] at hsub
  exact List.Nodup.sublist hsub (List.nodup_range _)

/-- Bytes of the sparse-index pairs after the count prefix. -/
def sparsePairBytes (offsets : List (Nat × Nat)) : List Nat :=
  (offsets.map fun p => u32Bytes p.1 ++ u32Bytes p.2).flatten

theorem encode_sparse_index_split (offsets : List (Nat × Nat)) :
    encode_sparse_index offsets =
      u32Bytes offsets.length ++ sparsePairBytes offsets := rfl

theorem decodePairs_at (l : List (Nat × Nat))
    (h : ∀ p ∈ l, p.1 < 4294967296 ∧ p.2 < 4294967296) :
    ∀ pre rest : List Nat,
      decodePairs (pre ++ sparsePairBytes l ++ rest) pre.length l.length =
        .ok (l, pre.length + (sparsePairBytes l).length) := by
  induction l with
  | nil =>
      intro pre rest
      simp only [sparsePairBytes, List.map_nil, List.flatten_nil, List.length_nil,
        List.append_nil, Nat.add_zero]
      rfl
  | cons q t ih =>
      intro pre rest
      obtain ⟨h1q, h2q⟩ := h q (List.mem_cons_self q t)
      have hbytes : pre ++ sparsePairBytes (q :: t) ++ rest =
          pre ++ u32Bytes q.1 ++ (u32Bytes q.2 ++ (sparsePairBytes t ++ rest)) := by
        simp [sparsePairBytes, List.append_assoc]
      rw [hbytes]
      show decodePairs _ pre.length (t.length + 1) = _
      simp only [decodePairs]
      rw [readU32_at pre _ q.1 h1q, exc_bind_ok]
      dsimp only
      have hc1 : pre.length + 4 = (pre ++ u32Bytes q.1).length := by simp [u32Bytes]
      rw [hc1, regroup3 (pre ++ u32Bytes q.1) (u32Bytes q.2)
        (sparsePairBytes t ++ rest),
        readU32_at (pre ++ u32Bytes q.1) _ q.2 h2q, exc_bind_ok]
      dsimp only
      have hrec : decodePairs (pre ++ u32Bytes q.1 ++ u32Bytes q.2 ++
          (sparsePairBytes t ++ rest)) ((pre ++ u32Bytes q.1).length + 4) t.length =
          .ok (t, (pre ++ u32Bytes q.1).length + 4 + (sparsePairBytes t).length) := by
        have hpre : (pre ++ u32Bytes q.1).length + 4 =
            (pre ++ u32Bytes q.1 ++ u32Bytes q.2).length := by
          simp [u32Bytes]
        rw [hpre, regroup3 (pre ++ u32Bytes q.1 ++ u32Bytes q.2)
          (sparsePairBytes t) rest,
          ih (fun w hw => h w (List.mem_cons_of_mem q hw))]
      rw [hrec]
      simp only [Bind.bind, Except.bind]
      simp only [Except.ok.injEq, Prod.mk.injEq]
      refine ⟨trivial, ?_⟩
      simp [sparsePairBytes, u32Bytes]
      try omega

theorem decode_sparse_index_roundtrip (offsets : List (Nat × Nat))
    (hc : offsets.length < 4294967296)
    (h : ∀ p ∈ offsets, p.1 < 4294967296 ∧ p.2 < 4294967296) :
    decode_sparse_index (encode_sparse_index offsets) = .ok offsets := by
  unfold decode_sparse_index
  rw [encode_sparse_index_split]
  have hr : readU32 (u32Bytes offsets.length ++ sparsePairBytes offsets) 0 =
      .ok (offsets.length, 4) := by
    have := readU32_at [] (sparsePairBytes offsets) offsets.length hc
    simpa using this
  rw [hr, exc_bind_ok]
  dsimp only
  have hd : decodePairs (u32Bytes offsets.length ++ sparsePairBytes offsets) 4
      offsets.length = .ok (offsets, 4 + (sparsePairBytes offsets).length) := by
    have h4 : (4 : Nat) = (u32Bytes offsets.length).length := by simp [u32Bytes]
    rw [h4]
    have := decodePairs_at offsets h (u32Bytes offsets.length) []
    simpa using this
  rw [hd, exc_bind_ok]

theorem read_bytecode_at_chunk (pre body rest : List Nat)
    (h : body.length < 4294967296) :
    read_bytecode_at (pre ++ (u32Bytes body.length ++ body) ++ rest) pre.length =
      .ok body := by
  unfold read_bytecode_at
  rw [if_pos (by simp [u32Bytes]; try omega)]
  have hb : pre ++ (u32Bytes body.length ++ body) ++ rest =
      pre ++ u32Bytes body.length ++ (body ++ rest) := by
    simp [List.append_assoc]
  rw [hb, readU32_at pre (body ++ rest) body.length h]
  dsimp only
  rw [if_pos (by simp [u32Bytes]; try omega)]
  have hslice : ((pre ++ u32Bytes body.length ++ (body ++ rest)).drop
      (pre.length + 4)).take body.length = body := by
    have h4 : pre.length + 4 = (pre ++ u32Bytes body.length).length := by
      simp [u32Bytes]
    rw [h4, regroup3 (pre ++ u32Bytes body.length) body rest, slice_middle]
  rw [hslice]

theorem encodeBlobLoop_spec (msgs : List (Nat × BytecodeProgram))
    (h : ∀ p ∈ msgs, (encode_message p.2).length < 4294967296) :
    ∀ (pre extra full : List Nat),
      full = pre ++ (encodeBlobLoop msgs pre.length).1 ++ extra →
      List.Forall₂ (fun (m : Nat × BytecodeProgram) (o : Nat × Nat) =>
        o.1 = m.1 ∧ read_bytecode_at full o.2 = .ok (encode_message m.2)) msgs
        (encodeBlobLoop msgs pre.length).2 := by
  induction msgs with
  | nil =>
      intro pre extra full _
      exact List.Forall₂.nil
  | cons m t ih =>
      intro pre extra full hfull
      obtain ⟨id, prog⟩ := m
      have hm := h (id, prog) (List.mem_cons_self _ t)
      simp only [encodeBlobLoop] at hfull ⊢
      rcases hrec : encodeBlobLoop t (pre.length +
          (u32Bytes (encode_message prog).length ++ encode_message prog).length)
        with ⟨blob2, offs2⟩
      rw [hrec] at hfull
      dsimp only at hfull ⊢
      apply List.Forall₂.cons
      · refine ⟨rfl, ?_⟩
        rw [hfull]
        have heq : pre ++ (u32Bytes (encode_message prog).length ++
            encode_message prog ++ blob2) ++ extra =
            pre ++ (u32Bytes (encode_message prog).length ++ encode_message prog) ++
              (blob2 ++ extra) := by
          simp [List.append_assoc]
        rw [heq]
        exact read_bytecode_at_chunk pre (encode_message prog) (blob2 ++ extra) hm
      · have hcur : pre.length + (u32Bytes (encode_message prog).length ++
            encode_message prog).length =
            (pre ++ (u32Bytes (encode_message prog).length ++
              encode_message prog)).length := by
          simp
        rw [hcur] at hrec
        have := ih (fun w hw => h w (List.mem_cons_of_mem _ hw))
          (pre ++ (u32Bytes (encode_message prog).length ++ encode_message prog))
          extra full ?hfull2
        · rw [hrec] at this
          exact this
        · rw [hrec]
          dsimp only
          rw [hfull]
          simp [List.append_assoc]

theorem mapGet_of_mem_nodup {α : Type} :
    ∀ (m : List (Nat × α)) (k : Nat) (v : α), (k, v) ∈ m →
      (m.map Prod.fst).Nodup → mapGet m k = some v := by
  intro m
  induction m with
  | nil => intro k v h _; exact absurd h (List.not_mem_nil _)
  | cons p t ih =>
      intro k v h hnd
      simp only [List.map_cons, List.nodup_cons] at hnd
      rcases List.mem_cons.mp h with heq | ht
      · subst heq
        simp [mapGet, List.find?]
      · have hne : p.1 ≠ k := by
          intro hc
          exact hnd.1 (List.mem_map.mpr ⟨(k, v), ht, by simp [hc]⟩)
        have : mapGet (p :: t) k = mapGet t k := by
          simp [mapGet, List.find?, hne]
        rw [this]
        exact ih k v ht hnd.2

theorem forall2_mapGet {α β : Type} (P : (Nat × α) → (Nat × β) → Prop) :
    ∀ (ms : List (Nat × α)) (os : List (Nat × β)),
      List.Forall₂ (fun m o => o.1 = m.1 ∧ P m o) ms os →
      ∀ k v, mapGet ms k = some v →
        ∃ w, mapGet os k = some w ∧ P (k, v) (k, w) := by
  intro ms os hf
  induction hf with
  | nil => intro k v h; exact absurd h (by simp [mapGet, List.find?])
  | cons hrel htail ih =>
      intro k v h
      rename_i m o ms2 os2
      by_cases hk : m.1 = k
      · have hv : m.2 = v := by
          have : mapGet (m :: ms2) k = some m.2 := by
            simp [mapGet, List.find?, hk]
          rw [this] at h
          exact Option.some.inj h
        have ho : mapGet (o :: os2) k = some o.2 := by
          simp [mapGet, List.find?, hrel.1.trans hk]
        refine ⟨o.2, ho, ?_⟩
        have hm : m = (k, v) := by
          obtain ⟨a, b⟩ := m
          simp only at hk hv
          rw [hk, hv]
        have hoeq : o = (k, o.2) := by
          obtain ⟨a, b⟩ := o
          have : a = k := hrel.1.trans hk
          simp only [this]
        rw [← hm, ← hoeq]
        exact hrel.2
      · have h1 : mapGet (m :: ms2) k = mapGet ms2 k := by
          simp [mapGet, List.find?, hk]
        have hok : ¬o.1 = k := fun hc => hk (hrel.1.symm.trans hc)
        have h2 : mapGet (o :: os2) k = mapGet os2 k := by
          simp [mapGet, List.find?, hok]
        rw [h1] at h
        rw [h2]
        exact ih k v h

theorem forall2_mapGet_rev {α β : Type} (P : (Nat × α) → (Nat × β) → Prop) :
    ∀ (ms : List (Nat × α)) (os : List (Nat × β)),
      List.Forall₂ (fun m o => o.1 = m.1 ∧ P m o) ms os →
      ∀ k w, mapGet os k = some w →
        ∃ v, mapGet ms k = some v ∧ P (k, v) (k, w) := by
  intro ms os hf
  induction hf with
  | nil => intro k w h; exact absurd h (by simp [mapGet, List.find?])
  | cons hrel htail ih =>
      intro k w h
      rename_i m o ms2 os2
      by_cases hk : o.1 = k
      · have hw : o.2 = w := by
          have : mapGet (o :: os2) k = some o.2 := by
            simp [mapGet, List.find?, hk]
          rw [this] at h
          exact Option.some.inj h
        have hmk : m.1 = k := hrel.1.symm.trans hk
        have hm : mapGet (m :: ms2) k = some m.2 := by
          simp [mapGet, List.find?, hmk]
        refine ⟨m.2, hm, ?_⟩
        have hmeq : m = (k, m.2) := by
          obtain ⟨a, b⟩ := m
          simp only at hmk
          simp only [hmk]
        have hoeq : o = (k, w) := by
          obtain ⟨a, b⟩ := o
          simp only at hk hw
          rw [hk, hw]
        rw [← hmeq, ← hoeq]
        exact hrel.2
      · have h1 : mapGet (o :: os2) k = mapGet os2 k := by
          simp [mapGet, List.find?, hk]
        have hmk2 : ¬m.1 = k := fun hc => hk (hrel.1.trans hc)
        have h2 : mapGet (m :: ms2) k = mapGet ms2 k := by
          simp [mapGet, List.find?, hmk2]
        rw [h1] at h
        rw [h2]
        exact ih k w h

/-- One message of the decode loop: read its blob slice and decode it. -/
def decodeOne (blob : List Nat) (pool : List String) (tables : List CaseTable)
    (meta : List (Nat × List String)) (q : Nat × Nat) : CoreResult BytecodeProgram := do
  let slice ← read_bytecode_at blob q.2
  decode_message slice pool tables ((mapGet meta q.1).getD [])

theorem decodeMessagesLoop_spec (blob : List Nat) (pool : List String)
    (tables : List CaseTable) (meta : List (Nat × List String)) :
    ∀ (pairs : List (Nat × Nat)) (acc : List (Nat × BytecodeProgram)),
      (∀ q ∈ pairs, ∃ prog, decodeOne blob pool tables meta q = .ok prog) →
      ∃ msgs, decodeMessagesLoop blob pool tables meta pairs acc = .ok msgs ∧
        (∀ k, k ∉ pairs.map Prod.fst → mapGet msgs k = mapGet acc k) ∧
        ((pairs.map Prod.fst).Nodup → ∀ q ∈ pairs, ∀ prog,
          decodeOne blob pool tables meta q = .ok prog →
          mapGet msgs q.1 = some prog) := by
  intro pairs
  induction pairs with
  | nil =>
      intro acc _
      exact ⟨acc, rfl, fun k _ => rfl, fun _ q hq => absurd hq (List.not_mem_nil q)⟩
  | cons q rest ih =>
      intro acc h
      obtain ⟨prog, hprog⟩ := h q (List.mem_cons_self q rest)
      have hread : ∃ slice, read_bytecode_at blob q.2 = .ok slice ∧
          decode_message slice pool tables ((mapGet meta q.1).getD []) = .ok prog := by
        unfold decodeOne at hprog
        cases hr : read_bytecode_at blob q.2 with
        | error e =>
            rw [hr] at hprog
            simp [Bind.bind, Except.bind] at hprog
        | ok slice =>
            rw [hr] at hprog
            simp only [Bind.bind, Except.bind] at hprog
            exact ⟨slice, rfl, hprog⟩
      obtain ⟨slice, hr, hd⟩ := hread
      obtain ⟨msgs, hloop, hout, hin⟩ :=
        ih (mapInsert acc q.1 prog) (fun w hw => h w (List.mem_cons_of_mem q hw))
      refine ⟨msgs, ?_, ?_, ?_⟩
      · show decodeMessagesLoop blob pool tables meta ((q.1, q.2) :: rest) acc = .ok msgs
        simp only [decodeMessagesLoop]
        rw [hr, exc_bind_ok]
        rw [hd, exc_bind_ok]
        exact hloop
      · intro k hk
        simp only [List.map_cons, List.mem_cons, not_or] at hk
        rw [hout k hk.2]
        exact mapGet_mapInsert_ne acc q.1 k prog hk.1
      · intro hnd q2 hq2 prog2 hprog2
        simp only [List.map_cons, List.nodup_cons] at hnd
        rcases List.mem_cons.mp hq2 with heq | hq2t
        · subst heq
          have : prog2 = prog := by
            rw [hprog] at hprog2
            exact (Except.ok.inj hprog2).symm
          subst this
          rw [hout q2.1 hnd.1]
          exact mapGet_mapInsert_self acc q2.1 prog2
        · exact hin hnd.2 q2 hq2t prog2 hprog2

/-- One list extends another on the right. -/
def poolExt {α : Type} (l1 l2 : List α) : Prop := ∃ t, l2 = l1 ++ t

theorem poolExt_refl {α : Type} (l : List α) : poolExt l l := ⟨[], by simp⟩

theorem poolExt_trans {α : Type} {a b c : List α} (h1 : poolExt a b)
    (h2 : poolExt b c) : poolExt a c := by
  obtain ⟨t1, rfl⟩ := h1
  obtain ⟨t2, rfl⟩ := h2
  exact ⟨t1 ++ t2, by simp⟩

theorem poolExt_get? {α : Type} {l1 l2 : List α} (h : poolExt l1 l2) (i : Nat)
    (x : α) (hg : l1.get? i = some x) : l2.get? i = some x := by
  obtain ⟨t, rfl⟩ := h
  have hi : i < l1.length := by
    by_contra hge
    rw [List.get?_eq_none.mpr (by omega)] at hg
    exact Option.noConfusion hg
  rw [List.get?_append hi]
  exact hg

theorem poolExt_mem {α : Type} {l1 l2 : List α} (h : poolExt l1 l2) (x : α)
    (hx : x ∈ l1) : x ∈ l2 := by
  obtain ⟨t, rfl⟩ := h
  exact List.mem_append.mpr (Or.inl hx)

/-- Interner invariant: every map entry points at its string in the pool. -/
def ItnInv (itn : StringInterner) : Prop :=
  ∀ p ∈ itn.map, itn.pool.get? p.2 = some p.1

theorem intern_spec (itn : StringInterner) (v : String) (hinv : ItnInv itn) :
    ItnInv (StringInterner.intern itn v).1 ∧
    poolExt itn.pool (StringInterner.intern itn v).1.pool ∧
    (StringInterner.intern itn v).1.pool.get? (StringInterner.intern itn v).2 =
      some v := by
  unfold StringInterner.intern
  cases hf : (itn.map.find? fun p => p.1 = v).map (·.2) with
  | some idx =>
      dsimp only
      refine ⟨hinv, poolExt_refl _, ?_⟩
      cases hq : itn.map.find? fun p => p.1 = v with
      | none => rw [hq] at hf; exact Option.noConfusion hf
      | some q =>
          rw [hq] at hf
          have hidx : q.2 = idx := Option.some.inj hf
          have hqv : q.1 = v := by
            have := List.find?_some hq
            simpa using this
          have := hinv q (List.mem_of_find?_eq_some hq)
          rw [hidx, hqv] at this
          exact this
  | none =>
      dsimp only
      refine ⟨?_, ⟨[v], rfl⟩, List.get?_concat_length _ _⟩
      intro p hp
      rcases List.mem_append.mp hp with hp | hp
      · exact poolExt_get? ⟨[v], rfl⟩ p.2 p.1 (hinv p hp)
      · have : p = (v, itn.pool.length) := List.mem_singleton.mp hp
        rw [this]
        exact List.get?_concat_length _ _

theorem internPool_spec : ∀ (l : List String) (itn : StringInterner), ItnInv itn →
    ItnInv (internPool itn l).1 ∧ poolExt itn.pool (internPool itn l).1.pool ∧
    ∀ i x, l.get? i = some x →
      (internPool itn l).1.pool.get? ((internPool itn l).2.getD i 0) = some x := by
  intro l
  induction l with
  | nil =>
      intro itn hinv
      exact ⟨hinv, poolExt_refl _, fun i x hg => absurd hg (by simp)⟩
  | cons v rest ih =>
      intro itn hinv
      obtain ⟨hinv1, hext1, hget1⟩ := intern_spec itn v hinv
      simp only [internPool]
      rcases h1 : StringInterner.intern itn v with ⟨itn1, idx⟩
      rw [h1] at hinv1 hext1 hget1
      dsimp only at hinv1 hext1 hget1 ⊢
      obtain ⟨hinv2, hext2, hget2⟩ := ih itn1 hinv1
      rcases h2 : internPool itn1 rest with ⟨itn2, mapping⟩
      rw [h2] at hinv2 hext2 hget2
      dsimp only at hinv2 hext2 hget2 ⊢
      refine ⟨hinv2, poolExt_trans hext1 hext2, ?_⟩
      intro i x hg
      cases i with
      | zero =>
          have hx : v = x := by
            simpa using hg
          subst hx
          simp only [List.getD, List.get?, Option.getD_some]
          exact poolExt_get? hext2 idx v hget1
      | succ j =>
          have hg2 : rest.get? j = some x := by simpa using hg
          have : (idx :: mapping).getD (j + 1) 0 = mapping.getD j 0 := rfl
          rw [this]
          exact hget2 j x hg2

theorem internAll_spec : ∀ (l : List String) (itn : StringInterner), ItnInv itn →
    ItnInv (internAll itn l) ∧ poolExt itn.pool (internAll itn l).pool ∧
    ∀ v ∈ l, v ∈ (internAll itn l).pool := by
  intro l
  induction l with
  | nil =>
      intro itn hinv
      exact ⟨hinv, poolExt_refl _, fun v hv => absurd hv (List.not_mem_nil v)⟩
  | cons v rest ih =>
      intro itn hinv
      obtain ⟨hinv1, hext1, hget1⟩ := intern_spec itn v hinv
      simp only [internAll]
      obtain ⟨hinv2, hext2, hmem2⟩ := ih (StringInterner.intern itn v).1 hinv1
      refine ⟨hinv2, poolExt_trans hext1 hext2, ?_⟩
      intro w hw
      rcases List.mem_cons.mp hw with heq | hwr
      · rw [heq]
        exact poolExt_mem hext2 v (List.get?_mem hget1)
      · exact hmem2 w hwr

theorem get?_append_offset {α : Type} (a b : List α) (t : Nat) :
    (a ++ b).get? (a.length + t) = b.get? t := by
  rw [List.get?_append_right (by omega)]
  congr 1
  omega

theorem remap_program_spec (prog : BytecodeProgram) (itn : StringInterner)
    (off : Nat) (hinv : ItnInv itn) :
    ItnInv (remap_program prog itn off).1 ∧
    poolExt itn.pool (remap_program prog itn off).1.pool ∧
    ∃ mapping : List Nat,
      (remap_program prog itn off).2.1 =
        ⟨prog.opcodes.map (remapOpcode mapping off), [], prog.number_pool, [],
          prog.arg_names⟩ ∧
      (remap_program prog itn off).2.2 = prog.case_tables.map (remapTable mapping) ∧
      (∀ i x, prog.string_pool.get? i = some x →
        (remap_program prog itn off).1.pool.get? (mapping.getD i 0) = some x) ∧
      (∀ a ∈ prog.arg_names, a ∈ (remap_program prog itn off).1.pool) := by
  obtain ⟨hinv1, hext1, hget1⟩ := internPool_spec prog.string_pool itn hinv
  unfold remap_program
  rcases h1 : internPool itn prog.string_pool with ⟨itn1, mapping⟩
  rw [h1] at hinv1 hext1 hget1
  dsimp only at hinv1 hext1 hget1 ⊢
  obtain ⟨hinv2, hext2, hmem2⟩ := internAll_spec prog.arg_names itn1 hinv1
  refine ⟨hinv2, poolExt_trans hext1 hext2, mapping, rfl, rfl, ?_, hmem2⟩
  intro i x hg
  exact poolExt_get? hext2 _ x (hget1 i x hg)

theorem remapMessages_spec :
    ∀ (msgs : List (Nat × BytecodeProgram)) (itn : StringInterner)
      (tables : List CaseTable), ItnInv itn →
      ItnInv (remapMessages itn tables msgs).1 ∧
      poolExt itn.pool (remapMessages itn tables msgs).1.pool ∧
      poolExt tables (remapMessages itn tables msgs).2.1 ∧
      List.Forall₂ (fun (m : Nat × BytecodeProgram) (r : Nat × BytecodeProgram) =>
        r.1 = m.1 ∧ ∃ (mapping : List Nat) (off : Nat),
          r.2 = ⟨m.2.opcodes.map (remapOpcode mapping off), [], m.2.number_pool, [],
            m.2.arg_names⟩ ∧
          (∀ i x, m.2.string_pool.get? i = some x →
            (remapMessages itn tables msgs).1.pool.get? (mapping.getD i 0) = some x) ∧
          (∀ t tb, m.2.case_tables.get? t = some tb →
            (remapMessages itn tables msgs).2.1.get? (off + t) =
              some (remapTable mapping tb)) ∧
          (∀ a ∈ m.2.arg_names, a ∈ (remapMessages itn tables msgs).1.pool))
        msgs (remapMessages itn tables msgs).2.2 := by
  intro msgs
  induction msgs with
  | nil =>
      intro itn tables hinv
      exact ⟨hinv, poolExt_refl _, poolExt_refl _, List.Forall₂.nil⟩
  | cons m rest ih =>
      intro itn tables hinv
      obtain ⟨id, p⟩ := m
      obtain ⟨hinv1, hext1, mapping, hrp, hlocal, hget1, hmem1⟩ :=
        remap_program_spec p itn tables.length hinv
      simp only [remapMessages]
      rcases h1 : remap_program p itn tables.length with ⟨itn1, rp, local_tables⟩
      rw [h1] at hinv1 hext1 hrp hlocal hget1 hmem1
      dsimp only at hinv1 hext1 hrp hlocal hget1 hmem1 ⊢
      obtain ⟨hinv2, hext2, htext2, hf2⟩ := ih itn1 (tables ++ local_tables) hinv1
      rcases h2 : remapMessages itn1 (tables ++ local_tables) rest
        with ⟨itn2, tables2, rrest⟩
      rw [h2] at hinv2 hext2 htext2 hf2
      dsimp only at hinv2 hext2 htext2 hf2 ⊢
      refine ⟨hinv2, poolExt_trans hext1 hext2,
        poolExt_trans ⟨local_tables, rfl⟩ htext2, ?_⟩
      apply List.Forall₂.cons
      · refine ⟨rfl, mapping, tables.length, hrp, ?_, ?_, ?_⟩
        · intro i x hg
          exact poolExt_get? hext2 _ x (hget1 i x hg)
        · intro t tb hg
          have hloc : local_tables.get? t = some (remapTable mapping tb) := by
            rw [hlocal, List.get?_map, hg]
            rfl
          have happ : (tables ++ local_tables).get? (tables.length + t) =
              some (remapTable mapping tb) := by
            rw [get?_append_offset]
            exact hloc
          exact poolExt_get? htext2 _ _ happ
        · intro a ha
          exact poolExt_mem hext2 a (hmem1 a ha)
      · exact hf2

theorem parse_pack_header_build_base (hash : List Nat) (lsidx : Nat)
    (psidx : Option Nat) (epoch : Nat) (sections : List (Nat × List Nat))
    (hhash : hash.length = 32) (hls : lsidx < 4294967296)
    (hps : ∀ i, psidx = some i → i < u32MAX)
    (hep : epoch < 18446744073709551616) :
    parse_pack_header (build_pack_bytes PackKind.base hash lsidx psidx epoch
      sections) = .ok (⟨0, PackKind.base, 0, hash, lsidx, psidx, epoch⟩, 63) := by
  rcases hdir : sectionDirectory sections
    ((PACK_MAGIC ++ u16Bytes 0 ++ [packKindByte PackKind.base] ++ u32Bytes 0 ++
      hash ++ u32Bytes lsidx ++ u32Bytes (psidx.getD u32MAX) ++ u64Bytes epoch ++
      u16Bytes sections.length).length + 9 * sections.length) with ⟨dir, body⟩
  have hbytes : build_pack_bytes PackKind.base hash lsidx psidx epoch sections =
      PACK_MAGIC ++ (u16Bytes 0 ++ ([0] ++ (u32Bytes 0 ++ (hash ++
        (u32Bytes lsidx ++ (u32Bytes (psidx.getD u32MAX) ++ (u64Bytes epoch ++
          (u16Bytes sections.length ++ (dir ++ body))))))))) := by
    unfold build_pack_bytes
    dsimp only
    rw [hdir]
    simp [packKindByte, List.append_assoc]
  rw [hbytes]
  unfold parse_pack_header
  rw [if_neg (by simp [PACK_MAGIC, u16Bytes, u32Bytes, u64Bytes, HEADER_LEN, hhash]; omega)]
  rw [if_neg (by
    rw [show (8 : Nat) = PACK_MAGIC.length from rfl, List.take_left]
    simp)]
  have hr1 : readU16 (PACK_MAGIC ++ (u16Bytes 0 ++ ([0] ++ (u32Bytes 0 ++
      (hash ++ (u32Bytes lsidx ++ (u32Bytes (psidx.getD u32MAX) ++ (u64Bytes epoch ++
        (u16Bytes sections.length ++ (dir ++ body)))))))))) 8 = .ok (0, 10) := by
    have := readU16_at PACK_MAGIC (([0] ++ (u32Bytes 0 ++
      (hash ++ (u32Bytes lsidx ++ (u32Bytes (psidx.getD u32MAX) ++ (u64Bytes epoch ++
        (u16Bytes sections.length ++ (dir ++ body))))))))) 0 (by omega)
    exact this
  rw [hr1, exc_bind_ok]
  dsimp only
  have hg : (PACK_MAGIC ++ (u16Bytes 0 ++ ([0] ++ (u32Bytes 0 ++
      (hash ++ (u32Bytes lsidx ++ (u32Bytes (psidx.getD u32MAX) ++ (u64Bytes epoch ++
        (u16Bytes sections.length ++ (dir ++ body)))))))))).get? 10 =
      some 0 := by
    have h10 : (10 : Nat) = (PACK_MAGIC ++ u16Bytes 0).length + 0 := rfl
    rw [h10, regroup3 PACK_MAGIC (u16Bytes 0) _]
    exact get?_middle (PACK_MAGIC ++ u16Bytes 0) [0] _ 0 (by simp)
  rw [hg]
  try dsimp only
  rw [exc_bind_ok]
  try dsimp only
  have hr2 : readU32 (PACK_MAGIC ++ (u16Bytes 0 ++ ([0] ++ (u32Bytes 0 ++
      (hash ++ (u32Bytes lsidx ++ (u32Bytes (psidx.getD u32MAX) ++ (u64Bytes epoch ++
        (u16Bytes sections.length ++ (dir ++ body)))))))))) 11 = .ok (0, 15) := by
    have h11 : (11 : Nat) = (PACK_MAGIC ++ u16Bytes 0 ++ [0]).length := rfl
    rw [h11, regroup3 PACK_MAGIC (u16Bytes 0) _,
      regroup3 (PACK_MAGIC ++ u16Bytes 0) [0] _]
    have := readU32_at (PACK_MAGIC ++ u16Bytes 0 ++ [0]) ((hash ++
      (u32Bytes lsidx ++ (u32Bytes (psidx.getD u32MAX) ++ (u64Bytes epoch ++
        (u16Bytes sections.length ++ (dir ++ body))))))) 0 (by omega)
    exact this
  rw [hr2, exc_bind_ok]
  try dsimp only
  have hslice : (List.take 32 (List.drop 15 (PACK_MAGIC ++ (u16Bytes 0 ++
      ([0] ++ (u32Bytes 0 ++ (hash ++ (u32Bytes lsidx ++
        (u32Bytes (psidx.getD u32MAX) ++ (u64Bytes epoch ++
          (u16Bytes sections.length ++ (dir ++ body)))))))))))) = hash := by
    have h15 : (15 : Nat) = (PACK_MAGIC ++ u16Bytes 0 ++ [0] ++
        u32Bytes 0).length := rfl
    rw [h15, ← hhash, regroup3 PACK_MAGIC (u16Bytes 0) _,
      regroup3 (PACK_MAGIC ++ u16Bytes 0) [0] _,
      regroup3 (PACK_MAGIC ++ u16Bytes 0 ++ [0]) (u32Bytes 0) _]
    exact slice_middle (PACK_MAGIC ++ u16Bytes 0 ++ [0] ++ u32Bytes 0) hash _
  rw [hslice]
  have hr3 : readU32 (PACK_MAGIC ++ (u16Bytes 0 ++ ([0] ++ (u32Bytes 0 ++
      (hash ++ (u32Bytes lsidx ++ (u32Bytes (psidx.getD u32MAX) ++ (u64Bytes epoch ++
        (u16Bytes sections.length ++ (dir ++ body)))))))))) 47 =
      .ok (lsidx, 51) := by
    have h47 : (47 : Nat) = (PACK_MAGIC ++ u16Bytes 0 ++ [0] ++ u32Bytes 0 ++
        hash).length := by
      simp [PACK_MAGIC, u16Bytes, u32Bytes, hhash]
    rw [h47, regroup3 PACK_MAGIC (u16Bytes 0) _,
      regroup3 (PACK_MAGIC ++ u16Bytes 0) [0] _,
      regroup3 (PACK_MAGIC ++ u16Bytes 0 ++ [0]) (u32Bytes 0) _,
      regroup3 (PACK_MAGIC ++ u16Bytes 0 ++ [0] ++ u32Bytes 0) hash _,
      regroup3 (PACK_MAGIC ++ u16Bytes 0 ++ [0] ++ u32Bytes 0 ++ hash)
        (u32Bytes lsidx) _]
    have := readU32_at (PACK_MAGIC ++ u16Bytes 0 ++ [0] ++ u32Bytes 0 ++ hash)
      ((u32Bytes (psidx.getD u32MAX) ++ (u64Bytes epoch ++
        (u16Bytes sections.length ++ (dir ++ body))))) lsidx hls
    have h51 : (PACK_MAGIC ++ u16Bytes 0 ++ [0] ++ u32Bytes 0 ++
        hash).length + 4 = 51 := by
      simp [PACK_MAGIC, u16Bytes, u32Bytes, hhash]
    rw [h51] at this
    exact this
  rw [hr3, exc_bind_ok]
  dsimp only
  have hpraw : psidx.getD u32MAX < 4294967296 := by
    cases psidx with
    | none => simp [u32MAX]
    | some i =>
        have := hps i rfl
        simp only [Option.getD_some]
        simp only [u32MAX] at this
        omega
  have hr4 : readU32 (PACK_MAGIC ++ (u16Bytes 0 ++ ([0] ++ (u32Bytes 0 ++
      (hash ++ (u32Bytes lsidx ++ (u32Bytes (psidx.getD u32MAX) ++ (u64Bytes epoch ++
        (u16Bytes sections.length ++ (dir ++ body)))))))))) 51 =
      .ok (psidx.getD u32MAX, 55) := by
    have h51b : (51 : Nat) = (PACK_MAGIC ++ u16Bytes 0 ++ [0] ++ u32Bytes 0 ++
        hash ++ u32Bytes lsidx).length := by
      simp [PACK_MAGIC, u16Bytes, u32Bytes, hhash]
    rw [h51b, regroup3 PACK_MAGIC (u16Bytes 0) _,
      regroup3 (PACK_MAGIC ++ u16Bytes 0) [0] _,
      regroup3 (PACK_MAGIC ++ u16Bytes 0 ++ [0]) (u32Bytes 0) _,
      regroup3 (PACK_MAGIC ++ u16Bytes 0 ++ [0] ++ u32Bytes 0) hash _,
      regroup3 (PACK_MAGIC ++ u16Bytes 0 ++ [0] ++ u32Bytes 0 ++ hash)
        (u32Bytes lsidx) _,
      regroup3 (PACK_MAGIC ++ u16Bytes 0 ++ [0] ++ u32Bytes 0 ++ hash ++
        u32Bytes lsidx) (u32Bytes (psidx.getD u32MAX)) _]
    have := readU32_at (PACK_MAGIC ++ u16Bytes 0 ++ [0] ++ u32Bytes 0 ++
      hash ++ u32Bytes lsidx) ((u64Bytes epoch ++
        (u16Bytes sections.length ++ (dir ++ body)))) (psidx.getD u32MAX) hpraw
    have h55 : (PACK_MAGIC ++ u16Bytes 0 ++ [0] ++ u32Bytes 0 ++ hash ++
        u32Bytes lsidx).length + 4 = 55 := by
      simp [PACK_MAGIC, u16Bytes, u32Bytes, hhash]
    rw [h55] at this
    exact this
  rw [hr4, exc_bind_ok]
  dsimp only
  have hr5 : readU64 (PACK_MAGIC ++ (u16Bytes 0 ++ ([0] ++ (u32Bytes 0 ++
      (hash ++ (u32Bytes lsidx ++ (u32Bytes (psidx.getD u32MAX) ++ (u64Bytes epoch ++
        (u16Bytes sections.length ++ (dir ++ body)))))))))) 55 =
      .ok (epoch, 63) := by
    have h55b : (55 : Nat) = (PACK_MAGIC ++ u16Bytes 0 ++ [0] ++ u32Bytes 0 ++
        hash ++ u32Bytes lsidx ++ u32Bytes (psidx.getD u32MAX)).length := by
      simp [PACK_MAGIC, u16Bytes, u32Bytes, hhash]
    rw [h55b, regroup3 PACK_MAGIC (u16Bytes 0) _,
      regroup3 (PACK_MAGIC ++ u16Bytes 0) [0] _,
      regroup3 (PACK_MAGIC ++ u16Bytes 0 ++ [0]) (u32Bytes 0) _,
      regroup3 (PACK_MAGIC ++ u16Bytes 0 ++ [0] ++ u32Bytes 0) hash _,
      regroup3 (PACK_MAGIC ++ u16Bytes 0 ++ [0] ++ u32Bytes 0 ++ hash)
        (u32Bytes lsidx) _,
      regroup3 (PACK_MAGIC ++ u16Bytes 0 ++ [0] ++ u32Bytes 0 ++ hash ++
        u32Bytes lsidx) (u32Bytes (psidx.getD u32MAX)) _,
      regroup3 (PACK_MAGIC ++ u16Bytes 0 ++ [0] ++ u32Bytes 0 ++ hash ++
        u32Bytes lsidx ++ u32Bytes (psidx.getD u32MAX)) (u64Bytes epoch) _]
    have := readU64_at (PACK_MAGIC ++ u16Bytes 0 ++ [0] ++ u32Bytes 0 ++
      hash ++ u32Bytes lsidx ++ u32Bytes (psidx.getD u32MAX)) ((u16Bytes
        sections.length ++ (dir ++ body))) epoch hep
    have h63 : (PACK_MAGIC ++ u16Bytes 0 ++ [0] ++ u32Bytes 0 ++ hash ++
        u32Bytes lsidx ++ u32Bytes (psidx.getD u32MAX)).length + 8 = 63 := by
      simp [PACK_MAGIC, u16Bytes, u32Bytes, hhash]
    rw [h63] at this
    exact this
  rw [hr5, exc_bind_ok]
  dsimp only
  simp only [Except.ok.injEq, Prod.mk.injEq, PackHeader.mk.injEq]
  refine ⟨⟨trivial, trivial, trivial, trivial, trivial, ?_, trivial⟩, trivial⟩
  cases psidx with
  | none => simp
  | some i =>
      have := hps i rfl
      rw [if_neg (by simp only [Option.getD_some]; omega)]
      simp

theorem parse_pack_header_build_overlay (hash : List Nat) (lsidx : Nat)
    (psidx : Option Nat) (epoch : Nat) (sections : List (Nat × List Nat))
    (hhash : hash.length = 32) (hls : lsidx < 4294967296)
    (hps : ∀ i, psidx = some i → i < u32MAX)
    (hep : epoch < 18446744073709551616) :
    parse_pack_header (build_pack_bytes PackKind.overlay hash lsidx psidx epoch
      sections) = .ok (⟨0, PackKind.overlay, 0, hash, lsidx, psidx, epoch⟩, 63) := by
  rcases hdir : sectionDirectory sections
    ((PACK_MAGIC ++ u16Bytes 0 ++ [packKindByte PackKind.overlay] ++ u32Bytes 0 ++
      hash ++ u32Bytes lsidx ++ u32Bytes (psidx.getD u32MAX) ++ u64Bytes epoch ++
      u16Bytes sections.length).length + 9 * sections.length) with ⟨dir, body⟩
  have hbytes : build_pack_bytes PackKind.overlay hash lsidx psidx epoch sections =
      PACK_MAGIC ++ (u16Bytes 0 ++ ([1] ++ (u32Bytes 0 ++ (hash ++
        (u32Bytes lsidx ++ (u32Bytes (psidx.getD u32MAX) ++ (u64Bytes epoch ++
          (u16Bytes sections.length ++ (dir ++ body))))))))) := by
    unfold build_pack_bytes
    dsimp only
    rw [hdir]
    simp [packKindByte, List.append_assoc]
  rw [hbytes]
  unfold parse_pack_header
  rw [if_neg (by simp [PACK_MAGIC, u16Bytes, u32Bytes, u64Bytes, HEADER_LEN, hhash]; omega)]
  rw [if_neg (by
    rw [show (8 : Nat) = PACK_MAGIC.length from rfl, List.take_left]
    simp)]
  have hr1 : readU16 (PACK_MAGIC ++ (u16Bytes 0 ++ ([1] ++ (u32Bytes 0 ++
      (hash ++ (u32Bytes lsidx ++ (u32Bytes (psidx.getD u32MAX) ++ (u64Bytes epoch ++
        (u16Bytes sections.length ++ (dir ++ body)))))))))) 8 = .ok (0, 10) := by
    have := readU16_at PACK_MAGIC (([1] ++ (u32Bytes 0 ++
      (hash ++ (u32Bytes lsidx ++ (u32Bytes (psidx.getD u32MAX) ++ (u64Bytes epoch ++
        (u16Bytes sections.length ++ (dir ++ body))))))))) 0 (by omega)
    exact this
  rw [hr1, exc_bind_ok]
  dsimp only
  have hg : (PACK_MAGIC ++ (u16Bytes 0 ++ ([1] ++ (u32Bytes 0 ++
      (hash ++ (u32Bytes lsidx ++ (u32Bytes (psidx.getD u32MAX) ++ (u64Bytes epoch ++
        (u16Bytes sections.length ++ (dir ++ body)))))))))).get? 10 =
      some 1 := by
    have h10 : (10 : Nat) = (PACK_MAGIC ++ u16Bytes 0).length + 0 := rfl
    rw [h10, regroup3 PACK_MAGIC (u16Bytes 0) _]
    exact get?_middle (PACK_MAGIC ++ u16Bytes 0) [1] _ 0 (by simp)
  rw [hg]
  try dsimp only
  rw [exc_bind_ok]
  try dsimp only
  have hr2 : readU32 (PACK_MAGIC ++ (u16Bytes 0 ++ ([1] ++ (u32Bytes 0 ++
      (hash ++ (u32Bytes lsidx ++ (u32Bytes (psidx.getD u32MAX) ++ (u64Bytes epoch ++
        (u16Bytes sections.length ++ (dir ++ body)))))))))) 11 = .ok (0, 15) := by
    have h11 : (11 : Nat) = (PACK_MAGIC ++ u16Bytes 0 ++ [1]).length := rfl
    rw [h11, regroup3 PACK_MAGIC (u16Bytes 0) _,
      regroup3 (PACK_MAGIC ++ u16Bytes 0) [1] _]
    have := readU32_at (PACK_MAGIC ++ u16Bytes 0 ++ [1]) ((hash ++
      (u32Bytes lsidx ++ (u32Bytes (psidx.getD u32MAX) ++ (u64Bytes epoch ++
        (u16Bytes sections.length ++ (dir ++ body))))))) 0 (by omega)
    exact this
  rw [hr2, exc_bind_ok]
  try dsimp only
  have hslice : (List.take 32 (List.drop 15 (PACK_MAGIC ++ (u16Bytes 0 ++
      ([1] ++ (u32Bytes 0 ++ (hash ++ (u32Bytes lsidx ++
        (u32Bytes (psidx.getD u32MAX) ++ (u64Bytes epoch ++
          (u16Bytes sections.length ++ (dir ++ body)))))))))))) = hash := by
    have h15 : (15 : Nat) = (PACK_MAGIC ++ u16Bytes 0 ++ [1] ++
        u32Bytes 0).length := rfl
    rw [h15, ← hhash, regroup3 PACK_MAGIC (u16Bytes 0) _,
      regroup3 (PACK_MAGIC ++ u16Bytes 0) [1] _,
      regroup3 (PACK_MAGIC ++ u16Bytes 0 ++ [1]) (u32Bytes 0) _]
    exact slice_middle (PACK_MAGIC ++ u16Bytes 0 ++ [1] ++ u32Bytes 0) hash _
  rw [hslice]
  have hr3 : readU32 (PACK_MAGIC ++ (u16Bytes 0 ++ ([1] ++ (u32Bytes 0 ++
      (hash ++ (u32Bytes lsidx ++ (u32Bytes (psidx.getD u32MAX) ++ (u64Bytes epoch ++
        (u16Bytes sections.length ++ (dir ++ body)))))))))) 47 =
      .ok (lsidx, 51) := by
    have h47 : (47 : Nat) = (PACK_MAGIC ++ u16Bytes 0 ++ [1] ++ u32Bytes 0 ++
        hash).length := by
      simp [PACK_MAGIC, u16Bytes, u32Bytes, hhash]
    rw [h47, regroup3 PACK_MAGIC (u16Bytes 0) _,
      regroup3 (PACK_MAGIC ++ u16Bytes 0) [1] _,
      regroup3 (PACK_MAGIC ++ u16Bytes 0 ++ [1]) (u32Bytes 0) _,
      regroup3 (PACK_MAGIC ++ u16Bytes 0 ++ [1] ++ u32Bytes 0) hash _,
      regroup3 (PACK_MAGIC ++ u16Bytes 0 ++ [1] ++ u32Bytes 0 ++ hash)
        (u32Bytes lsidx) _]
    have := readU32_at (PACK_MAGIC ++ u16Bytes 0 ++ [1] ++ u32Bytes 0 ++ hash)
      ((u32Bytes (psidx.getD u32MAX) ++ (u64Bytes epoch ++
        (u16Bytes sections.length ++ (dir ++ body))))) lsidx hls
    have h51 : (PACK_MAGIC ++ u16Bytes 0 ++ [1] ++ u32Bytes 0 ++
        hash).length + 4 = 51 := by
      simp [PACK_MAGIC, u16Bytes, u32Bytes, hhash]
    rw [h51] at this
    exact this
  rw [hr3, exc_bind_ok]
  dsimp only
  have hpraw : psidx.getD u32MAX < 4294967296 := by
    cases psidx with
    | none => simp [u32MAX]
    | some i =>
        have := hps i rfl
        simp only [Option.getD_some]
        simp only [u32MAX] at this
        omega
  have hr4 : readU32 (PACK_MAGIC ++ (u16Bytes 0 ++ ([1] ++ (u32Bytes 0 ++
      (hash ++ (u32Bytes lsidx ++ (u32Bytes (psidx.getD u32MAX) ++ (u64Bytes epoch ++
        (u16Bytes sections.length ++ (dir ++ body)))))))))) 51 =
      .ok (psidx.getD u32MAX, 55) := by
    have h51b : (51 : Nat) = (PACK_MAGIC ++ u16Bytes 0 ++ [1] ++ u32Bytes 0 ++
        hash ++ u32Bytes lsidx).length := by
      simp [PACK_MAGIC, u16Bytes, u32Bytes, hhash]
    rw [h51b, regroup3 PACK_MAGIC (u16Bytes 0) _,
      regroup3 (PACK_MAGIC ++ u16Bytes 0) [1] _,
      regroup3 (PACK_MAGIC ++ u16Bytes 0 ++ [1]) (u32Bytes 0) _,
      regroup3 (PACK_MAGIC ++ u16Bytes 0 ++ [1] ++ u32Bytes 0) hash _,
      regroup3 (PACK_MAGIC ++ u16Bytes 0 ++ [1] ++ u32Bytes 0 ++ hash)
        (u32Bytes lsidx) _,
      regroup3 (PACK_MAGIC ++ u16Bytes 0 ++ [1] ++ u32Bytes 0 ++ hash ++
        u32Bytes lsidx) (u32Bytes (psidx.getD u32MAX)) _]
    have := readU32_at (PACK_MAGIC ++ u16Bytes 0 ++ [1] ++ u32Bytes 0 ++
      hash ++ u32Bytes lsidx) ((u64Bytes epoch ++
        (u16Bytes sections.length ++ (dir ++ body)))) (psidx.getD u32MAX) hpraw
    have h55 : (PACK_MAGIC ++ u16Bytes 0 ++ [1] ++ u32Bytes 0 ++ hash ++
        u32Bytes lsidx).length + 4 = 55 := by
      simp [PACK_MAGIC, u16Bytes, u32Bytes, hhash]
    rw [h55] at this
    exact this
  rw [hr4, exc_bind_ok]
  dsimp only
  have hr5 : readU64 (PACK_MAGIC ++ (u16Bytes 0 ++ ([1] ++ (u32Bytes 0 ++
      (hash ++ (u32Bytes lsidx ++ (u32Bytes (psidx.getD u32MAX) ++ (u64Bytes epoch ++
        (u16Bytes sections.length ++ (dir ++ body)))))))))) 55 =
      .ok (epoch, 63) := by
    have h55b : (55 : Nat) = (PACK_MAGIC ++ u16Bytes 0 ++ [1] ++ u32Bytes 0 ++
        hash ++ u32Bytes lsidx ++ u32Bytes (psidx.getD u32MAX)).length := by
      simp [PACK_MAGIC, u16Bytes, u32Bytes, hhash]
    rw [h55b, regroup3 PACK_MAGIC (u16Bytes 0) _,
      regroup3 (PACK_MAGIC ++ u16Bytes 0) [1] _,
      regroup3 (PACK_MAGIC ++ u16Bytes 0 ++ [1]) (u32Bytes 0) _,
      regroup3 (PACK_MAGIC ++ u16Bytes 0 ++ [1] ++ u32Bytes 0) hash _,
      regroup3 (PACK_MAGIC ++ u16Bytes 0 ++ [1] ++ u32Bytes 0 ++ hash)
        (u32Bytes lsidx) _,
      regroup3 (PACK_MAGIC ++ u16Bytes 0 ++ [1] ++ u32Bytes 0 ++ hash ++
        u32Bytes lsidx) (u32Bytes (psidx.getD u32MAX)) _,
      regroup3 (PACK_MAGIC ++ u16Bytes 0 ++ [1] ++ u32Bytes 0 ++ hash ++
        u32Bytes lsidx ++ u32Bytes (psidx.getD u32MAX)) (u64Bytes epoch) _]
    have := readU64_at (PACK_MAGIC ++ u16Bytes 0 ++ [1] ++ u32Bytes 0 ++
      hash ++ u32Bytes lsidx ++ u32Bytes (psidx.getD u32MAX)) ((u16Bytes
        sections.length ++ (dir ++ body))) epoch hep
    have h63 : (PACK_MAGIC ++ u16Bytes 0 ++ [1] ++ u32Bytes 0 ++ hash ++
        u32Bytes lsidx ++ u32Bytes (psidx.getD u32MAX)).length + 8 = 63 := by
      simp [PACK_MAGIC, u16Bytes, u32Bytes, hhash]
    rw [h63] at this
    exact this
  rw [hr5, exc_bind_ok]
  dsimp only
  simp only [Except.ok.injEq, Prod.mk.injEq, PackHeader.mk.injEq]
  refine ⟨⟨trivial, trivial, trivial, trivial, trivial, ?_, trivial⟩, trivial⟩
  cases psidx with
  | none => simp
  | some i =>
      have := hps i rfl
      rw [if_neg (by simp only [Option.getD_some]; omega)]
      simp

/-- The section entries recorded by sectionDirectory. -/
def dirEntries : List (Nat × List Nat) → Nat → List SectionEntry
  | [], _ => []
  | (section_type, data) :: rest, start =>
      ⟨section_type, start, data.length⟩ :: dirEntries rest (start + data.length)

theorem parse_section_directory_at :
    ∀ (sections : List (Nat × List Nat)) (start : Nat) (pre rest : List Nat),
      start + (sections.map fun p => p.2.length).sum < 4294967296 →
      parse_section_directory (pre ++ (sectionDirectory sections start).1 ++ rest)
        pre.length sections.length = .ok (dirEntries sections start) := by
  intro sections
  induction sections with
  | nil => intro start pre rest _; rfl
  | cons sec restSec ih =>
      intro start pre rest hbound
      obtain ⟨stype, data⟩ := sec
      simp only [sectionDirectory]
      rcases hrec : sectionDirectory restSec (start + data.length) with ⟨dir2, body2⟩
      dsimp only
      have hstart : start < 4294967296 := by
        simp only [List.map_cons, List.sum_cons] at hbound
        omega
      have hlen : data.length < 4294967296 := by
        simp only [List.map_cons, List.sum_cons] at hbound
        omega
      have hbytes : pre ++ (stype :: (u32Bytes start ++ u32Bytes data.length) ++ dir2)
          ++ rest = pre ++ [stype] ++ (u32Bytes start ++ (u32Bytes data.length ++
            (dir2 ++ rest))) := by
        simp [List.append_assoc]
      rw [hbytes]
      show parse_section_directory _ pre.length (restSec.length + 1) = _
      simp only [parse_section_directory]
      have hg : (pre ++ [stype] ++ (u32Bytes start ++ (u32Bytes data.length ++
          (dir2 ++ rest)))).get? pre.length = some stype := by
        have h0 : pre.length = pre.length + 0 := rfl
        rw [h0]
        exact get?_middle pre [stype] _ 0 (by simp)
      rw [hg]
      dsimp only
      have h1 : pre.length + 1 = (pre ++ [stype]).length := by simp
      rw [h1, regroup3 (pre ++ [stype]) (u32Bytes start) _,
        readU32_at (pre ++ [stype]) _ start hstart, exc_bind_ok]
      dsimp only
      have h2 : (pre ++ [stype]).length + 4 = (pre ++ [stype] ++
          u32Bytes start).length := by simp [u32Bytes]
      rw [h2, regroup3 (pre ++ [stype] ++ u32Bytes start) (u32Bytes data.length) _,
        readU32_at (pre ++ [stype] ++ u32Bytes start) _ data.length hlen, exc_bind_ok]
      dsimp only
      have hrec2 : parse_section_directory (pre ++ [stype] ++ u32Bytes start ++
          u32Bytes data.length ++ (dir2 ++ rest))
          ((pre ++ [stype] ++ u32Bytes start).length + 4) restSec.length =
          .ok (dirEntries restSec (start + data.length)) := by
        have hpre : (pre ++ [stype] ++ u32Bytes start).length + 4 =
            (pre ++ [stype] ++ u32Bytes start ++ u32Bytes data.length).length := by
          simp [u32Bytes]
        rw [hpre, regroup3 (pre ++ [stype] ++ u32Bytes start ++
          u32Bytes data.length) dir2 rest]
        have := ih (start + data.length) (pre ++ [stype] ++ u32Bytes start ++
          u32Bytes data.length) rest (by
            simp only [List.map_cons, List.sum_cons] at hbound
            omega)
        rw [hrec] at this
        exact this
      rw [hrec2, exc_bind_ok]
      rfl

theorem getSection_five {b1 b2 b3 b4 b5 : List Nat} :
    getSection [(1, b1), (2, b2), (3, b3), (4, b4), (5, b5)] 1 "m1" = .ok b1 ∧
    getSection [(1, b1), (2, b2), (3, b3), (4, b4), (5, b5)] 2 "m2" = .ok b2 ∧
    getSection [(1, b1), (2, b2), (3, b3), (4, b4), (5, b5)] 3 "m3" = .ok b3 ∧
    getSection [(1, b1), (2, b2), (3, b3), (4, b4), (5, b5)] 4 "m4" = .ok b4 ∧
    getSection [(1, b1), (2, b2), (3, b3), (4, b4), (5, b5)] 5 "m5" = .ok b5 := by
  refine ⟨rfl, rfl, rfl, rfl, rfl⟩

/-- In-range references of one opcode relative to its own program. -/
def opRefOK (p : BytecodeProgram) : Opcode → Prop
  | .emitText sidx => sidx < p.string_pool.length
  | .pushStr sidx => sidx < p.string_pool.length
  | .select _ table => table < p.case_tables.length
  | .selectPlural _ _ table => table < p.case_tables.length
  | _ => True

instance (p : BytecodeProgram) (op : Opcode) : Decidable (opRefOK p op) := by
  cases op <;> (simp only [opRefOK]; infer_instance)

/-- In-range string reference of one case key. -/
def keyRefOK (p : BytecodeProgram) : CaseKey → Prop
  | .string sidx => sidx < p.string_pool.length
  | _ => True

instance (p : BytecodeProgram) (k : CaseKey) : Decidable (keyRefOK p k) := by
  cases k <;> (simp only [keyRefOK]; infer_instance)

/-- Well-formed program: every opcode and case key reference is in range,
as required by remap_program (whose Rust indexing would panic otherwise). -/
def ProgWF (p : BytecodeProgram) : Prop :=
  (∀ op ∈ p.opcodes, opRefOK p op) ∧
  ∀ tb ∈ p.case_tables, ∀ e ∈ tb.entries, keyRefOK p e.key

instance (p : BytecodeProgram) : Decidable (ProgWF p) := by
  unfold ProgWF
  infer_instance

/-- Relation between an original program and its decoded image: opcodes
remapped, number pool and argument names equal, the shared pool preserving
every referenced string, the shared table list holding the remapped tables
at the offset positions. -/
structure DecSim (orig dec : BytecodeProgram) (mapping : List Nat)
    (off : Nat) : Prop where
  hops : dec.opcodes = orig.opcodes.map (remapOpcode mapping off)
  hnum : dec.number_pool = orig.number_pool
  hargs : dec.arg_names = orig.arg_names
  hpool : ∀ i x, orig.string_pool.get? i = some x →
    dec.string_pool.get? (mapping.getD i 0) = some x
  htab : ∀ t tb, orig.case_tables.get? t = some tb →
    dec.case_tables.get? (t + off) = some (remapTable mapping tb)

theorem pool_get_equiv {orig dec : BytecodeProgram} {mapping : List Nat} {off : Nat}
    (hsim : DecSim orig dec mapping off) (sidx : Nat)
    (hs : sidx < orig.string_pool.length) :
    StringPool.get dec.string_pool (mapping.getD sidx 0) =
      StringPool.get orig.string_pool sidx := by
  unfold StringPool.get
  cases hg : orig.string_pool.get? sidx with
  | none =>
      rw [List.get?_eq_none] at hg
      omega
  | some x => rw [hsim.hpool sidx x hg]

theorem match_case_go_equiv {orig dec : BytecodeProgram} {mapping : List Nat}
    {off : Nat} (hsim : DecSim orig dec mapping off) (value : String) :
    ∀ (entries : List CaseEntry) (other : Option Nat),
      (∀ e ∈ entries, keyRefOK orig e.key) →
      match_case.go dec value
        (entries.map fun e => ⟨remapCaseKey mapping e.key, e.target⟩) other =
        match_case.go orig value entries other := by
  intro entries
  induction entries with
  | nil => intro other _; rfl
  | cons e rest ih =>
      intro other hk
      have hke := hk e (List.mem_cons_self e rest)
      have hkr : ∀ e2 ∈ rest, keyRefOK orig e2.key :=
        fun e2 he2 => hk e2 (List.mem_cons_of_mem e he2)
      cases hkey : e.key with
      | string sidx =>
          have hs : sidx < orig.string_pool.length := by
            rw [hkey] at hke
            exact hke
          simp only [List.map_cons, match_case.go, hkey, remapCaseKey]
          rw [pool_get_equiv hsim sidx hs]
          cases StringPool.get orig.string_pool sidx with
          | none => exact ih other hkr
          | some candidate =>
              dsimp only
              by_cases hc : candidate = value
              · rw [if_pos hc, if_pos hc]
              · rw [if_neg hc, if_neg hc]
                exact ih other hkr
      | exact v =>
          simp only [List.map_cons, match_case.go, hkey, remapCaseKey]
          exact ih other hkr
      | category c =>
          simp only [List.map_cons, match_case.go, hkey, remapCaseKey]
          exact ih other hkr
      | other =>
          simp only [List.map_cons, match_case.go, hkey, remapCaseKey]
          exact ih (some e.target) hkr

theorem match_case_equiv {orig dec : BytecodeProgram} {mapping : List Nat}
    {off : Nat} (hsim : DecSim orig dec mapping off) (tb : CaseTable)
    (value : String) (hk : ∀ e ∈ tb.entries, keyRefOK orig e.key) :
    match_case (remapTable mapping tb) dec value = match_case tb orig value := by
  unfold match_case remapTable
  exact match_case_go_equiv hsim value tb.entries none hk

theorem match_exact_number_equiv (mapping : List Nat) (tb : CaseTable)
    (value : Rat) :
    match_exact_number (remapTable mapping tb) value =
      match_exact_number tb value := by
  unfold match_exact_number
  by_cases hneg : value < 0
  · rw [if_pos hneg, if_pos hneg]
  · rw [if_neg hneg, if_neg hneg]
    dsimp only
    by_cases hcand : ((f64AsU32 value : Rat)) = value
    · rw [if_pos hcand, if_pos hcand]
      unfold remapTable
      rw [List.find?_map]
      have hpred : ∀ e : CaseEntry,
          ((fun entry => match entry.key with
            | CaseKey.exact exact => decide (exact = f64AsU32 value)
            | _ => false) ∘ fun e => (⟨remapCaseKey mapping e.key, e.target⟩ :
              CaseEntry)) e =
          (fun entry => match entry.key with
            | CaseKey.exact exact => decide (exact = f64AsU32 value)
            | _ => false) e := by
        intro e
        cases hek : e.key <;> simp [remapCaseKey, Function.comp, hek]
      rw [funext hpred]
      cases tb.entries.find? fun entry => match entry.key with
        | CaseKey.exact exact => decide (exact = f64AsU32 value)
        | _ => false with
      | none => rfl
      | some e => rfl
    · rw [if_neg hcand, if_neg hcand]

theorem match_plural_category_equiv (mapping : List Nat) (tb : CaseTable)
    (category : PluralCategory) :
    match_plural_category (remapTable mapping tb) category =
      match_plural_category tb category := by
  unfold match_plural_category remapTable
  rw [List.find?_map]
  have hpred : ∀ e : CaseEntry,
      ((fun entry => match entry.key with
        | CaseKey.category c => decide (c = category)
        | _ => false) ∘ fun e => (⟨remapCaseKey mapping e.key, e.target⟩ :
          CaseEntry)) e =
      (fun entry => match entry.key with
        | CaseKey.category c => decide (c = category)
        | _ => false) e := by
    intro e
    cases hek : e.key <;> simp [remapCaseKey, Function.comp, hek]
  rw [funext hpred]
  cases tb.entries.find? fun entry => match entry.key with
    | CaseKey.category c => decide (c = category)
    | _ => false with
  | none => rfl
  | some e => rfl

theorem match_other_equiv (mapping : List Nat) (tb : CaseTable) :
    match_other (remapTable mapping tb) = match_other tb := by
  unfold match_other remapTable
  rw [List.find?_map]
  have hpred : ∀ e : CaseEntry,
      ((fun entry => match entry.key with
        | CaseKey.other => true
        | _ => false) ∘ fun e => (⟨remapCaseKey mapping e.key, e.target⟩ :
          CaseEntry)) e =
      (fun entry => match entry.key with
        | CaseKey.other => true
        | _ => false) e := by
    intro e
    cases hek : e.key <;> simp [remapCaseKey, Function.comp, hek]
  rw [funext hpred]
  cases tb.entries.find? fun entry => match entry.key with
    | CaseKey.other => true
    | _ => false with
  | none => rfl
  | some e => rfl

theorem get_case_table_equiv {orig dec : BytecodeProgram} {mapping : List Nat}
    {off : Nat} (hsim : DecSim orig dec mapping off) (table : Nat)
    (ht : table < orig.case_tables.length) :
    ∃ tb, orig.case_tables.get? table = some tb ∧
      get_case_table dec (table + off) = .ok (remapTable mapping tb) ∧
      get_case_table orig table = .ok tb := by
  cases hg : orig.case_tables.get? table with
  | none =>
      rw [List.get?_eq_none] at hg
      omega
  | some tb =>
      refine ⟨tb, rfl, ?_, ?_⟩
      · unfold get_case_table
        rw [hsim.htab table tb hg]
      · unfold get_case_table
        rw [hg]

theorem select_case_equiv {orig dec : BytecodeProgram} {mapping : List Nat}
    {off : Nat} (hsim : DecSim orig dec mapping off) (args : Args)
    (aidx table : Nat) (ht : table < orig.case_tables.length)
    (hwf : ProgWF orig) :
    select_case dec args aidx (table + off) = select_case orig args aidx table := by
  unfold select_case
  rw [show dec.arg_name aidx = orig.arg_name aidx from by
    unfold BytecodeProgram.arg_name; rw [hsim.hargs]]
  cases orig.arg_name aidx with
  | none => rfl
  | some name =>
      dsimp only
      cases Args.require args name with
      | error e => rfl
      | ok value =>
          dsimp only
          cases value with
          | str text =>
              obtain ⟨tb, hg, hdec, horig⟩ := get_case_table_equiv hsim table ht
              rw [hdec, horig]
              dsimp only
              exact match_case_equiv hsim tb text
                (hwf.2 tb (List.get?_mem hg))
          | num n => rfl
          | bool b => rfl
          | dateTime t => rfl
          | unit v u => rfl
          | currency v c => rfl
          | any => rfl

theorem select_plural_case_equiv {orig dec : BytecodeProgram} {mapping : List Nat}
    {off : Nat} (hsim : DecSim orig dec mapping off) (args : Args)
    (backend : FormatBackend) (aidx : Nat) (ruleset : PluralRuleset) (table : Nat)
    (ht : table < orig.case_tables.length) :
    select_plural_case dec args backend aidx ruleset (table + off) =
      select_plural_case orig args backend aidx ruleset table := by
  unfold select_plural_case
  rw [show dec.arg_name aidx = orig.arg_name aidx from by
    unfold BytecodeProgram.arg_name; rw [hsim.hargs]]
  cases orig.arg_name aidx with
  | none => rfl
  | some name =>
      dsimp only
      cases Args.require args name with
      | error e => rfl
      | ok value =>
          dsimp only
          cases value with
          | num number =>
              obtain ⟨tb, hg, hdec, horig⟩ := get_case_table_equiv hsim table ht
              rw [hdec, horig]
              dsimp only
              rw [match_exact_number_equiv mapping tb number]
              cases match_exact_number tb number with
              | some target => rfl
              | none =>
                  try dsimp only
                  cases ruleset
                  try dsimp only
                  cases backend.plural_category number with
                  | error e => rfl
                  | ok category =>
                      dsimp only
                      rw [match_plural_category_equiv mapping tb category]
                      cases match_plural_category tb category with
                      | some target => rfl
                      | none =>
                          dsimp only
                          exact match_other_equiv mapping tb
          | str t => rfl
          | bool b => rfl
          | dateTime t => rfl
          | unit v u => rfl
          | currency v c => rfl
          | any => rfl

theorem execStep_equiv {orig dec : BytecodeProgram} {mapping : List Nat}
    {off : Nat} (hsim : DecSim orig dec mapping off) (args : Args)
    (backend : FormatBackend) (s : ExecState) (op : Opcode)
    (hop : opRefOK orig op) (hwf : ProgWF orig) :
    execStep dec args backend s (remapOpcode mapping off op) =
      execStep orig args backend s op := by
  cases op with
  | emitText sidx =>
      simp only [remapOpcode, execStep]
      rw [pool_get_equiv hsim sidx hop]
  | emitStack => rfl
  | pushStr sidx =>
      simp only [remapOpcode, execStep]
      rw [pool_get_equiv hsim sidx hop]
  | pushNum nidx =>
      simp only [remapOpcode, execStep]
      rw [hsim.hnum]
  | pushArg aidx =>
      simp only [remapOpcode, execStep]
      rw [show dec.arg_name aidx = orig.arg_name aidx from by
        unfold BytecodeProgram.arg_name; rw [hsim.hargs]]
  | dup => rfl
  | pop => rfl
  | callFmt fid opt_count => rfl
  | select aidx table =>
      simp only [remapOpcode, execStep]
      rw [select_case_equiv hsim args aidx table hop hwf]
  | selectPlural aidx ruleset table =>
      simp only [remapOpcode, execStep]
      rw [select_plural_case_equiv hsim args backend aidx ruleset table hop]
  | jump rel => rfl
  | endOp => rfl

theorem execLoop_equiv {orig dec : BytecodeProgram} {mapping : List Nat}
    {off : Nat} (hsim : DecSim orig dec mapping off) (hwf : ProgWF orig)
    (args : Args) (backend : FormatBackend) :
    ∀ (fuel : Nat) (s : ExecState),
      execLoop dec args backend fuel s = execLoop orig args backend fuel s := by
  intro fuel
  induction fuel with
  | zero => intro s; rfl
  | succ n ih =>
      intro s
      unfold execLoop
      have hget : dec.opcodes.get? s.pc =
          (orig.opcodes.get? s.pc).map (remapOpcode mapping off) := by
        rw [hsim.hops, List.get?_map]
      rw [hget]
      cases hg : orig.opcodes.get? s.pc with
      | none => rfl
      | some op =>
          dsimp only [Option.map]
          rw [execStep_equiv hsim args backend s op
            (hwf.1 op (List.get?_mem hg)) hwf]
          cases execStep orig args backend s op with
          | done out => rfl
          | failed e => rfl
          | next s2 => exact ih s2

theorem executeFuel_equiv {orig dec : BytecodeProgram} {mapping : List Nat}
    {off : Nat} (hsim : DecSim orig dec mapping off) (hwf : ProgWF orig)
    (args : Args) (backend : FormatBackend) (fuel : Nat) :
    executeFuel dec args backend fuel = executeFuel orig args backend fuel := by
  unfold executeFuel
  exact execLoop_equiv hsim hwf args backend fuel ⟨[], "", 0⟩

instance (e : CaseEntry) : Decidable (caseEntryEncOK e) := by
  unfold caseEntryEncOK
  infer_instance

instance (t : CaseTable) : Decidable (caseTableEncOK t) := by
  unfold caseTableEncOK
  infer_instance

/-- The interner state after interning the locale tag of a build input. -/
def encItn1 (input : PackBuildInput) : StringInterner × Nat :=
  StringInterner.intern ⟨[], []⟩ input.locale_tag

/-- The interner state and parent index after the optional parent tag. -/
def encParent (input : PackBuildInput) : StringInterner × Option Nat :=
  match input.parent_tag with
  | some tag =>
      ((StringInterner.intern (encItn1 input).1 tag).1,
        some (StringInterner.intern (encItn1 input).1 tag).2)
  | none => ((encItn1 input).1, none)

/-- The remap result of a build input. -/
def encRemap (input : PackBuildInput) :
    StringInterner × List CaseTable × List (Nat × BytecodeProgram) :=
  remapMessages (encParent input).1 [] input.messages

/-- The shared string pool of the encoded pack. -/
def encPool (input : PackBuildInput) : List String := (encRemap input).1.pool

/-- The global case-table list of the encoded pack. -/
def encTables (input : PackBuildInput) : List CaseTable := (encRemap input).2.1

/-- The remapped messages of the encoded pack. -/
def encMsgs (input : PackBuildInput) : List (Nat × BytecodeProgram) :=
  (encRemap input).2.2

/-- The bytecode blob and its offsets. -/
def encBlob (input : PackBuildInput) : List Nat × List (Nat × Nat) :=
  encodeBlobLoop (encMsgs input) 0

/-- The index section of the encoded pack. -/
def encIndex (input : PackBuildInput) : List Nat :=
  match input.pack_kind with
  | .base => encode_dense_index (encBlob input).2
  | .overlay => encode_sparse_index (encBlob input).2
  | .icuData => []

/-- The section list of the encoded pack. -/
def encSections (input : PackBuildInput) : List (Nat × List Nat) :=
  [(1, encode_string_pool (encPool input)), (2, encIndex input),
   (3, (encBlob input).1), (4, encode_case_tables (encTables input)),
   (5, encode_message_meta (encMsgs input) (encPool input))]

theorem encode_pack_split (input : PackBuildInput) :
    encode_pack input = build_pack_bytes input.pack_kind input.id_map_hash
      (encItn1 input).2 (encParent input).2 input.build_epoch_ms
      (encSections input) := by
  unfold encode_pack encSections encIndex encBlob encMsgs encTables encPool
    encRemap encParent encItn1 encode_bytecode_blob
  cases input.parent_tag <;> rfl

/-- Well-formedness of a build input: kinds and sizes under which the
encoded pack decodes back exactly. -/
def EncodeWF (input : PackBuildInput) : Prop :=
  input.pack_kind ≠ PackKind.icuData ∧
  input.id_map_hash.length = 32 ∧
  input.build_epoch_ms < 18446744073709551616 ∧
  (input.messages.map Prod.fst).Nodup ∧
  (∀ p ∈ input.messages, ProgWF p.2) ∧
  (encItn1 input).2 < u32MAX ∧
  (∀ i, (encParent input).2 = some i → i < u32MAX) ∧
  (encPool input).length < 4294967296 ∧
  (∀ v ∈ encPool input, (strToBytes v).length < 4294967296) ∧
  (encTables input).length < 4294967296 ∧
  (∀ t ∈ encTables input, caseTableEncOK t) ∧
  (encMsgs input).length < 4294967296 ∧
  (∀ p ∈ encMsgs input, p.1 < 4294967296 ∧ p.2.arg_names.length < 4294967296 ∧
    p.2.number_pool.length < 4294967296 ∧ p.2.opcodes.length < 4294967296 ∧
    (encode_message p.2).length < 4294967296 ∧ ∀ op ∈ p.2.opcodes, opEncOK op) ∧
  (∀ q ∈ (encBlob input).2, q.2 < u32MAX) ∧
  ((encBlob input).2.map Prod.fst).foldr max 0 + 1 < 4294967296 ∧
  110 + ((encSections input).map fun p => p.2.length).sum < 4294967296

instance (input : PackBuildInput) : Decidable (EncodeWF input) := by
  unfold EncodeWF
  infer_instance

theorem forall2_fst_eq {α β : Type} (P : (Nat × α) → (Nat × β) → Prop) :
    ∀ (ms : List (Nat × α)) (os : List (Nat × β)),
      List.Forall₂ (fun m o => o.1 = m.1 ∧ P m o) ms os →
      os.map Prod.fst = ms.map Prod.fst := by
  intro ms os hf
  induction hf with
  | nil => rfl
  | cons hrel htail ih =>
      simp only [List.map_cons, ih, List.cons.injEq]
      exact ⟨hrel.1, trivial⟩

theorem encParent_inv (input : PackBuildInput) : ItnInv (encParent input).1 := by
  have h0 : ItnInv (⟨[], []⟩ : StringInterner) := fun p hp =>
    absurd hp (List.not_mem_nil p)
  have h1 := (intern_spec ⟨[], []⟩ input.locale_tag h0).1
  unfold encParent encItn1
  cases input.parent_tag with
  | none => exact h1
  | some tag => exact (intern_spec _ tag h1).1

theorem build_sections_decoded (kind : PackKind) (hash : List Nat) (lsidx : Nat)
    (psidx : Option Nat) (epoch : Nat) (s1 s2 s3 s4 s5 : List Nat)
    (hhash : hash.length = 32)
    (hbound : 110 + (s1.length + (s2.length + (s3.length + (s4.length +
      (s5.length + 0))))) < 4294967296) :
    parse_section_directory (build_pack_bytes kind hash lsidx psidx epoch
      [(1, s1), (2, s2), (3, s3), (4, s4), (5, s5)]) 65 5 =
      .ok (dirEntries [(1, s1), (2, s2), (3, s3), (4, s4), (5, s5)] 110) ∧
    map_sections (build_pack_bytes kind hash lsidx psidx epoch
      [(1, s1), (2, s2), (3, s3), (4, s4), (5, s5)])
      (dirEntries [(1, s1), (2, s2), (3, s3), (4, s4), (5, s5)] 110) [] =
      .ok [(1, s1), (2, s2), (3, s3), (4, s4), (5, s5)] := by
  have hS : (PACK_MAGIC ++ u16Bytes 0 ++ [packKindByte kind] ++ u32Bytes 0 ++ hash ++ u32Bytes lsidx ++ u32Bytes (psidx.getD u32MAX) ++ u64Bytes epoch ++ u16Bytes ([(1, s1), (2, s2), (3, s3), (4, s4), (5, s5)] : List (Nat × List Nat)).length).length +
      9 * ([(1, s1), (2, s2), (3, s3), (4, s4), (5, s5)] :
        List (Nat × List Nat)).length = 110 := by
    simp [PACK_MAGIC, u16Bytes, u32Bytes, u64Bytes, hhash]
  rcases hdir : sectionDirectory [(1, s1), (2, s2), (3, s3), (4, s4), (5, s5)] 110
    with ⟨dir, body⟩
  have hbuild : build_pack_bytes kind hash lsidx psidx epoch
      [(1, s1), (2, s2), (3, s3), (4, s4), (5, s5)] =
      (PACK_MAGIC ++ u16Bytes 0 ++ [packKindByte kind] ++ u32Bytes 0 ++ hash ++ u32Bytes lsidx ++ u32Bytes (psidx.getD u32MAX) ++ u64Bytes epoch ++ u16Bytes ([(1, s1), (2, s2), (3, s3), (4, s4), (5, s5)] : List (Nat × List Nat)).length) ++ dir ++ body := by
    unfold build_pack_bytes
    dsimp only
    rw [hS, hdir]
  have hlen65 : (PACK_MAGIC ++ u16Bytes 0 ++ [packKindByte kind] ++ u32Bytes 0 ++ hash ++ u32Bytes lsidx ++ u32Bytes (psidx.getD u32MAX) ++ u64Bytes epoch ++ u16Bytes ([(1, s1), (2, s2), (3, s3), (4, s4), (5, s5)] : List (Nat × List Nat)).length).length = 65 := by
    simp [PACK_MAGIC, u16Bytes, u32Bytes, u64Bytes, hhash]
  have hdirlen : dir.length = 45 := by
    have hh : (sectionDirectory [(1, s1), (2, s2), (3, s3), (4, s4), (5, s5)]
        110).1.length = 45 := by
      simp [sectionDirectory, u32Bytes]
    rw [hdir] at hh
    exact hh
  have hbody : body = s1 ++ (s2 ++ (s3 ++ (s4 ++ (s5 ++ [])))) := by
    have hh : (sectionDirectory [(1, s1), (2, s2), (3, s3), (4, s4), (5, s5)]
        110).2 = s1 ++ (s2 ++ (s3 ++ (s4 ++ (s5 ++ [])))) := by
      simp [sectionDirectory]
    rw [hdir] at hh
    exact hh
  constructor
  · rw [hbuild]
    have hp := parse_section_directory_at
      [(1, s1), (2, s2), (3, s3), (4, s4), (5, s5)] 110
      (PACK_MAGIC ++ u16Bytes 0 ++ [packKindByte kind] ++ u32Bytes 0 ++ hash ++ u32Bytes lsidx ++ u32Bytes (psidx.getD u32MAX) ++ u64Bytes epoch ++ u16Bytes ([(1, s1), (2, s2), (3, s3), (4, s4), (5, s5)] : List (Nat × List Nat)).length) body
      (by simpa using hbound)
    rw [hdir] at hp
    dsimp only at hp
    rw [hlen65] at hp
    simpa using hp
  · rw [hbuild, hbody]
    rw [show (PACK_MAGIC ++ u16Bytes 0 ++ [packKindByte kind] ++ u32Bytes 0 ++ hash ++ u32Bytes lsidx ++ u32Bytes (psidx.getD u32MAX) ++ u64Bytes epoch ++ u16Bytes ([(1, s1), (2, s2), (3, s3), (4, s4), (5, s5)] : List (Nat × List Nat)).length) ++ dir ++ (s1 ++ (s2 ++ (s3 ++ (s4 ++ (s5 ++ []))))) =
      ((PACK_MAGIC ++ u16Bytes 0 ++ [packKindByte kind] ++ u32Bytes 0 ++ hash ++ u32Bytes lsidx ++ u32Bytes (psidx.getD u32MAX) ++ u64Bytes epoch ++ u16Bytes ([(1, s1), (2, s2), (3, s3), (4, s4), (5, s5)] : List (Nat × List Nat)).length) ++ dir) ++ (s1 ++ (s2 ++ (s3 ++ (s4 ++ (s5 ++ []))))) from by
        simp [List.append_assoc]]
    set H := (PACK_MAGIC ++ u16Bytes 0 ++ [packKindByte kind] ++ u32Bytes 0 ++ hash ++ u32Bytes lsidx ++ u32Bytes (psidx.getD u32MAX) ++ u64Bytes epoch ++ u16Bytes ([(1, s1), (2, s2), (3, s3), (4, s4), (5, s5)] : List (Nat × List Nat)).length) ++ dir with hHdef
    have hH110 : H.length = 110 := by
      rw [hHdef, List.length_append, hlen65, hdirlen]
    have hblen : (H ++ (s1 ++ (s2 ++ (s3 ++ (s4 ++ (s5 ++ [])))))).length =
        110 + (s1.length + (s2.length + (s3.length + (s4.length +
          (s5.length + 0))))) := by
      simp [List.length_append, hH110]
      try omega
    have hsl1 : ((H ++ (s1 ++ (s2 ++ (s3 ++ (s4 ++ (s5 ++ [])))))).drop
        (110)).take s1.length = s1 := by
      rw [show H ++ (s1 ++ (s2 ++ (s3 ++ (s4 ++ (s5 ++ []))))) =
        (H) ++ s1 ++ (s2 ++ (s3 ++ (s4 ++ (s5 ++ [])))) from by simp [List.append_assoc]]
      rw [show (110 : Nat) = (H).length from by
        simp [hH110]; try omega]
      exact slice_middle (H) s1 (s2 ++ (s3 ++ (s4 ++ (s5 ++ []))))
    have hsl2 : ((H ++ (s1 ++ (s2 ++ (s3 ++ (s4 ++ (s5 ++ [])))))).drop
        (110 + s1.length)).take s2.length = s2 := by
      rw [show H ++ (s1 ++ (s2 ++ (s3 ++ (s4 ++ (s5 ++ []))))) =
        (H ++ s1) ++ s2 ++ (s3 ++ (s4 ++ (s5 ++ []))) from by simp [List.append_assoc]]
      rw [show (110 + s1.length : Nat) = (H ++ s1).length from by
        simp [hH110]; try omega]
      exact slice_middle (H ++ s1) s2 (s3 ++ (s4 ++ (s5 ++ [])))
    have hsl3 : ((H ++ (s1 ++ (s2 ++ (s3 ++ (s4 ++ (s5 ++ [])))))).drop
        (110 + s1.length + s2.length)).take s3.length = s3 := by
      rw [show H ++ (s1 ++ (s2 ++ (s3 ++ (s4 ++ (s5 ++ []))))) =
        (H ++ s1 ++ s2) ++ s3 ++ (s4 ++ (s5 ++ [])) from by simp [List.append_assoc]]
      rw [show (110 + s1.length + s2.length : Nat) = (H ++ s1 ++ s2).length from by
        simp [hH110]; try omega]
      exact slice_middle (H ++ s1 ++ s2) s3 (s4 ++ (s5 ++ []))
    have hsl4 : ((H ++ (s1 ++ (s2 ++ (s3 ++ (s4 ++ (s5 ++ [])))))).drop
        (110 + s1.length + s2.length + s3.length)).take s4.length = s4 := by
      rw [show H ++ (s1 ++ (s2 ++ (s3 ++ (s4 ++ (s5 ++ []))))) =
        (H ++ s1 ++ s2 ++ s3) ++ s4 ++ (s5 ++ []) from by simp [List.append_assoc]]
      rw [show (110 + s1.length + s2.length + s3.length : Nat) = (H ++ s1 ++ s2 ++ s3).length from by
        simp [hH110]; try omega]
      exact slice_middle (H ++ s1 ++ s2 ++ s3) s4 (s5 ++ [])
    have hsl5 : ((H ++ (s1 ++ (s2 ++ (s3 ++ (s4 ++ (s5 ++ [])))))).drop
        (110 + s1.length + s2.length + s3.length + s4.length)).take s5.length = s5 := by
      rw [show H ++ (s1 ++ (s2 ++ (s3 ++ (s4 ++ (s5 ++ []))))) =
        (H ++ s1 ++ s2 ++ s3 ++ s4) ++ s5 ++ (([] : List Nat)) from by simp [List.append_assoc]]
      rw [show (110 + s1.length + s2.length + s3.length + s4.length : Nat) = (H ++ s1 ++ s2 ++ s3 ++ s4).length from by
        simp [hH110]; try omega]
      exact slice_middle (H ++ s1 ++ s2 ++ s3 ++ s4) s5 (([] : List Nat))
    simp only [dirEntries, map_sections]
    rw [if_pos (by rw [hblen]; omega)]
    rw [if_pos (by rw [hblen]; omega)]
    rw [if_pos (by rw [hblen]; omega)]
    rw [if_pos (by rw [hblen]; omega)]
    rw [if_pos (by rw [hblen]; omega)]
    rw [hsl1, hsl2, hsl3, hsl4, hsl5]
    rfl

theorem build_read_count (kind : PackKind) (hash : List Nat) (lsidx : Nat)
    (psidx : Option Nat) (epoch : Nat) (sections : List (Nat × List Nat))
    (hhash : hash.length = 32) (hn : sections.length < 65536) :
    readU16 (build_pack_bytes kind hash lsidx psidx epoch sections) 63 =
      .ok (sections.length, 65) := by
  rcases hdir : sectionDirectory sections
    ((PACK_MAGIC ++ u16Bytes 0 ++ [packKindByte kind] ++ u32Bytes 0 ++ hash ++
      u32Bytes lsidx ++ u32Bytes (psidx.getD u32MAX) ++ u64Bytes epoch ++
      u16Bytes sections.length).length + 9 * sections.length) with ⟨dir, body⟩
  have hbytes : build_pack_bytes kind hash lsidx psidx epoch sections =
      (PACK_MAGIC ++ u16Bytes 0 ++ [packKindByte kind] ++ u32Bytes 0 ++ hash ++
        u32Bytes lsidx ++ u32Bytes (psidx.getD u32MAX) ++ u64Bytes epoch) ++
        u16Bytes sections.length ++ (dir ++ body) := by
    unfold build_pack_bytes
    dsimp only
    rw [hdir]
    simp [List.append_assoc]
  rw [hbytes]
  have h63 : (63 : Nat) = (PACK_MAGIC ++ u16Bytes 0 ++ [packKindByte kind] ++
      u32Bytes 0 ++ hash ++ u32Bytes lsidx ++ u32Bytes (psidx.getD u32MAX) ++
      u64Bytes epoch).length := by
    simp [PACK_MAGIC, u16Bytes, u32Bytes, u64Bytes, hhash]
  rw [h63]
  have := readU16_at (PACK_MAGIC ++ u16Bytes 0 ++ [packKindByte kind] ++
    u32Bytes 0 ++ hash ++ u32Bytes lsidx ++ u32Bytes (psidx.getD u32MAX) ++
    u64Bytes epoch) (dir ++ body) sections.length hn
  rw [this]
  rw [← h63]

set_option maxHeartbeats 1600000 in
theorem decode_messages_core (input : PackBuildInput) (hwf : EncodeWF input)
    (pairs : List (Nat × Nat))
    (hget : ∀ q ∈ pairs, mapGet (encBlob input).2 q.1 = some q.2)
    (hnd : (pairs.map Prod.fst).Nodup)
    (hmem : ∀ id off, mapGet (encBlob input).2 id = some off → (id, off) ∈ pairs) :
    ∃ msgs, decodeMessagesLoop (encBlob input).1 (encPool input) (encTables input)
        ((encMsgs input).foldl (fun a p => mapInsert a p.1 p.2.arg_names) [])
        pairs [] = .ok msgs ∧
      ∀ id prog, mapGet input.messages id = some prog →
        ∃ (mapping : List Nat) (off : Nat),
          mapGet msgs id = some ⟨prog.opcodes.map (remapOpcode mapping off),
            encPool input, prog.number_pool, encTables input, prog.arg_names⟩ ∧
          DecSim prog ⟨prog.opcodes.map (remapOpcode mapping off),
            encPool input, prog.number_pool, encTables input, prog.arg_names⟩
            mapping off := by
  obtain ⟨_, _, _, hndin, _, _, _, _, _, _, _, _, hmsgs, hoffb, _, _⟩ := hwf
  have hinv := encParent_inv input
  obtain ⟨hinv3, hext3, htblext, hf⟩ :=
    remapMessages_spec input.messages (encParent input).1 [] hinv
  have hfst : (encMsgs input).map Prod.fst = input.messages.map Prod.fst :=
    forall2_fst_eq _ input.messages (encMsgs input) hf
  have hndmsgs : ((encMsgs input).map Prod.fst).Nodup := by
    rw [hfst]
    exact hndin
  have hblob : List.Forall₂ (fun (m : Nat × BytecodeProgram) (o : Nat × Nat) =>
      o.1 = m.1 ∧ read_bytecode_at (encBlob input).1 o.2 =
        .ok (encode_message m.2)) (encMsgs input) (encBlob input).2 := by
    have hsz : ∀ p ∈ encMsgs input, (encode_message p.2).length < 4294967296 :=
      fun p hp => (hmsgs p hp).2.2.2.2.1
    have := encodeBlobLoop_spec (encMsgs input) hsz [] [] ((encBlob input).1)
      (by simp [encBlob])
    simp only [List.length_nil] at this
    exact this
  have hmeta : ∀ id w, mapGet (encMsgs input) id = some w →
      mapGet ((encMsgs input).foldl (fun a p => mapInsert a p.1 p.2.arg_names) [])
        id = some w.arg_names := by
    intro id w hw
    have hmemw := mapGet_mem _ _ _ hw
    have := mapGet_foldl_insert_mem Prod.fst (fun p => p.2.arg_names)
      (encMsgs input) [] (id, w) hmemw hndmsgs
    exact this
  have hone : ∀ id w off2, mapGet (encMsgs input) id = some w →
      read_bytecode_at (encBlob input).1 off2 = .ok (encode_message w) →
      decodeOne (encBlob input).1 (encPool input) (encTables input)
        ((encMsgs input).foldl (fun a p => mapInsert a p.1 p.2.arg_names) [])
        (id, off2) =
        .ok ⟨w.opcodes, encPool input, w.number_pool, encTables input,
          w.arg_names⟩ := by
    intro id w off2 hw hread
    have hmw := mapGet_mem _ _ _ hw
    obtain ⟨_, _, hnum, hops, _, hopok⟩ := hmsgs (id, w) hmw
    unfold decodeOne
    rw [hread, exc_bind_ok]
    dsimp only
    rw [hmeta id w hw]
    have := decode_message_roundtrip w (encPool input) (encTables input)
      w.arg_names hnum hops hopok
    simp only [Option.getD_some]
    exact this
  have hH : ∀ q ∈ pairs, ∃ prog, decodeOne (encBlob input).1 (encPool input)
      (encTables input)
      ((encMsgs input).foldl (fun a p => mapInsert a p.1 p.2.arg_names) [])
      q = .ok prog := by
    intro q hq
    obtain ⟨w, hw, hp⟩ := forall2_mapGet_rev _ _ _ hblob q.1 q.2 (hget q hq)
    exact ⟨⟨w.opcodes, encPool input, w.number_pool, encTables input, w.arg_names⟩,
      hone q.1 w q.2 hw hp⟩
  have hspec := decodeMessagesLoop_spec (encBlob input).1
    (encPool input) (encTables input)
    ((encMsgs input).foldl (fun a p => mapInsert a p.1 p.2.arg_names) [])
    pairs []
  have hspec2 := hspec hH
  obtain ⟨msgs, hloop, hout, hin⟩ := hspec2
  refine ⟨msgs, hloop, ?_⟩
  intro id prog hprog
  obtain ⟨w, hw, hpw⟩ := forall2_mapGet _ input.messages (encMsgs input) hf id
    prog hprog
  dsimp only at hpw
  obtain ⟨mapping, off, hweq, hpool, htab, hargs⟩ := hpw
  obtain ⟨off2, hoff2, hread⟩ := forall2_mapGet _ (encMsgs input)
    (encBlob input).2 hblob id w hw
  have hpairmem : (id, off2) ∈ pairs := hmem id off2 hoff2
  have hdec := hone id w off2 hw hread
  have hmsgget := hin hnd (id, off2) hpairmem _ hdec
  refine ⟨mapping, off, ?_, ?_⟩
  · rw [hmsgget]
    congr 1
    rw [hweq]
  · constructor
    · rfl
    · rfl
    · rfl
    · intro i x hg
      exact hpool i x hg
    · intro t tb hg
      rw [Nat.add_comm t off]
      exact htab t tb hg


theorem forall2_mem_right {α β : Type} (P : α → β → Prop) :
    ∀ (ms : List α) (os : List β), List.Forall₂ P ms os →
      ∀ o ∈ os, ∃ m ∈ ms, P m o := by
  intro ms os hf
  induction hf with
  | nil => intro o ho; exact absurd ho (List.not_mem_nil o)
  | cons hrel _ ih =>
      intro o ho
      rcases List.mem_cons.mp ho with h | h
      · subst h; exact ⟨_, List.mem_cons_self _ _, hrel⟩
      · obtain ⟨m, hm, hp⟩ := ih o h
        exact ⟨m, List.mem_cons_of_mem _ hm, hp⟩

theorem exc_map_ok {α β : Type} (a : α) (f : α → β) :
    Except.map f (Except.ok a : CoreResult α) = .ok (f a) := rfl

theorem getSection_entries {b1 b2 b3 b4 b5 : List Nat}
    (m1 m2 m3 m4 m5 : String) :
    getSection [(1, b1), (2, b2), (3, b3), (4, b4), (5, b5)] 1 m1 = .ok b1 ∧
    getSection [(1, b1), (2, b2), (3, b3), (4, b4), (5, b5)] 2 m2 = .ok b2 ∧
    getSection [(1, b1), (2, b2), (3, b3), (4, b4), (5, b5)] 3 m3 = .ok b3 ∧
    getSection [(1, b1), (2, b2), (3, b3), (4, b4), (5, b5)] 4 m4 = .ok b4 ∧
    getSection [(1, b1), (2, b2), (3, b3), (4, b4), (5, b5)] 5 m5 = .ok b5 :=
  ⟨rfl, rfl, rfl, rfl, rfl⟩

set_option maxHeartbeats 1600000 in
theorem decode_encode_pack (input : PackBuildInput) (hwf : EncodeWF input) :
    ∃ msgs,
      PackCatalog.decode (encode_pack input) input.id_map_hash =
        .ok ⟨⟨0, input.pack_kind, 0, input.id_map_hash, (encItn1 input).2,
          (encParent input).2, input.build_epoch_ms⟩, msgs⟩ ∧
      ∀ id prog, mapGet input.messages id = some prog →
        ∃ (mapping : List Nat) (off : Nat),
          mapGet msgs id = some ⟨prog.opcodes.map (remapOpcode mapping off),
            encPool input, prog.number_pool, encTables input, prog.arg_names⟩ ∧
          DecSim prog ⟨prog.opcodes.map (remapOpcode mapping off),
            encPool input, prog.number_pool, encTables input, prog.arg_names⟩
            mapping off := by
  obtain ⟨hkind, hhash32, hep, hndin, hwfp, hls, hps, hplen, hpb, htlen, htok,
    hmlen, hmsgb, hoffb, hmax, hsum⟩ := id hwf
  have hls4 : (encItn1 input).2 < 4294967296 := by
    have := hls
    unfold u32MAX at this
    omega
  have hinv := encParent_inv input
  obtain ⟨hinv3, hext3, htblext, hf⟩ :=
    remapMessages_spec input.messages (encParent input).1 [] hinv
  have hfst : (encMsgs input).map Prod.fst = input.messages.map Prod.fst :=
    forall2_fst_eq _ input.messages (encMsgs input) hf
  have hndmsgs : ((encMsgs input).map Prod.fst).Nodup := by
    rw [hfst]
    exact hndin
  have hblob : List.Forall₂ (fun (m : Nat × BytecodeProgram) (o : Nat × Nat) =>
      o.1 = m.1 ∧ read_bytecode_at (encBlob input).1 o.2 =
        .ok (encode_message m.2)) (encMsgs input) (encBlob input).2 := by
    have hsz : ∀ p ∈ encMsgs input, (encode_message p.2).length < 4294967296 :=
      fun p hp => (hmsgb p hp).2.2.2.2.1
    have := encodeBlobLoop_spec (encMsgs input) hsz [] [] ((encBlob input).1)
      (by simp [encBlob])
    simp only [List.length_nil] at this
    exact this
  have hblobfst : (encBlob input).2.map Prod.fst =
      input.messages.map Prod.fst := by
    rw [forall2_fst_eq _ (encMsgs input) (encBlob input).2 hblob, hfst]
  have hndblob : ((encBlob input).2.map Prod.fst).Nodup := by
    rw [hblobfst]
    exact hndin
  have hmetaok : ∀ p ∈ encMsgs input, metaMsgEncOK (encPool input) p := by
    intro p hp
    obtain ⟨m, hm, hrel⟩ := forall2_mem_right _ input.messages (encMsgs input)
      hf p hp
    obtain ⟨hid1, mapping, off, heqr, hpoolr, htabr, hargsr⟩ := hrel
    obtain ⟨hid4, hal4, _⟩ := hmsgb p hp
    refine ⟨hid4, hal4, ?_⟩
    intro a ha
    apply hargsr
    rw [heqr] at ha
    exact ha
  have hsp : decode_string_pool (encode_string_pool (encPool input)) =
      .ok (encPool input) := decode_string_pool_roundtrip _ hplen hpb
  have hct : decode_case_tables (encode_case_tables (encTables input)) =
      .ok (encTables input) := decode_case_tables_roundtrip _ htlen htok
  have hmm : decode_message_meta
      (encode_message_meta (encMsgs input) (encPool input)) (encPool input) =
      .ok ((encMsgs input).foldl (fun a p => mapInsert a p.1 p.2.arg_names) []) :=
    decode_message_meta_roundtrip _ _ hmlen hplen hmetaok
  have hbound : 110 + ((encode_string_pool (encPool input)).length +
      ((encIndex input).length + (((encBlob input).1).length +
      ((encode_case_tables (encTables input)).length +
      ((encode_message_meta (encMsgs input) (encPool input)).length + 0))))) <
      4294967296 := by
    have h := hsum
    simp only [encSections, List.map_cons, List.map_nil, List.sum_cons,
      List.sum_nil] at h
    exact h
  have hB : encode_pack input = build_pack_bytes input.pack_kind
      input.id_map_hash (encItn1 input).2 (encParent input).2
      input.build_epoch_ms
      [(1, encode_string_pool (encPool input)), (2, encIndex input),
       (3, (encBlob input).1), (4, encode_case_tables (encTables input)),
       (5, encode_message_meta (encMsgs input) (encPool input))] := by
    rw [encode_pack_split]
    rfl
  have hgs := @getSection_entries (encode_string_pool (encPool input))
    (encIndex input) ((encBlob input).1)
    (encode_case_tables (encTables input))
    (encode_message_meta (encMsgs input) (encPool input))
    "missing string pool section" "missing message index section"
    "missing bytecode blob section" "missing case tables section"
    "missing message meta section"
  cases hk : input.pack_kind with
  | icuData => exact absurd hk hkind
  | base =>
      rw [hk] at hB
      have hidx : encIndex input = encode_dense_index (encBlob input).2 := by
        unfold encIndex
        rw [hk]
      have hdi : decode_dense_index (encode_dense_index (encBlob input).2) =
          .ok (denseSlots (encBlob input).2) :=
        decode_dense_index_roundtrip _ hmax hoffb
      have hgetp : ∀ q ∈ ((denseSlots (encBlob input).2).enum.filter
          fun p => p.2 ≠ u32MAX), mapGet (encBlob input).2 q.1 = some q.2 := by
        intro q hq
        exact (dense_pairs_mem (encBlob input).2 hoffb q.1 q.2).mp hq
      have hmemp : ∀ id off, mapGet (encBlob input).2 id = some off →
          (id, off) ∈ ((denseSlots (encBlob input).2).enum.filter
            fun p => p.2 ≠ u32MAX) := fun id off h =>
        (dense_pairs_mem (encBlob input).2 hoffb id off).mpr h
      have hcore := decode_messages_core input hwf
        ((denseSlots (encBlob input).2).enum.filter fun p => p.2 ≠ u32MAX)
      have hcore2 := hcore hgetp (dense_pairs_nodup _) hmemp
      obtain ⟨msgs, hloop, hprop⟩ := hcore2
      refine ⟨msgs, ?_, hprop⟩
      have hcount : readU16 (build_pack_bytes PackKind.base input.id_map_hash
          (encItn1 input).2 (encParent input).2 input.build_epoch_ms
          [(1, encode_string_pool (encPool input)), (2, encIndex input),
           (3, (encBlob input).1), (4, encode_case_tables (encTables input)),
           (5, encode_message_meta (encMsgs input) (encPool input))]) 63 =
          .ok (5, 65) := by
        have := build_read_count PackKind.base input.id_map_hash
          (encItn1 input).2 (encParent input).2 input.build_epoch_ms
          [(1, encode_string_pool (encPool input)), (2, encIndex input),
           (3, (encBlob input).1), (4, encode_case_tables (encTables input)),
           (5, encode_message_meta (encMsgs input) (encPool input))]
          hhash32 (by simp only [List.length_cons, List.length_nil]; omega)
        exact this
      obtain ⟨hpsd, hms⟩ := build_sections_decoded PackKind.base
        input.id_map_hash (encItn1 input).2 (encParent input).2
        input.build_epoch_ms (encode_string_pool (encPool input))
        (encIndex input) ((encBlob input).1)
        (encode_case_tables (encTables input))
        (encode_message_meta (encMsgs input) (encPool input)) hhash32 hbound
      unfold PackCatalog.decode
      rw [hB]
      rw [parse_pack_header_build_base input.id_map_hash (encItn1 input).2
        (encParent input).2 input.build_epoch_ms _ hhash32 hls4 hps hep]
      rw [exc_bind_ok]
      dsimp only
      rw [if_neg (fun hcon => hcon rfl)]
      rw [hcount, exc_bind_ok]
      dsimp only
      rw [hpsd, exc_bind_ok]
      rw [hms, exc_bind_ok]
      rw [hgs.1, exc_bind_ok]
      rw [hsp, exc_bind_ok]
      rw [hgs.2.2.2.1, exc_bind_ok]
      rw [hct, exc_bind_ok]
      rw [hgs.2.2.2.2, exc_bind_ok]
      rw [hmm, exc_bind_ok]
      rw [hgs.2.1, exc_bind_ok]
      have hdi2 : decode_dense_index (encIndex input) =
          .ok (denseSlots (encBlob input).2) := by
        rw [hidx]
        exact hdi
      rw [hdi2, exc_map_ok, exc_bind_ok]
      rw [hgs.2.2.1, exc_bind_ok]
      dsimp only
      rw [hloop, exc_bind_ok]
  | overlay =>
      rw [hk] at hB
      have hidx : encIndex input = encode_sparse_index (encBlob input).2 := by
        unfold encIndex
        rw [hk]
      have hlen2 : (encBlob input).2.length < 4294967296 := by
        rw [← List.Forall₂.length_eq hblob]
        exact hmlen
      have hpair : ∀ p ∈ (encBlob input).2, p.1 < 4294967296 ∧
          p.2 < 4294967296 := by
        intro p hp
        obtain ⟨m, hm, hrel⟩ := forall2_mem_right _ (encMsgs input)
          (encBlob input).2 hblob p hp
        constructor
        · rw [hrel.1]
          exact (hmsgb m hm).1
        · have := hoffb p hp
          unfold u32MAX at this
          omega
      have hsi : decode_sparse_index (encode_sparse_index (encBlob input).2) =
          .ok (encBlob input).2 := decode_sparse_index_roundtrip _ hlen2 hpair
      have hgetp : ∀ q ∈ (encBlob input).2,
          mapGet (encBlob input).2 q.1 = some q.2 :=
        fun q hq => mapGet_of_mem_nodup _ q.1 q.2 hq hndblob
      have hmemp : ∀ id off, mapGet (encBlob input).2 id = some off →
          (id, off) ∈ (encBlob input).2 := fun id off h => mapGet_mem _ id off h
      have hcore := decode_messages_core input hwf (encBlob input).2
      have hcore2 := hcore hgetp hndblob hmemp
      obtain ⟨msgs, hloop, hprop⟩ := hcore2
      refine ⟨msgs, ?_, hprop⟩
      have hcount : readU16 (build_pack_bytes PackKind.overlay
          input.id_map_hash (encItn1 input).2 (encParent input).2
          input.build_epoch_ms
          [(1, encode_string_pool (encPool input)), (2, encIndex input),
           (3, (encBlob input).1), (4, encode_case_tables (encTables input)),
           (5, encode_message_meta (encMsgs input) (encPool input))]) 63 =
          .ok (5, 65) := by
        have := build_read_count PackKind.overlay input.id_map_hash
          (encItn1 input).2 (encParent input).2 input.build_epoch_ms
          [(1, encode_string_pool (encPool input)), (2, encIndex input),
           (3, (encBlob input).1), (4, encode_case_tables (encTables input)),
           (5, encode_message_meta (encMsgs input) (encPool input))]
          hhash32 (by simp only [List.length_cons, List.length_nil]; omega)
        exact this
      obtain ⟨hpsd, hms⟩ := build_sections_decoded PackKind.overlay
        input.id_map_hash (encItn1 input).2 (encParent input).2
        input.build_epoch_ms (encode_string_pool (encPool input))
        (encIndex input) ((encBlob input).1)
        (encode_case_tables (encTables input))
        (encode_message_meta (encMsgs input) (encPool input)) hhash32 hbound
      unfold PackCatalog.decode
      rw [hB]
      rw [parse_pack_header_build_overlay input.id_map_hash (encItn1 input).2
        (encParent input).2 input.build_epoch_ms _ hhash32 hls4 hps hep]
      rw [exc_bind_ok]
      dsimp only
      rw [if_neg (fun hcon => hcon rfl)]
      rw [hcount, exc_bind_ok]
      dsimp only
      rw [hpsd, exc_bind_ok]
      rw [hms, exc_bind_ok]
      rw [hgs.1, exc_bind_ok]
      rw [hsp, exc_bind_ok]
      rw [hgs.2.2.2.1, exc_bind_ok]
      rw [hct, exc_bind_ok]
      rw [hgs.2.2.2.2, exc_bind_ok]
      rw [hmm, exc_bind_ok]
      rw [hgs.2.1, exc_bind_ok]
      have hsi2 : decode_sparse_index (encIndex input) =
          .ok (encBlob input).2 := by
        rw [hidx]
        exact hsi
      rw [hsi2, exc_map_ok, exc_bind_ok]
      rw [hgs.2.2.1, exc_bind_ok]
      dsimp only
      rw [hloop, exc_bind_ok]

/-- String-pool index renaming of a single opcode, read off the round-trip
claim wording: a renaming may replace the string index of EmitText and
PushStr but changes nothing else, in particular not the table operand of
Select or SelectPlural. -/
def renameStrings (f : Nat → Nat) : Opcode → Opcode
  | .emitText sidx => .emitText (f sidx)
  | .pushStr sidx => .pushStr (f sidx)
  | other => other

/-- A two-message build input whose messages each carry one local case
table; all strings are distinct across messages. -/
def cexInput : PackBuildInput :=
  ⟨PackKind.base, List.replicate 32 0, "en", none, 0,
   [(0, ⟨[.select 0 0, .emitText 0, .endOp], ["hello"], [], [⟨[⟨.other, 1⟩]⟩], ["n"]⟩),
    (1, ⟨[.select 0 0, .emitText 0, .endOp], ["foo"], [], [⟨[⟨.other, 1⟩]⟩], ["k"]⟩)]⟩

/-- Counterexample for C2 as stated: encode and decode the two-message pack
cexInput, whose string pools share no string.  The decoded second message
holds the opcodes [Select 0 1, EmitText 3, End]: its Select table operand is
1, offset by the case-table count contributed by the first message, while
every pure string-pool index renaming of the original opcodes
[Select 0 0, EmitText 0, End] keeps the table operand 0.  The decoded
opcode sequence therefore differs from the original by more than a
string-pool index renaming. -/
theorem pack_decode_table_offset_counterexample :
    ∃ orig msgs dec,
      mapGet cexInput.messages 1 = some orig ∧
      PackCatalog.decode (encode_pack cexInput) cexInput.id_map_hash =
        .ok ⟨⟨0, PackKind.base, 0, List.replicate 32 0, 0, none, 0⟩, msgs⟩ ∧
      mapGet msgs 1 = some dec ∧
      ∀ f : Nat → Nat, dec.opcodes ≠ orig.opcodes.map (renameStrings f) := by
  refine ⟨⟨[.select 0 0, .emitText 0, .endOp], ["foo"], [], [⟨[⟨.other, 1⟩]⟩], ["k"]⟩,
    [(0, ⟨[.select 0 0, .emitText 1, .endOp], ["en", "hello", "n", "foo", "k"], [],
       [⟨[⟨.other, 1⟩]⟩, ⟨[⟨.other, 1⟩]⟩], ["n"]⟩),
     (1, ⟨[.select 0 1, .emitText 3, .endOp], ["en", "hello", "n", "foo", "k"], [],
       [⟨[⟨.other, 1⟩]⟩, ⟨[⟨.other, 1⟩]⟩], ["k"]⟩)],
    ⟨[.select 0 1, .emitText 3, .endOp], ["en", "hello", "n", "foo", "k"], [],
       [⟨[⟨.other, 1⟩]⟩, ⟨[⟨.other, 1⟩]⟩], ["k"]⟩,
    by decide, by decide, by decide, ?_⟩
  intro f h
  have h0 := congrArg (fun l => l.get? 0) h
  simp [renameStrings] at h0

/-- C2 (amended): for every well-formed build input whose kind is Base or
Overlay, decoding the encoded pack against the same id-map hash succeeds
and returns the header written by the encoder; every input message id maps
to a decoded program whose opcode sequence is the original one mapped
through remapOpcode — string indices renamed through the interner mapping
AND Select/SelectPlural table operands offset by the running case-table
count — and executing the decoded program with any argument map, backend
and fuel gives exactly the result of executing the original. -/
theorem pack_roundtrip_semantic (input : PackBuildInput) (hwf : EncodeWF input) :
    ∃ msgs,
      PackCatalog.decode (encode_pack input) input.id_map_hash =
        .ok ⟨⟨0, input.pack_kind, 0, input.id_map_hash, (encItn1 input).2,
          (encParent input).2, input.build_epoch_ms⟩, msgs⟩ ∧
      ∀ id prog, mapGet input.messages id = some prog →
        ∃ dec mapping off, mapGet msgs id = some dec ∧
          dec.opcodes = prog.opcodes.map (remapOpcode mapping off) ∧
          ∀ (args : Args) (backend : FormatBackend) (fuel : Nat),
            executeFuel dec args backend fuel =
              executeFuel prog args backend fuel := by
  obtain ⟨msgs, hdec, hmsg⟩ := decode_encode_pack input hwf
  refine ⟨msgs, hdec, ?_⟩
  intro id prog hp
  obtain ⟨mapping, off, hget, hsim⟩ := hmsg id prog hp
  refine ⟨_, mapping, off, hget, rfl, ?_⟩
  intro args backend fuel
  exact executeFuel_equiv hsim (hwf.2.2.2.2.1 (id, prog) (mapGet_mem _ _ _ hp))
    args backend fuel

/-- A minimal well-formed build input for the C2 witness. -/
def wIn : PackBuildInput :=
  ⟨PackKind.base, List.replicate 32 1, "en", none, 5,
   [(0, ⟨[.emitText 0, .endOp], ["hi"], [], [], []⟩)]⟩

/-- Witness for C2 at wIn: the well-formedness side condition holds by
computation and the round-trip theorem applies. -/
theorem pack_roundtrip_semantic_witness :
    EncodeWF wIn ∧
    (∃ msgs,
      PackCatalog.decode (encode_pack wIn) wIn.id_map_hash =
        .ok ⟨⟨0, wIn.pack_kind, 0, wIn.id_map_hash, (encItn1 wIn).2,
          (encParent wIn).2, wIn.build_epoch_ms⟩, msgs⟩ ∧
      ∀ id prog, mapGet wIn.messages id = some prog →
        ∃ dec mapping off, mapGet msgs id = some dec ∧
          dec.opcodes = prog.opcodes.map (remapOpcode mapping off) ∧
          ∀ (args : Args) (backend : FormatBackend) (fuel : Nat),
            executeFuel dec args backend fuel =
              executeFuel prog args backend fuel) :=
  ⟨by decide, pack_roundtrip_semantic wIn (by decide)⟩

end Mf2
